import Mathlib

/-!
# jw_avltree: a shallow embedding of `jw_avltree.c` and proofs about it

Payloads (`void *data`) are values of an arbitrary type `α`; the comparator
`t->cmp` is a function `cmp : α → α → Int` (its `ptrdiff_t` result), passed to
every operation. Pointers to nodes become values of the inductive type
`avl_node`; the in-place updates of the C code become explicit rebuilding of
the nodes on the recorded path. The arrays `up[64]` / `upd[64]` are a list of
`path_slot`s whose head is the top of the stack and whose length is `top`; a
write `upd[top] = ...; up[top++] = ...` with `top` at 64 or more lies outside
the arrays and is the result `none`, as are dereferencing `NULL` and a failed
`__ASSERT`. The field `int height` is an `Int`; the field `size_t size` is a
natural number updated modulo `2 ^ 64`. The calls of `t->free` are the list of
payloads it was called on; `__MALLOC` succeeding or not is a Boolean argument.
-/

namespace JwAvl

/-- A `struct avl_node *`: `null` is `NULL`, `node link0 link1 height data`
is a node with `link[0] = link0` and `link[1] = link1`. -/
inductive avl_node (α : Type) where
  | null : avl_node α
  | node (link0 link1 : avl_node α) (height : Int) (data : α) : avl_node α
  deriving DecidableEq

/-- The mutable fields of `struct avl_root`: `root` and `size` (a `size_t`).
The fields `cmp` and `free` are set once and are parameters here. -/
structure avl_root (α : Type) where
  root : avl_node α
  size : Nat
  deriving DecidableEq

/-- Number of values of `size_t`. -/
def SIZE_T_MOD : Nat := 2 ^ 64

/-- Value of `ENOENT` in `<errno.h>`. -/
def ENOENT : Int := 2
/-- Value of `ENOMEM` in `<errno.h>`. -/
def ENOMEM : Int := 12
/-- Value of `EEXIST` in `<errno.h>`. -/
def EEXIST : Int := 17

/-- `#define __MAX(a, b) (((a) > (b)) ? (a) : (b))` -/
def __MAX (a b : Int) : Int := if a > b then a else b

/-- `#define __ABS(a, b) (((a) > (b)) ? ((a) - (b)) : ((b) - (a)))` -/
def __ABS (a b : Int) : Int := if a > b then a - b else b - a

/-- `#define __HEIGHT(node) ((node) == NULL ? -1 : (node)->height)` -/
def __HEIGHT {α : Type} : avl_node α → Int
  | .null => -1
  | .node _ _ h _ => h

/-- One slot of the path stack: the node `up[i]` (its `height`, its `data`
and its child `other = up[i]->link[!upd[i]]`) together with the direction
`upd[i]`. The child `up[i]->link[upd[i]]` is the subtree the operation works
on below the slot; the walk back up supplies its current state. -/
structure path_slot (α : Type) where
  upd : Bool
  height : Int
  data : α
  other : avl_node α
  deriving DecidableEq

/-- The node with `link[dir] = child`, `link[!dir] = other`. -/
def link_node {α : Type} (dir : Bool) (child other : avl_node α) (h : Int) (d : α) :
    avl_node α :=
  if dir then .node other child h d else .node child other h d

/-- The node `up[i]` with `child` as its `link[upd[i]]`. -/
def path_slot.node {α : Type} (s : path_slot α) (child : avl_node α) : avl_node α :=
  link_node s.upd child s.other s.height s.data

/-- The tree seen from the bottom of the stack when the nodes on the stack
are left as they are and the node on top has `n` as its `link[upd]`. -/
def relink {α : Type} : List (path_slot α) → avl_node α → avl_node α
  | [], n => n
  | s :: up, n => relink up (s.node n)

/-- `_make_node`: `alloc` is whether `__MALLOC` returns a node. -/
def _make_node {α : Type} (alloc : Bool) (data : α) : avl_node α :=
  if alloc then .node .null .null 0 data else .null

/-- `_avl_rot1(root, dir)`: `save = root->link[!dir]` replaces `root`, which
becomes `save->link[dir]`; the heights of both are recomputed. -/
def _avl_rot1 {α : Type} : avl_node α → Bool → Option (avl_node α)
  | .node l (.node sl sr _ sd) _ d, false =>
      let rlh := __HEIGHT l
      let rrh := __HEIGHT sl
      let slh := __HEIGHT sr
      let rooth := __MAX rlh rrh + 1
      some (.node (.node l sl rooth d) sr (__MAX slh rooth + 1) sd)
  | .node (.node sl sr _ sd) r _ d, true =>
      let rlh := __HEIGHT sr
      let rrh := __HEIGHT r
      let slh := __HEIGHT sl
      let rooth := __MAX rlh rrh + 1
      some (.node sl (.node sr r rooth d) (__MAX slh rooth + 1) sd)
  | _, _ => none

/-- `_avl_rot2(root, dir)`:
`root->link[!dir] = _avl_rot1(root->link[!dir], !dir); return _avl_rot1(root, dir);` -/
def _avl_rot2 {α : Type} : avl_node α → Bool → Option (avl_node α)
  | .null, _ => none
  | .node l r h d, false => (_avl_rot1 r true).bind fun r1 => _avl_rot1 (.node l r1 h d) false
  | .node l r h d, true => (_avl_rot1 l false).bind fun l1 => _avl_rot1 (.node l1 r h d) true

/-- `avl_size`: `none` is the failed assertion `t->size == 0` on an empty tree. -/
def avl_size {α : Type} (t : avl_root α) : Option Nat :=
  match t.root with
  | .null => if t.size = 0 then some t.size else none
  | .node _ _ _ _ => some t.size

/-- The loop of `avl_find`, started at `it`. -/
def avl_find_loop {α : Type} (cmp : α → α → Int) (data : α) : avl_node α → Int
  | .null => 0
  | .node l r _ d =>
      if cmp d data = 0 then 1
      else if cmp d data < 0 then avl_find_loop cmp data r
      else avl_find_loop cmp data l

/-- `avl_find`: the result and the tree after the call (the function takes a
`const struct avl_root *` and writes nothing). -/
def avl_find {α : Type} (cmp : α → α → Int) (t : avl_root α) (data : α) :
    Int × avl_root α :=
  (avl_find_loop cmp data t.root, t)

/-- The number of slots of the arrays `up[64]` and `upd[64]`. -/
def PATH_SLOTS : Nat := 64

/-- The search loop of `avl_insert`, at node `it` with stack `up` (`top` is the
length of `up`): `none` is the write `upd[top] = diff < 0; up[top++] = it` with
`top` outside the arrays, `some none` is `return EEXIST`, `some (some up1)` is
the stack at the `break` (its top is the node whose `link[upd]` is `NULL`).
The test `it->link[upd[top - 1]] == NULL` is the `null` case of the next call. -/
def insert_search {α : Type} (cmp : α → α → Int) (data : α) :
    avl_node α → List (path_slot α) → Option (Option (List (path_slot α)))
  | .null, up => some (some up)
  | .node l r h d, up =>
      if cmp d data = 0 then some none
      else if PATH_SLOTS ≤ up.length then none
      else if cmp d data < 0 then insert_search cmp data r (⟨true, h, d, l⟩ :: up)
      else insert_search cmp data l (⟨false, h, d, r⟩ :: up)

/-- One iteration of the loop `while (--top >= 0 && !done)` of `avl_insert`
at the slot `s = (up[top], upd[top])`, whose `link[upd[top]]` is currently `n`:
the node `up[top]` after the iteration (the one linked into its parent) and
the value of `done`. -/
def insert_step {α : Type} (s : path_slot α) (n : avl_node α) : Option (avl_node α × Bool) :=
  let lh := __HEIGHT n
  let rh := __HEIGHT s.other
  if lh - rh = 0 then
    some (link_node s.upd n s.other (__MAX lh rh + 1) s.data, true)
  else if lh - rh ≥ 2 then
    match n with
    | .null => none
    | .node n0 n1 _ _ =>
        let a := if s.upd then n1 else n0
        let b := if s.upd then n0 else n1
        let rot := if __HEIGHT a ≥ __HEIGHT b then _avl_rot1 (s.node n) (!s.upd)
                   else _avl_rot2 (s.node n) (!s.upd)
        match rot with
        | none => none
        | some .null => none
        | some (.node t0 t1 _ td) =>
            let lh1 := __HEIGHT (if s.upd then t1 else t0)
            let rh1 := __HEIGHT (if s.upd then t0 else t1)
            some (.node t0 t1 (__MAX lh1 rh1 + 1) td, true)
  else
    some (link_node s.upd n s.other (__MAX lh rh + 1) s.data, false)

/-- The loop `while (--top >= 0 && !done)` of `avl_insert`: `n` is the current
`up[top]->link[upd[top]]` of the slot on top. Once `done` is set the nodes
further up are left as they are. -/
def insert_walk {α : Type} : List (path_slot α) → avl_node α → Bool → Option (avl_node α)
  | [], n, _ => some n
  | s :: up, n, true => some (relink (s :: up) n)
  | s :: up, n, false =>
      match insert_step s n with
      | none => none
      | some (n1, done) => insert_walk up n1 done

/-- `avl_insert`: the returned code and the tree after the call; `alloc` is
whether `__MALLOC` succeeds in `_make_node`. The result is `none` when the
assertion fails, when the search loop writes outside `up[64]` / `upd[64]`, or
when the walk dereferences `NULL`. -/
def avl_insert {α : Type} (cmp : α → α → Int) (alloc : Bool) (t : avl_root α) (data : α) :
    Option (Int × avl_root α) :=
  match t.root with
  | .null =>
      if t.size ≠ 0 then none
      else
        match _make_node alloc data with
        | .null => some (ENOMEM, { t with root := .null })
        | .node a b h d => some (0, ⟨.node a b h d, (t.size + 1) % SIZE_T_MOD⟩)
  | .node l r h d =>
      if (t.size + 1) % SIZE_T_MOD = 0 then some (ENOMEM, t)
      else
        match insert_search cmp data (.node l r h d) [] with
        | none => none
        | some none => some (EEXIST, t)
        | some (some up) =>
            match _make_node alloc data with
            | .null => some (ENOMEM, { t with root := relink up .null })
            | .node a b h1 d1 =>
                (insert_walk up (.node a b h1 d1) false).map fun r =>
                  (0, ⟨r, (t.size + 1) % SIZE_T_MOD⟩)

/-- The search loop of `avl_remove`, at node `it` with stack `up` (`top` is the
length of `up`): `none` is the write `upd[top] = diff < 0; up[top++] = it` with
`top` outside the arrays, `some none` is `return ENOENT`, otherwise the stack
and the node `it` at the `break`. -/
def remove_search {α : Type} (cmp : α → α → Int) (data : α) :
    avl_node α → List (path_slot α) → Option (Option (List (path_slot α) × avl_node α))
  | .null, _ => some none
  | .node l r h d, up =>
      if cmp d data = 0 then some (some (up, .node l r h d))
      else if PATH_SLOTS ≤ up.length then none
      else if cmp d data < 0 then remove_search cmp data r (⟨true, h, d, l⟩ :: up)
      else remove_search cmp data l (⟨false, h, d, r⟩ :: up)

/-- The loop `while (heir->link[0] != NULL)` of `avl_remove`, at the node
`heir` with `top` slots of the arrays in use: `up` collects the slots this
loop pushes, and the result is these slots and the final `heir`; `none` is the
write `upd[top] = 0; up[top++] = heir` with `top` outside the arrays. -/
def heir_search {α : Type} :
    avl_node α → Nat → List (path_slot α) → Option (List (path_slot α) × avl_node α)
  | .null, _, up => some (up, .null)
  | .node l r h d, top, up =>
      match l with
      | .null => some (up, .node l r h d)
      | .node _ _ _ _ =>
          if PATH_SLOTS ≤ top then none
          else heir_search l (top + 1) (⟨false, h, d, r⟩ :: up)

/-- One iteration of the loop `while (--top >= 0)` of `avl_remove` at the
slot `s = (up[top], upd[top])`, whose `link[upd[top]]` is currently `n`: the
node `up[top]` after the iteration and whether the loop was left by `break`. -/
def remove_step {α : Type} (s : path_slot α) (n : avl_node α) : Option (avl_node α × Bool) :=
  let lh := __HEIGHT n
  let rh := __HEIGHT s.other
  let top := link_node s.upd n s.other (__MAX lh rh + 1) s.data
  if lh - rh = -1 then some (top, true)
  else if lh - rh ≤ -2 then
    match s.other with
    | .null => none
    | .node o0 o1 _ _ =>
        let a := if s.upd then o1 else o0
        let b := if s.upd then o0 else o1
        let rot := if __HEIGHT a ≤ __HEIGHT b then _avl_rot1 top s.upd
                   else _avl_rot2 top s.upd
        match rot with
        | none => none
        | some top1 => some (top1, false)
  else some (top, false)

/-- The loop `while (--top >= 0)` of `avl_remove`: `n` is the current
`up[top]->link[upd[top]]` of the slot on top. After `break` the nodes further
up are left as they are. -/
def remove_walk {α : Type} : List (path_slot α) → avl_node α → Option (avl_node α)
  | [], n => some n
  | s :: up, n =>
      match remove_step s n with
      | none => none
      | some (n1, true) => some (relink up n1)
      | some (n1, false) => remove_walk up n1

/-- The block "Remove the node" of `avl_remove` at the node `it` with stack
`up`: the stack after it, the subtree linked in place of the unlinked node, and
the payload `t->free` is called on. In the two-children case the slots of the
successor descent lie above the slot of `it` (pushed with `upd = 1`), whose
`data` is overwritten by `it->data = heir->data`; `up[top - 1] == it` holds
exactly when the slot on top has `upd = 1`. The result is `none` when the
write `upd[top] = 1; up[top++] = it` or a write of the successor descent is
outside the arrays. -/
def remove_node {α : Type} (up : List (path_slot α)) :
    avl_node α → Option (List (path_slot α) × avl_node α × α)
  | .null => none
  | .node .null l1 _ d => some (up, l1, d)
  | .node (.node a b c e) .null _ d => some (up, .node a b c e, d)
  | .node (.node a b c e) (.node a1 b1 c1 e1) h _ =>
      if PATH_SLOTS ≤ up.length then none
      else
        match heir_search (.node a1 b1 c1 e1) (up.length + 1) [] with
        | none => none
        | some (_, .null) => none
        | some (hs, .node _ h1 _ hd) =>
            some (hs ++ ⟨true, h, hd, .node a b c e⟩ :: up, h1, hd)

/-- `avl_remove`: the returned code, the tree after the call and the payloads
`t->free` was called on. The result is `none` when a write to `up[64]` /
`upd[64]` is outside the arrays or the walk dereferences `NULL`. -/
def avl_remove {α : Type} (cmp : α → α → Int) (t : avl_root α) (data : α) :
    Option (Int × avl_root α × List α) :=
  match remove_search cmp data t.root [] with
  | none => none
  | some none => some (ENOENT, t, [])
  | some (some (up, it)) =>
      match remove_node up it with
      | none => none
      | some (up1, n, freed) =>
          (remove_walk up1 n).map fun r =>
            (0, ⟨r, (t.size + SIZE_T_MOD - 1) % SIZE_T_MOD⟩, [freed])

/-- `_avl_foreach_core`: the payloads `iter_f` is called on, in call order. -/
def _avl_foreach_core {α : Type} : avl_node α → List α
  | .null => []
  | .node l r _ d =>
      (match l with
        | .null => []
        | .node _ _ _ _ => _avl_foreach_core l) ++ d :: _avl_foreach_core r

/-- `avl_foreach`: the payloads the callback is called on, in call order. -/
def avl_foreach {α : Type} (t : avl_root α) : List α := _avl_foreach_core t.root

/-- `_avl_assert_r` (DEBUG build): `none` is a failed assertion, otherwise the
returned size. The `goto out_iter` on `link[1]` adds the count of the right
subtree to `size`. -/
def _avl_assert_r {α : Type} (cmp : α → α → Int) : avl_node α → Option Nat
  | .null => some 0
  | .node l r _ d =>
      let left : Option Nat :=
        match l with
        | .null => some 0
        | .node _ _ _ ld => if cmp ld d < 0 then _avl_assert_r cmp l else none
      match left with
      | none => none
      | some sl =>
          match r with
          | .null =>
              if __ABS (__HEIGHT l) (__HEIGHT r) ≤ 1 then some ((1 + sl) % SIZE_T_MOD) else none
          | .node _ _ _ rd =>
              if cmp rd d > 0 then
                (_avl_assert_r cmp r).map fun sr => (1 + sl + sr) % SIZE_T_MOD
              else none

/-- `avl_assert` (DEBUG build): whether every assertion holds. -/
def avl_assert {α : Type} (cmp : α → α → Int) (t : avl_root α) : Bool :=
  match _avl_assert_r cmp t.root with
  | none => false
  | some n => decide (n = t.size)

/-- The loop `while (iter != NULL)` of `_avl_free_core`, run for at most
`fuel` tests of its condition: `none` says that more tests are needed,
otherwise the result is `tree->size`, the DEBUG counter `size1` and the
payloads `tree->free` was called on, in call order. A node without left child
is freed; otherwise its left child `save` is rotated above it
(`iter->link[0] = save->link[1]; save->link[1] = iter;`). -/
def free_loop {α : Type} : Nat → avl_node α → Nat → Nat → List α → Option (Nat × Nat × List α)
  | 0, _, _, _, _ => none
  | _ + 1, .null, size, size1, freed => some (size, size1, freed)
  | fuel + 1, .node .null r _ d, size, size1, freed =>
      free_loop fuel r ((size + SIZE_T_MOD - 1) % SIZE_T_MOD) ((size1 + 1) % SIZE_T_MOD)
        (freed ++ [d])
  | fuel + 1, .node (.node a b h1 d1) r h d, size, size1, freed =>
      free_loop fuel (.node a (.node b r h d) h1 d1) size size1 freed

/-- `_avl_free_core(t, fully)` on a handle (DEBUG build), its loop run with
`fuel`: `none` is a failed assertion (or a loop that needs more than `fuel`
tests), otherwise the handle after the call (`none` when it was freed and `*t`
set to `NULL`) and the payloads `tree->free` was called on. -/
def _avl_free_core {α : Type} (fuel : Nat) (t : avl_root α) (fully : Bool) :
    Option (Option (avl_root α) × List α) :=
  match free_loop fuel t.root t.size 0 [] with
  | none => none
  | some (size, size1, freed) =>
      if t.size ≠ size1 then none
      else if size ≠ 0 then none
      else some (if fully then none else some ⟨.null, size⟩, freed)

/-- `avl_free`: the handle is gone after the call. -/
def avl_free {α : Type} (fuel : Nat) (t : avl_root α) : Option (Option (avl_root α) × List α) :=
  _avl_free_core fuel t true

/-- `avl_clear`: the handle after the call and the payloads the destructor
was called on. -/
def avl_clear {α : Type} (fuel : Nat) (t : avl_root α) : Option (avl_root α × List α) :=
  match _avl_free_core fuel t false with
  | some (some t1, freed) => some (t1, freed)
  | _ => none

/-- The result type `ptrdiff_t`: the integer congruent to `x` modulo `2 ^ 64`
in the range from `-2 ^ 63` to `2 ^ 63 - 1`. -/
def wrap_ptrdiff (x : Int) : Int := (x + 2 ^ 63) % 2 ^ 64 - 2 ^ 63

/-- `_avl_raw_cmp(a, b) { return a - b; }` on two pointers, given as their
64-bit values. -/
def _avl_raw_cmp (a b : Nat) : Int := wrap_ptrdiff ((a : Int) - (b : Int))

/-- All four fields of `struct avl_root` for payloads that are raw pointer
values; `φ` is the type of destructors. -/
structure avl_handle (φ : Type) where
  tree : avl_root Nat
  cmp : Nat → Nat → Int
  free : φ

/-- `avl_alloc(cmp_f, free_f)`: `none` as an argument is `NULL`, `alloc` is
whether `__MALLOC` succeeds, the result `none` is the returned `NULL`;
`raw_free` stands for `_avl_raw_free`. -/
def avl_alloc {φ : Type} (raw_free : φ) (alloc : Bool) (cmp_f : Option (Nat → Nat → Int))
    (free_f : Option φ) : Option (avl_handle φ) :=
  if alloc then
    some ⟨⟨.null, 0⟩,
      match cmp_f with
      | some f => f
      | none => _avl_raw_cmp,
      match free_f with
      | some f => f
      | none => raw_free⟩
  else none

/-! ## Specification vocabulary -/

/-- The payloads of a subtree in order: left subtree, node, right subtree. -/
def payloads {α : Type} : avl_node α → List α
  | .null => []
  | .node l r _ d => payloads l ++ d :: payloads r

/-- The number of nodes reachable from a node. -/
def count {α : Type} : avl_node α → Nat
  | .null => 0
  | .node l r _ _ => count l + count r + 1

/-- Search-order invariant: at every node, every payload of the left subtree
compares strictly less than the payload of the node and every payload of the
right subtree strictly greater. -/
def search_order {α : Type} (cmp : α → α → Int) : avl_node α → Prop
  | .null => True
  | .node l r _ d =>
      (∀ x ∈ payloads l, cmp x d < 0) ∧ (∀ x ∈ payloads r, cmp x d > 0) ∧
        search_order cmp l ∧ search_order cmp r

/-- Balance invariant: `|height(left) - height(right)| ≤ 1` at every node. -/
def balanced {α : Type} : avl_node α → Prop
  | .null => True
  | .node l r _ _ => |__HEIGHT l - __HEIGHT r| ≤ 1 ∧ balanced l ∧ balanced r

/-- Every cached height is 1 + the maximum of the heights of the children,
where an absent child has height -1. -/
def heights_cached {α : Type} : avl_node α → Prop
  | .null => True
  | .node l r h _ => h = 1 + max (__HEIGHT l) (__HEIGHT r) ∧ heights_cached l ∧ heights_cached r

/-- A lawful three-way comparator of a total order: the sign of `cmp a b` is
opposite to the sign of `cmp b a`, and "not greater" is transitive. -/
structure lawful {α : Type} (cmp : α → α → Int) : Prop where
  antisymm : ∀ a b, cmp a b < 0 ↔ 0 < cmp b a
  trans : ∀ a b c, cmp a b ≤ 0 → cmp b c ≤ 0 → cmp a c ≤ 0

/-- A well-formed tree: the three invariants of the nodes, and a `size` field
that is a `size_t` equal to the number of nodes. -/
structure well_formed {α : Type} (cmp : α → α → Int) (t : avl_root α) : Prop where
  order : search_order cmp t.root
  balance : balanced t.root
  heights : heights_cached t.root
  size_eq : t.size = count t.root
  size_lt : t.size < SIZE_T_MOD

/-- Balance and cached heights together, in the form the proofs use. -/
def avl {α : Type} : avl_node α → Prop
  | .null => True
  | .node l r h _ =>
      avl l ∧ avl r ∧ h = __MAX (__HEIGHT l) (__HEIGHT r) + 1 ∧
        __HEIGHT l - __HEIGHT r ≤ 1 ∧ __HEIGHT r - __HEIGHT l ≤ 1

/-- The comparator of the examples: the difference of two integers. -/
def int_cmp (a b : Int) : Int := a - b

/-- Shape of a subtree whose height has just grown: a node whose children
differ in height, or a leaf. -/
def grown {α : Type} : avl_node α → Prop
  | .null => False
  | .node l r h _ => __HEIGHT l ≠ __HEIGHT r ∨ h = 0

/-- What the search loop of `avl_insert` does when none of its writes leaves
the arrays: `none` is `return EEXIST`, `some up1` is the stack at the `break`,
one slot for every node the loop went through. -/
def insert_descent {α : Type} (cmp : α → α → Int) (data : α) :
    avl_node α → List (path_slot α) → Option (List (path_slot α))
  | .null, up => some up
  | .node l r h d, up =>
      if cmp d data = 0 then none
      else if cmp d data < 0 then insert_descent cmp data r (⟨true, h, d, l⟩ :: up)
      else insert_descent cmp data l (⟨false, h, d, r⟩ :: up)

/-- What the search loop of `avl_remove` does when none of its writes leaves
the arrays: `none` is `return ENOENT`, otherwise the stack and the node `it`
at the `break`. -/
def remove_descent {α : Type} (cmp : α → α → Int) (data : α) :
    avl_node α → List (path_slot α) → Option (List (path_slot α) × avl_node α)
  | .null, _ => none
  | .node l r h d, up =>
      if cmp d data = 0 then some (up, .node l r h d)
      else if cmp d data < 0 then remove_descent cmp data r (⟨true, h, d, l⟩ :: up)
      else remove_descent cmp data l (⟨false, h, d, r⟩ :: up)

/-- What the loop `while (heir->link[0] != NULL)` does when none of its writes
leaves the arrays: the slots pushed and the final `heir`. -/
def heir_descent {α : Type} :
    avl_node α → List (path_slot α) → List (path_slot α) × avl_node α
  | .null, up => (up, .null)
  | .node l r h d, up =>
      match l with
      | .null => (up, .node l r h d)
      | .node _ _ _ _ => heir_descent l (⟨false, h, d, r⟩ :: up)

/-- What the block "Remove the node" of `avl_remove` does when none of its
writes leaves the arrays. -/
def unlink_descent {α : Type} (up : List (path_slot α)) :
    avl_node α → Option (List (path_slot α) × avl_node α × α)
  | .null => none
  | .node .null l1 _ d => some (up, l1, d)
  | .node (.node a b c e) .null _ d => some (up, .node a b c e, d)
  | .node (.node a b c e) (.node a1 b1 c1 e1) h _ =>
      match heir_descent (.node a1 b1 c1 e1) [] with
      | (_, .null) => none
      | (hs, .node _ h1 _ hd) => some (hs ++ ⟨true, h, hd, .node a b c e⟩ :: up, h1, hd)

/-- The number of slots the search loops of `avl_insert` and `avl_remove` push
below a node: one for every node they compare with and leave. -/
def search_pushes {α : Type} (cmp : α → α → Int) (data : α) : avl_node α → Nat
  | .null => 0
  | .node l r _ d =>
      if cmp d data = 0 then 0
      else if cmp d data < 0 then search_pushes cmp data r + 1
      else search_pushes cmp data l + 1

/-- The number of slots the loop `while (heir->link[0] != NULL)` pushes. -/
def heir_pushes {α : Type} : avl_node α → Nat
  | .null => 0
  | .node l _ _ _ =>
      match l with
      | .null => 0
      | .node _ _ _ _ => heir_pushes l + 1

/-- The number of slots the block "Remove the node" pushes at the node `it`. -/
def unlink_pushes {α : Type} : avl_node α → Nat
  | .node (.node _ _ _ _) (.node a1 b1 c1 e1) _ _ => heir_pushes (.node a1 b1 c1 e1) + 1
  | _ => 0

/-- The number of slots `avl_remove` pushes below a node: the search for the
target, and the slots of the block "Remove the node" when it is found. -/
def remove_pushes {α : Type} (cmp : α → α → Int) (data : α) : avl_node α → Nat
  | .null => 0
  | .node l r h d =>
      if cmp d data = 0 then unlink_pushes (.node l r h d)
      else if cmp d data < 0 then remove_pushes cmp data r + 1
      else remove_pushes cmp data l + 1

/-- How the walk of `avl_remove` continues above a subtree that was replaced
by `T`: either the loop goes on with `T` as the current child, or it was left
by `break` with the height unchanged and `T` stays linked in place. `P up res`
says that the code run below, entered with stack `up`, ends with `res`. -/
def walks_to {α : Type} (P : List (path_slot α) → Option (avl_node α) → Prop) (T : avl_node α)
    (h0 : Int) : Prop :=
  (∀ up, P up (remove_walk up T)) ∨ (__HEIGHT T = h0 ∧ ∀ up, P up (some (relink up T)))

/-- The search, the unlinking and the walk of `avl_remove` below the node `t`,
entered with stack `up`, end with `res`. -/
def removes {α : Type} (cmp : α → α → Int) (data : α) (t : avl_node α) (up : List (path_slot α))
    (res : Option (avl_node α)) : Prop :=
  ∃ up1 it stk n f, remove_descent cmp data t up = some (up1, it) ∧
    unlink_descent up1 it = some (stk, n, f) ∧ remove_walk stk n = res

/-- Inserting the keys of a list one by one with `avl_insert` (allocation
succeeding), whatever code each call returns: the loop of `test1`. -/
def insert_list {α : Type} (cmp : α → α → Int) : List α → avl_root α → Option (avl_root α)
  | [], t => some t
  | k :: ks, t =>
      match avl_insert cmp true t k with
      | none => none
      | some (_, t1) => insert_list cmp ks t1

/-- The distinct keys of `ks` that compare equal to none of `seen`, appended
to `seen` in order of first occurrence. -/
def distinct_from {α : Type} (cmp : α → α → Int) : List α → List α → List α
  | seen, [] => seen
  | seen, k :: ks =>
      if seen.any (fun x => decide (cmp x k = 0)) then distinct_from cmp seen ks
      else distinct_from cmp (seen ++ [k]) ks

/-- The distinct keys of a list: the first occurrence of every key, where two
keys are the same key when the comparator returns 0 on them. -/
def distinct_keys {α : Type} (cmp : α → α → Int) (ks : List α) : List α :=
  distinct_from cmp [] ks

/-- The tree `avl_alloc` returns. -/
def empty_tree {α : Type} : avl_root α := ⟨.null, 0⟩

/-- A node without children. -/
def leaf {α : Type} (d : α) : avl_node α := .node .null .null 0 d

/-- The tree after inserting 1, 5, 3, 8, 2 into an empty tree. -/
def example_tree : avl_root Int :=
  ⟨.node (.node .null (leaf 2) 1 1) (.node .null (leaf 8) 1 5) 2 3, 5⟩

/-- The tree after inserting 2, 1, 3 into an empty tree: the root has two
children. -/
def small_tree : avl_root Int := ⟨.node (leaf 1) (leaf 3) 1 2, 3⟩

/-- The child `n->link[dir]` of a node (`null` for the null pointer). -/
def link {α : Type} : avl_node α → Bool → avl_node α
  | .null, _ => .null
  | .node l r _ _, dir => if dir then r else l

/-- One call of a sequence of calls: `avl_insert` (with whether its allocation
succeeds) or `avl_remove`. -/
inductive tree_op (α : Type) where
  | insert (alloc : Bool) (data : α) : tree_op α
  | remove (data : α) : tree_op α

/-- Running a sequence of calls from a tree, counting the calls of
`avl_insert` that returned 0 and the calls of `avl_remove` that returned 0. -/
def run_ops {α : Type} (cmp : α → α → Int) :
    List (tree_op α) → avl_root α × Nat × Nat → Option (avl_root α × Nat × Nat)
  | [], s => some s
  | .insert alloc p :: ops, (t, i, r) =>
      match avl_insert cmp alloc t p with
      | none => none
      | some (code, t1) => run_ops cmp ops (t1, if code = 0 then i + 1 else i, r)
  | .remove p :: ops, (t, i, r) =>
      match avl_remove cmp t p with
      | none => none
      | some (code, t1, _) => run_ops cmp ops (t1, i, if code = 0 then r + 1 else r)

/-- The number of tests of the loop of `_avl_free_core` on a tree is at most
this weight plus one. -/
def rot_weight {α : Type} : avl_node α → Nat
  | .null => 0
  | .node l r _ _ => 1 + 2 * rot_weight l + rot_weight r

/-- The payload of a node. -/
def root_data {α : Type} : avl_node α → Option α
  | .null => none
  | .node _ _ _ d => some d

/-- The cached height of this node is 1 + the maximum of the cached heights of
its children. -/
def height_here {α : Type} : avl_node α → Prop
  | .null => True
  | .node l r h _ => h = 1 + max (__HEIGHT l) (__HEIGHT r)

/-- What `_avl_assert_r` compares: at every node the payload of the left
child, if present, compares less than the payload of the node, and the
payload of the right child, if present, compares greater. -/
def children_ordered {α : Type} (cmp : α → α → Int) : avl_node α → Prop
  | .null => True
  | .node l r _ d =>
      (∀ x, root_data l = some x → cmp x d < 0) ∧ (∀ x, root_data r = some x → cmp x d > 0) ∧
        children_ordered cmp l ∧ children_ordered cmp r

/-- A sequence of calls with successes and failures of every kind. -/
def example_ops : List (tree_op Int) :=
  [.insert true 1, .insert true 5, .insert false 7, .insert true 3, .insert true 8,
    .insert true 2, .insert true 5, .remove 5, .remove 5, .remove 4]

/-- A tree with 10 in the left subtree of 5: every node is ordered against
its own children only. -/
def misordered_tree : avl_root Int := ⟨.node (.node .null (leaf 10) 1 3) (leaf 20) 2 5, 4⟩

/-- A chain of three nodes linked by `link[1]`, with the cached heights of
its shape. -/
def chain_tree : avl_root Int := ⟨.node .null (.node .null (leaf 3) 1 2) 2 1, 3⟩

/-- A node whose right child has a left child: the shape a double rotation
is for. -/
def zigzag_node : avl_node Int := .node .null (.node (leaf 2) .null 1 3) 2 1

/-- The least number of nodes of a balanced tree with 65 levels, Fib(67) - 1:
a balanced tree with fewer nodes has at most 64 levels. -/
def nodes_of_65_levels : Nat := 44945570212852

/-- The number of nodes of `slim_node k lo`. -/
def slim_count : Nat → Nat
  | 0 => 0
  | 1 => 1
  | k + 2 => slim_count (k + 1) + slim_count k + 1

/-- The sparsest balanced tree with `k` levels, left-heavy at every node,
whose payloads are the integers from `lo` on in order. -/
def slim_node : Nat → Int → avl_node Int
  | 0, _ => .null
  | 1, lo => .node .null .null 0 lo
  | k + 2, lo =>
      .node (slim_node (k + 1) lo) (slim_node k (lo + slim_count (k + 1) + 1)) (k + 1)
        (lo + slim_count (k + 1))

/-- A well-formed tree with 65 levels (root height 64). -/
def slim_tree : avl_root Int := ⟨slim_node 65 0, slim_count 65⟩

/-- A well-formed tree with 66 levels: its least payload, 0, is in a leaf with
65 nodes above it. -/
def deep_tree : avl_root Int := ⟨slim_node 66 0, slim_count 66⟩

/-- Insertion without rebalancing: the new leaf is linked where the search
ends and the heights of the nodes on the path are recomputed. A payload that
the search meets is left as it is. -/
def plain_insert {α : Type} (cmp : α → α → Int) (data : α) : avl_node α → avl_node α
  | .null => .node .null .null 0 data
  | .node l r h d =>
      if cmp d data = 0 then .node l r h d
      else if cmp d data < 0 then
        .node l (plain_insert cmp data r)
          (__MAX (__HEIGHT l) (__HEIGHT (plain_insert cmp data r)) + 1) d
      else
        .node (plain_insert cmp data l) r
          (__MAX (__HEIGHT (plain_insert cmp data l)) (__HEIGHT r) + 1) d

/-- Insertion without rebalancing of the keys of a list, one by one. -/
def plain_insert_list {α : Type} (cmp : α → α → Int) : List α → avl_node α → avl_node α
  | [], t => t
  | k :: ks, t => plain_insert_list cmp ks (plain_insert cmp k t)

/-- Every insertion of the list, started at `t`, is an insertion of a key the
search does not meet, pushes at most 64 slots, and leads from a balanced tree
to a tree that is balanced without any rotation. -/
def builds {α : Type} (cmp : α → α → Int) : List α → avl_node α → Prop
  | [], _ => True
  | k :: ks, t =>
      avl t ∧ avl (plain_insert cmp k t) ∧ avl_find_loop cmp k t = 0 ∧
        search_pushes cmp k t ≤ PATH_SLOTS ∧ builds cmp ks (plain_insert cmp k t)

/-- The node with children `l` and `r` whose cached height is computed from
theirs. -/
def join {α : Type} (l r : avl_node α) (d : α) : avl_node α :=
  .node l r (__MAX (__HEIGHT l) (__HEIGHT r) + 1) d

/-- The top of a tree: the nodes with fewer than `j` nodes above them, and of
the nodes with exactly `j` nodes above them those with a payload up to `x`;
the cached heights are computed anew. -/
def upper : Nat → Int → avl_node Int → avl_node Int
  | _, _, .null => .null
  | 0, x, .node _ _ _ d => if d ≤ x then .node .null .null 0 d else .null
  | j + 1, x, .node l r _ d => join (upper j x l) (upper j x r) d

/-- The payloads of the nodes with exactly `j` nodes above them, from left to
right. -/
def level {α : Type} : Nat → avl_node α → List α
  | _, .null => []
  | 0, .node _ _ _ d => [d]
  | j + 1, .node l r _ _ => level j l ++ level j r

/-- The payloads of the first `n` levels of a tree, level by level from the
root down, each level from left to right. -/
def level_order {α : Type} : Nat → avl_node α → List α
  | 0, _ => []
  | n + 1, t => level_order n t ++ level n t

/-- A balanced tree `X` whose height lies between the heights of the first
`j` and of the first `j + 1` levels of `T`. -/
def between (j : Nat) (T X : avl_node Int) : Prop :=
  avl X ∧ __HEIGHT X ≤ __HEIGHT T ∧ __HEIGHT X ≤ j ∧
    (__HEIGHT T ≤ __HEIGHT X ∨ (j : Int) - 1 ≤ __HEIGHT X)

/-- Inserting the keys of the list without rebalancing, started at `X`, goes
through trees between the first `j` and the first `j + 1` levels of `T`; the
search for each key ends at a `NULL` link after pushing `j` slots. -/
def level_run (j : Nat) (T : avl_node Int) : List Int → avl_node Int → Prop
  | [], X => between j T X
  | k :: ks, X =>
      between j T X ∧ avl_find_loop int_cmp k X = 0 ∧ search_pushes int_cmp k X = j ∧
        level_run j T ks (plain_insert int_cmp k X)

/-- The payloads of `slim_tree`, level by level from the root down. -/
def slim_keys : List Int := level_order 65 (slim_node 65 0)

section basics
variable {α : Type}

theorem avl_iff (t : avl_node α) : avl t ↔ balanced t ∧ heights_cached t := by
  induction t with
  | null => simp [avl, balanced, heights_cached]
  | node l r h d ihl ihr =>
      simp only [avl, balanced, heights_cached, ihl, ihr, __MAX, abs_le]
      constructor
      · rintro ⟨⟨a, b⟩, ⟨c, e⟩, f, g, i⟩
        refine ⟨⟨⟨by omega, by omega⟩, a, c⟩, by omega, b, e⟩
      · rintro ⟨⟨⟨g, i⟩, a, c⟩, f, b, e⟩
        refine ⟨⟨a, b⟩, ⟨c, e⟩, by omega, by omega, by omega⟩

theorem avl_height_ge (t : avl_node α) (h : avl t) : -1 ≤ __HEIGHT t := by
  induction t with
  | null => simp [__HEIGHT]
  | node l r h d ihl ihr =>
      simp only [avl, __MAX] at h
      have := ihl h.1
      have := ihr h.2.1
      simp only [__HEIGHT]
      omega

theorem avl_node_height_ge (l r : avl_node α) (h : Int) (d : α) (hv : avl (.node l r h d)) :
    0 ≤ h := by
  have h1 := avl_height_ge l hv.1
  have h2 := avl_height_ge r hv.2.1
  have h3 := hv.2.2.1
  simp only [__MAX] at h3
  omega

theorem avl_null_of_height (t : avl_node α) (h : avl t) (hh : __HEIGHT t < 0) : t = .null := by
  cases t with
  | null => rfl
  | node l r h1 d =>
      have := avl_node_height_ge l r h1 d h
      simp only [__HEIGHT] at hh
      omega

theorem lawful.refl {cmp : α → α → Int} (hc : lawful cmp) (a : α) : cmp a a = 0 := by
  have := hc.antisymm a a
  omega

theorem lawful.symm_eq {cmp : α → α → Int} (hc : lawful cmp) (a b : α) (h : cmp a b = 0) :
    cmp b a = 0 := by
  have h1 := hc.antisymm a b
  have h2 := hc.antisymm b a
  omega

theorem lawful.lt_trans {cmp : α → α → Int} (hc : lawful cmp) (a b c : α)
    (h1 : cmp a b < 0) (h2 : cmp b c < 0) : cmp a c < 0 := by
  have h3 := hc.trans a b c (by omega) (by omega)
  rcases lt_or_eq_of_le h3 with h | h
  · exact h
  · exfalso
    have h4 := hc.symm_eq a c h
    have h5 := hc.trans c a b (by omega) (by omega)
    have h6 := hc.antisymm b c
    omega

theorem lawful.lt_of_lt_of_eq {cmp : α → α → Int} (hc : lawful cmp) (a b c : α)
    (h1 : cmp a b < 0) (h2 : cmp b c = 0) : cmp a c < 0 := by
  have h3 := hc.trans a b c (by omega) (by omega)
  rcases lt_or_eq_of_le h3 with h | h
  · exact h
  · exfalso
    have h4 := hc.symm_eq a c h
    have h5 := hc.trans b c a (by omega) (by omega)
    have h6 := hc.antisymm a b
    omega

theorem lawful.lt_of_eq_of_lt {cmp : α → α → Int} (hc : lawful cmp) (a b c : α)
    (h1 : cmp a b = 0) (h2 : cmp b c < 0) : cmp a c < 0 := by
  have h3 := hc.trans a b c (by omega) (by omega)
  rcases lt_or_eq_of_le h3 with h | h
  · exact h
  · exfalso
    have h4 := hc.symm_eq a c h
    have h5 := hc.trans c a b (by omega) (by omega)
    have h6 := hc.antisymm b c
    omega

theorem int_cmp_lawful : lawful int_cmp := by
  constructor
  · intro a b
    simp only [int_cmp]
    omega
  · intro a b c
    simp only [int_cmp]
    omega

end basics

/-! ## One iteration of the walks back up -/

section steps
variable {α : Type}

theorem height_null : __HEIGHT (avl_node.null : avl_node α) = -1 := rfl
theorem height_node (l r : avl_node α) (h : Int) (d : α) : __HEIGHT (.node l r h d) = h := rfl
theorem avl_node_iff (l r : avl_node α) (h : Int) (d : α) :
    avl (.node l r h d) ↔ avl l ∧ avl r ∧ h = __MAX (__HEIGHT l) (__HEIGHT r) + 1 ∧
        __HEIGHT l - __HEIGHT r ≤ 1 ∧ __HEIGHT r - __HEIGHT l ≤ 1 := Iff.rfl
theorem grown_node (l r : avl_node α) (h : Int) (d : α) :
    grown (.node l r h d) ↔ (__HEIGHT l ≠ __HEIGHT r ∨ h = 0) := Iff.rfl
theorem payloads_node (l r : avl_node α) (h : Int) (d : α) :
    payloads (.node l r h d) = payloads l ++ d :: payloads r := rfl

theorem payloads_link_node (dir : Bool) (c o : avl_node α) (h : Int) (d : α) :
    payloads (link_node dir c o h d) =
      if dir then payloads o ++ d :: payloads c else payloads c ++ d :: payloads o := by
  cases dir <;> simp [link_node, payloads]

theorem insert_step_spec (s : path_slot α) (n : avl_node α) (hc : Int)
    (hn : avl n) (ho : avl s.other) (hg : grown n) (hh : __HEIGHT n = hc + 1)
    (hs : s.height = __MAX hc (__HEIGHT s.other) + 1)
    (hb1 : hc - __HEIGHT s.other ≤ 1) (hb2 : __HEIGHT s.other - hc ≤ 1) :
    ∃ T done, insert_step s n = some (T, done) ∧ avl T ∧ payloads T = payloads (s.node n) ∧
      (done = true → __HEIGHT T = s.height) ∧
      (done = false → __HEIGHT T = s.height + 1 ∧ grown T) := by
  obtain ⟨dir, h, d, o⟩ := s
  simp only at ho hs hb1 hb2 ⊢
  have hoge := avl_height_ge o ho
  by_cases h0 : __HEIGHT n - __HEIGHT o = 0
  · refine ⟨_, _, by simp only [insert_step, if_pos h0]; rfl, ?_⟩
    cases dir <;>
      simp only [link_node, path_slot.node, avl_node_iff, height_node, grown_node, __MAX,
        payloads_node, if_true, if_false, Bool.false_eq_true, true_and, and_true, hn, ho,
        false_implies, true_implies, implies_true, reduceCtorEq] at * <;>
      omega
  · by_cases h2 : __HEIGHT n - __HEIGHT o ≥ 2
    · cases n with
      | null => simp only [height_null] at *; omega
      | node n0 n1 nh nd =>
        obtain ⟨an0, an1, hnh, hnb1, hnb2⟩ := hn
        have hn0 := avl_height_ge n0 an0
        have hn1 := avl_height_ge n1 an1
        cases dir
        · by_cases hab : __HEIGHT n0 ≥ __HEIGHT n1
          · refine ⟨_, _, by
              simp only [insert_step, if_neg h0, if_pos h2, path_slot.node, link_node,
                if_false, Bool.false_eq_true, Bool.not_false, _avl_rot1, if_pos hab]; rfl, ?_⟩
            simp only [link_node, path_slot.node, avl_node_iff, height_node, grown_node, __MAX,
              payloads_node, if_true, if_false, Bool.false_eq_true, true_and, and_true, ho,
              an0, an1, false_implies, true_implies, implies_true, reduceCtorEq,
              List.append_assoc, List.cons_append] at *
            omega
          · cases n1 with
            | null => simp only [height_null] at *; omega
            | node m0 m1 mh md =>
              obtain ⟨am0, am1, hmh, hmb1, hmb2⟩ := an1
              have hm0 := avl_height_ge m0 am0
              have hm1 := avl_height_ge m1 am1
              refine ⟨_, _, by
                simp only [insert_step, if_neg h0, if_pos h2, path_slot.node, link_node,
                  if_false, Bool.false_eq_true, Bool.not_false, _avl_rot1, _avl_rot2,
                  if_neg hab, Option.bind]; rfl, ?_⟩
              simp only [link_node, path_slot.node, avl_node_iff, height_node, grown_node, __MAX,
                payloads_node, if_true, if_false, Bool.false_eq_true, true_and, and_true, ho,
                an0, am0, am1, false_implies, true_implies, implies_true, reduceCtorEq,
                List.append_assoc, List.cons_append] at *
              omega
        · by_cases hab : __HEIGHT n1 ≥ __HEIGHT n0
          · refine ⟨_, _, by
              simp only [insert_step, if_neg h0, if_pos h2, path_slot.node, link_node,
                if_true, Bool.not_true, _avl_rot1, if_pos hab]; rfl, ?_⟩
            simp only [link_node, path_slot.node, avl_node_iff, height_node, grown_node, __MAX,
              payloads_node, if_true, if_false, Bool.false_eq_true, true_and, and_true, ho,
              an0, an1, false_implies, true_implies, implies_true, reduceCtorEq,
              List.append_assoc, List.cons_append] at *
            omega
          · cases n0 with
            | null => simp only [height_null] at *; omega
            | node m0 m1 mh md =>
              obtain ⟨am0, am1, hmh, hmb1, hmb2⟩ := an0
              have hm0 := avl_height_ge m0 am0
              have hm1 := avl_height_ge m1 am1
              refine ⟨_, _, by
                simp only [insert_step, if_neg h0, if_pos h2, path_slot.node, link_node,
                  if_true, Bool.not_true, _avl_rot1, _avl_rot2,
                  if_neg hab, Option.bind]; rfl, ?_⟩
              simp only [link_node, path_slot.node, avl_node_iff, height_node, grown_node, __MAX,
                payloads_node, if_true, if_false, Bool.false_eq_true, true_and, and_true, ho,
                an1, am0, am1, false_implies, true_implies, implies_true, reduceCtorEq,
                List.append_assoc, List.cons_append] at *
              omega
    · refine ⟨_, _, by simp only [insert_step, if_neg h0, if_neg h2]; rfl, ?_⟩
      cases dir <;>
      simp only [link_node, path_slot.node, avl_node_iff, height_node, grown_node, __MAX,
        payloads_node, if_true, if_false, Bool.false_eq_true, true_and, and_true, hn, ho,
        false_implies, true_implies, implies_true, reduceCtorEq] at * <;>
      omega

theorem remove_step_spec (s : path_slot α) (n : avl_node α) (hc : Int)
    (hn : avl n) (ho : avl s.other) (hh : __HEIGHT n = hc ∨ __HEIGHT n = hc - 1)
    (hs : s.height = __MAX hc (__HEIGHT s.other) + 1)
    (hb1 : hc - __HEIGHT s.other ≤ 1) (hb2 : __HEIGHT s.other - hc ≤ 1) :
    ∃ T brk, remove_step s n = some (T, brk) ∧ avl T ∧ payloads T = payloads (s.node n) ∧
      (brk = true → __HEIGHT T = s.height) ∧
      (__HEIGHT T = s.height ∨ __HEIGHT T = s.height - 1) := by
  obtain ⟨dir, h, d, o⟩ := s
  simp only at ho hs hb1 hb2 ⊢
  have hnge := avl_height_ge n hn
  by_cases h1 : __HEIGHT n - __HEIGHT o = -1
  · refine ⟨_, _, by simp only [remove_step, if_pos h1]; rfl, ?_⟩
    have hoge := avl_height_ge o ho
    cases dir <;>
      simp only [link_node, path_slot.node, avl_node_iff, height_node, grown_node, __MAX,
                payloads_node, if_true, if_false, Bool.false_eq_true, true_and, and_true, hn,
                ho, false_implies, true_implies, implies_true, reduceCtorEq,
                List.append_assoc, List.cons_append] at * <;>
      omega
  · by_cases h2 : __HEIGHT n - __HEIGHT o ≤ -2
    · cases o with
      | null => simp only [height_null] at *; omega
      | node o0 o1 oh od =>
        obtain ⟨ao0, ao1, hoh, hob1, hob2⟩ := ho
        have ho0 := avl_height_ge o0 ao0
        have ho1 := avl_height_ge o1 ao1
        cases dir
        · by_cases hab : __HEIGHT o0 ≤ __HEIGHT o1
          · refine ⟨_, _, by
              simp only [remove_step, if_neg h1, if_pos h2, link_node,
                if_false, Bool.false_eq_true, _avl_rot1, if_pos hab]; rfl, ?_⟩
            simp only [link_node, path_slot.node, avl_node_iff, height_node, grown_node, __MAX,
                payloads_node, if_true, if_false, Bool.false_eq_true, true_and, and_true, hn,
                ao0, ao1, false_implies, true_implies, implies_true, reduceCtorEq,
                List.append_assoc, List.cons_append] at *
            omega
          · cases o0 with
            | null => simp only [height_null] at *; omega
            | node m0 m1 mh md =>
              obtain ⟨am0, am1, hmh, hmb1, hmb2⟩ := ao0
              have hm0 := avl_height_ge m0 am0
              have hm1 := avl_height_ge m1 am1
              refine ⟨_, _, by
                simp only [remove_step, if_neg h1, if_pos h2, link_node,
                  if_false, Bool.false_eq_true, _avl_rot1, _avl_rot2,
                  if_neg hab, Option.bind]; rfl, ?_⟩
              simp only [link_node, path_slot.node, avl_node_iff, height_node, grown_node, __MAX,
                payloads_node, if_true, if_false, Bool.false_eq_true, true_and, and_true, hn,
                ao1, am0, am1, false_implies, true_implies, implies_true, reduceCtorEq,
                List.append_assoc, List.cons_append] at *
              omega
        · by_cases hab : __HEIGHT o1 ≤ __HEIGHT o0
          · refine ⟨_, _, by
              simp only [remove_step, if_neg h1, if_pos h2, link_node,
                if_true, _avl_rot1, if_pos hab]; rfl, ?_⟩
            simp only [link_node, path_slot.node, avl_node_iff, height_node, grown_node, __MAX,
                payloads_node, if_true, if_false, Bool.false_eq_true, true_and, and_true, hn,
                ao0, ao1, false_implies, true_implies, implies_true, reduceCtorEq,
                List.append_assoc, List.cons_append] at *
            omega
          · cases o1 with
            | null => simp only [height_null] at *; omega
            | node m0 m1 mh md =>
              obtain ⟨am0, am1, hmh, hmb1, hmb2⟩ := ao1
              have hm0 := avl_height_ge m0 am0
              have hm1 := avl_height_ge m1 am1
              refine ⟨_, _, by
                simp only [remove_step, if_neg h1, if_pos h2, link_node,
                  if_true, _avl_rot1, _avl_rot2,
                  if_neg hab, Option.bind]; rfl, ?_⟩
              simp only [link_node, path_slot.node, avl_node_iff, height_node, grown_node, __MAX,
                payloads_node, if_true, if_false, Bool.false_eq_true, true_and, and_true, hn,
                ao0, am0, am1, false_implies, true_implies, implies_true, reduceCtorEq,
                List.append_assoc, List.cons_append] at *
              omega
    · refine ⟨_, _, by simp only [remove_step, if_neg h1, if_neg h2]; rfl, ?_⟩
      have hoge := avl_height_ge o ho
      cases dir <;>
      simp only [link_node, path_slot.node, avl_node_iff, height_node, grown_node, __MAX,
                payloads_node, if_true, if_false, Bool.false_eq_true, true_and, and_true, hn,
                ho, false_implies, true_implies, implies_true, reduceCtorEq,
                List.append_assoc, List.cons_append] at * <;>
      omega
end steps

/-! ## The search paths and the walks back up -/

section paths
variable {α : Type}

theorem insert_walk_done (up : List (path_slot α)) (n : avl_node α) :
    insert_walk up n true = some (relink up n) := by
  cases up <;> rfl

theorem insert_walk_step (s : path_slot α) (up : List (path_slot α)) (n T : avl_node α)
    (done : Bool) (h : insert_step s n = some (T, done)) :
    insert_walk (s :: up) n false = insert_walk up T done := by
  simp only [insert_walk, h]

theorem avl_leaf (data : α) : avl (avl_node.node .null .null 0 data) := by
  simp [avl, __MAX, __HEIGHT]

theorem insert_path (cmp : α → α → Int) (hc : lawful cmp) (data : α) :
    ∀ (t : avl_node α), avl t → search_order cmp t → (∀ x ∈ payloads t, cmp x data ≠ 0) →
      ∀ up, ∃ stk T done, insert_descent cmp data t up = some stk ∧
        insert_walk stk (.node .null .null 0 data) false = insert_walk up T done ∧
        avl T ∧
        (∃ l1 l2, payloads t = l1 ++ l2 ∧ payloads T = l1 ++ data :: l2 ∧
          (∀ x ∈ l1, cmp x data < 0) ∧ (∀ x ∈ l2, cmp x data > 0)) ∧
        (done = true → __HEIGHT T = __HEIGHT t) ∧
        (done = false → __HEIGHT T = __HEIGHT t + 1 ∧ grown T) := by
  intro t
  induction t with
  | null =>
      intro _ _ _ up
      refine ⟨up, _, false, rfl, rfl, avl_leaf data, ⟨[], [], ?_⟩, ?_, ?_⟩
      · simp [payloads]
      · simp
      · simp [__HEIGHT, grown]
  | node l r h d ihl ihr =>
      intro ha hso hne up
      obtain ⟨al, ar, hh, hb1, hb2⟩ := ha
      obtain ⟨hl, hr, sl, sr⟩ := hso
      have hd : cmp d data ≠ 0 := hne d (by simp [payloads])
      by_cases hlt : cmp d data < 0
      · obtain ⟨stk, R, dn, e1, e2, aR, ⟨l1, l2, p1, p2, p3, p4⟩, g1, g2⟩ :=
          ihr ar sr (fun x hx => hne x (by simp [payloads, hx])) (⟨true, h, d, l⟩ :: up)
        have hpl : ∀ x ∈ payloads l ++ d :: l1, cmp x data < 0 := by
          intro x hx
          simp only [List.mem_append, List.mem_cons] at hx
          rcases hx with hx | hx | hx
          · exact hc.lt_trans x d data (hl x hx) hlt
          · exact hx ▸ hlt
          · exact p3 x hx
        cases dn with
        | true =>
            refine ⟨stk, path_slot.node ⟨true, h, d, l⟩ R, true, ?_, ?_, ?_, ?_, ?_, ?_⟩
            · simp only [insert_descent, if_neg hd, if_pos hlt, e1]
            · rw [e2, insert_walk_done, insert_walk_done]; rfl
            · have := g1 rfl
              simp only [path_slot.node, link_node, if_true, avl_node_iff]
              refine ⟨al, aR, ?_, ?_, ?_⟩ <;> simp only [__MAX] at * <;> omega
            · refine ⟨payloads l ++ d :: l1, l2, ?_, ?_, hpl, p4⟩
              · simp [payloads, p1]
              · simp [path_slot.node, link_node, payloads, p2]
            · intro _; rfl
            · intro h; cases h
        | false =>
            obtain ⟨g2a, g2b⟩ := g2 rfl
            obtain ⟨T, done, st, aT, pT, d1, d2⟩ :=
              insert_step_spec ⟨true, h, d, l⟩ R (__HEIGHT r) aR al g2b g2a
                (by simp only [__MAX] at *; omega) (by simp only; omega) (by simp only; omega)
            refine ⟨stk, T, done, ?_, ?_, aT, ?_, ?_, ?_⟩
            · simp only [insert_descent, if_neg hd, if_pos hlt, e1]
            · rw [e2, insert_walk_step _ _ _ _ _ st]
            · refine ⟨payloads l ++ d :: l1, l2, ?_, ?_, hpl, p4⟩
              · simp [payloads, p1]
              · simp [pT, path_slot.node, link_node, payloads, p2]
            · exact d1
            · exact d2
      · have hgt : 0 < cmp d data := by omega
        have hdl : cmp data d < 0 := (hc.antisymm data d).2 hgt
        obtain ⟨stk, L, dn, e1, e2, aL, ⟨l1, l2, p1, p2, p3, p4⟩, g1, g2⟩ :=
          ihl al sl (fun x hx => hne x (by simp [payloads, hx])) (⟨false, h, d, r⟩ :: up)
        have hpr : ∀ x ∈ l2 ++ d :: payloads r, cmp x data > 0 := by
          intro x hx
          simp only [List.mem_append, List.mem_cons] at hx
          rcases hx with hx | hx | hx
          · exact p4 x hx
          · exact hx ▸ hgt
          · have h1 : cmp d x < 0 := (hc.antisymm d x).2 (hr x hx)
            exact (hc.antisymm data x).1 (hc.lt_trans data d x hdl h1)
        cases dn with
        | true =>
            refine ⟨stk, path_slot.node ⟨false, h, d, r⟩ L, true, ?_, ?_, ?_, ?_, ?_, ?_⟩
            · simp only [insert_descent, if_neg hd, if_neg hlt, e1]
            · rw [e2, insert_walk_done, insert_walk_done]; rfl
            · have := g1 rfl
              simp only [path_slot.node, link_node, if_false, Bool.false_eq_true, avl_node_iff]
              refine ⟨aL, ar, ?_, ?_, ?_⟩ <;> simp only [__MAX] at * <;> omega
            · refine ⟨l1, l2 ++ d :: payloads r, ?_, ?_, p3, hpr⟩
              · simp [payloads, p1]
              · simp [path_slot.node, link_node, payloads, p2]
            · intro _; rfl
            · intro h; cases h
        | false =>
            obtain ⟨g2a, g2b⟩ := g2 rfl
            obtain ⟨T, done, st, aT, pT, d1, d2⟩ :=
              insert_step_spec ⟨false, h, d, r⟩ L (__HEIGHT l) aL ar g2b g2a
                (by simp only [__MAX] at *; omega) (by simp only; omega) (by simp only; omega)
            refine ⟨stk, T, done, ?_, ?_, aT, ?_, ?_, ?_⟩
            · simp only [insert_descent, if_neg hd, if_neg hlt, e1]
            · rw [e2, insert_walk_step _ _ _ _ _ st]
            · refine ⟨l1, l2 ++ d :: payloads r, ?_, ?_, p3, hpr⟩
              · simp [payloads, p1]
              · simp [pT, path_slot.node, link_node, payloads, p2]
            · exact d1
            · exact d2


theorem walks_to_mono {P Q : List (path_slot α) → Option (avl_node α) → Prop}
    (T : avl_node α) (h0 : Int) (hPQ : ∀ up res, P up res → Q up res)
    (h : walks_to P T h0) : walks_to Q T h0 := by
  rcases h with h | ⟨h1, h2⟩
  · exact Or.inl fun up => hPQ _ _ (h up)
  · exact Or.inr ⟨h1, fun up => hPQ _ _ (h2 up)⟩

theorem remove_lift (P : List (path_slot α) → Option (avl_node α) → Prop)
    (s : path_slot α) (n : avl_node α) (hc : Int)
    (hn : avl n) (ho : avl s.other) (hh : __HEIGHT n = hc ∨ __HEIGHT n = hc - 1)
    (hs : s.height = __MAX hc (__HEIGHT s.other) + 1)
    (hb1 : hc - __HEIGHT s.other ≤ 1) (hb2 : __HEIGHT s.other - hc ≤ 1)
    (hw : walks_to P n hc) :
    ∃ T, avl T ∧ payloads T = payloads (s.node n) ∧
      (__HEIGHT T = s.height ∨ __HEIGHT T = s.height - 1) ∧
      walks_to (fun up res => P (s :: up) res) T s.height := by
  rcases hw with hw | ⟨hw1, hw2⟩
  · obtain ⟨T, brk, st, aT, pT, b1, b2⟩ := remove_step_spec s n hc hn ho hh hs hb1 hb2
    refine ⟨T, aT, pT, b2, ?_⟩
    cases brk with
    | true =>
        refine Or.inr ⟨b1 rfl, fun up => ?_⟩
        have := hw (s :: up)
        simpa only [remove_walk, st] using this
    | false =>
        refine Or.inl fun up => ?_
        have := hw (s :: up)
        simpa only [remove_walk, st] using this
  · refine ⟨s.node n, ?_, rfl, ?_, Or.inr ⟨?_, fun up => hw2 (s :: up)⟩⟩
    · obtain ⟨dir, h, d, o⟩ := s
      cases dir <;>
        simp only [path_slot.node, link_node, if_true, if_false, Bool.false_eq_true,
          avl_node_iff, __MAX] at * <;>
        exact ⟨by assumption, by assumption, by omega, by omega, by omega⟩
    · left
      obtain ⟨dir, h, d, o⟩ := s
      cases dir <;> rfl
    · obtain ⟨dir, h, d, o⟩ := s
      cases dir <;> rfl

theorem heir_path : ∀ (r : avl_node α), avl r → r ≠ .null →
    ∃ hs hl hr hh hd R, (∀ base, heir_descent r base = (hs ++ base, .node hl hr hh hd)) ∧
      payloads r = hd :: payloads R ∧ avl R ∧
      (__HEIGHT R = __HEIGHT r ∨ __HEIGHT R = __HEIGHT r - 1) ∧
      walks_to (fun rest res => remove_walk (hs ++ rest) hr = res) R (__HEIGHT r) := by
  intro r
  induction r with
  | null => intro _ h; exact absurd rfl h
  | node l rr h d ihl _ =>
      intro ha _
      obtain ⟨al, ar, hh, hb1, hb2⟩ := ha
      cases l with
      | null =>
          have := avl_height_ge rr ar
          refine ⟨[], .null, rr, h, d, rr, fun base => rfl, by simp [payloads], ar, ?_,
            Or.inl fun up => rfl⟩
          simp only [height_null, height_node, __MAX] at *
          omega
      | node a b c e =>
          obtain ⟨hs, hl, hr, hh1, hd, L, e1, pL, aL, hL, wL⟩ := ihl al (by simp)
          obtain ⟨T, aT, pT, hT, wT⟩ :=
            remove_lift _ ⟨false, h, d, rr⟩ L (__HEIGHT (avl_node.node a b c e)) aL ar hL
              hh (by simp only; omega) (by simp only; omega) wL
          refine ⟨hs ++ [⟨false, h, d, rr⟩], hl, hr, hh1, hd, T, ?_, ?_, aT, hT, ?_⟩
          · intro base
            have e0 : heir_descent (.node (.node a b c e) rr h d) base =
                heir_descent (.node a b c e) (⟨false, h, d, rr⟩ :: base) := rfl
            rw [e0, e1, List.append_assoc, List.singleton_append]
          · rw [pT, payloads_node, pL]
            simp only [path_slot.node, link_node, if_false, Bool.false_eq_true, payloads_node,
              List.cons_append]
          · refine walks_to_mono T _ ?_ wT
            intro up res hres
            simpa only [List.append_assoc, List.singleton_append] using hres


theorem found_right {cmp : α → α → Int} (hc : lawful cmp) (l r : avl_node α) (h : Int)
    (d data : α) (hso : search_order cmp (.node l r h d)) (hlt : cmp d data < 0)
    (hx : ∃ x ∈ payloads (.node l r h d), cmp x data = 0) :
    ∃ x ∈ payloads r, cmp x data = 0 := by
  obtain ⟨x, hm, he⟩ := hx
  simp only [payloads_node, List.mem_append, List.mem_cons] at hm
  rcases hm with hm | hm | hm
  · have := hc.lt_trans x d data (hso.1 x hm) hlt
    omega
  · subst hm; omega
  · exact ⟨x, hm, he⟩

theorem found_left {cmp : α → α → Int} (hc : lawful cmp) (l r : avl_node α) (h : Int)
    (d data : α) (hso : search_order cmp (.node l r h d)) (hgt : 0 < cmp d data)
    (hx : ∃ x ∈ payloads (.node l r h d), cmp x data = 0) :
    ∃ x ∈ payloads l, cmp x data = 0 := by
  obtain ⟨x, hm, he⟩ := hx
  simp only [payloads_node, List.mem_append, List.mem_cons] at hm
  rcases hm with hm | hm | hm
  · exact ⟨x, hm, he⟩
  · subst hm; omega
  · have h1 : cmp data d < 0 := (hc.antisymm data d).2 hgt
    have h2 := hc.lt_of_eq_of_lt x data d he h1
    have h3 := hso.2.1 x hm
    omega

theorem remove_path (cmp : α → α → Int) (hc : lawful cmp) (data : α) :
    ∀ (t : avl_node α), avl t → search_order cmp t →
      (∃ x ∈ payloads t, cmp x data = 0) →
      ∃ T, avl T ∧
        (∃ l1 x l2, payloads t = l1 ++ x :: l2 ∧ cmp x data = 0 ∧ payloads T = l1 ++ l2) ∧
        (__HEIGHT T = __HEIGHT t ∨ __HEIGHT T = __HEIGHT t - 1) ∧
        walks_to (removes cmp data t) T (__HEIGHT t) := by
  intro t
  induction t with
  | null => intro _ _ hx; simp [payloads] at hx
  | node l r h d ihl ihr =>
      intro ha hso hx
      obtain ⟨al, ar, hh, hb1, hb2⟩ := ha
      have hlge := avl_height_ge l al
      have hrge := avl_height_ge r ar
      by_cases h0 : cmp d data = 0
      · have es : ∀ up, remove_descent cmp data (.node l r h d) up = some (up, .node l r h d) := by
          intro up; simp only [remove_descent, if_pos h0]
        cases l with
        | null =>
            refine ⟨r, ar, ⟨[], d, payloads r, by simp [payloads], h0, by simp⟩, ?_, Or.inl ?_⟩
            · simp only [height_null, height_node, __MAX] at *; omega
            · intro up
              exact ⟨up, _, up, r, d, es up, rfl, rfl⟩
        | node a b c e =>
            cases r with
            | null =>
                refine ⟨.node a b c e, al, ⟨payloads (.node a b c e), d, [], by simp [payloads],
                  h0, by simp⟩, ?_, Or.inl ?_⟩
                · simp only [height_null, height_node, __MAX] at *; omega
                · intro up
                  exact ⟨up, _, up, _, d, es up, rfl, rfl⟩
            | node a1 b1 c1 e1 =>
                obtain ⟨hs, hl, hr, hh1, hd, R, e1h, pR, aR, hR, wR⟩ :=
                  heir_path (.node a1 b1 c1 e1) ar (by simp)
                obtain ⟨T, aT, pT, hT, wT⟩ :=
                  remove_lift _ ⟨true, h, hd, .node a b c e⟩ R (__HEIGHT (avl_node.node a1 b1 c1 e1))
                    aR al hR
                    (by simp only [__MAX] at *; omega) (by simp only; omega) (by simp only; omega)
                    wR
                refine ⟨T, aT, ⟨payloads (.node a b c e), d, hd :: payloads R, ?_, h0, ?_⟩, hT, ?_⟩
                · rw [payloads_node, pR]
                · rw [pT]
                  simp only [path_slot.node, link_node, if_true, payloads_node]
                · refine walks_to_mono T _ ?_ wT
                  intro up res hres
                  refine ⟨up, _, _, hr, hd, es up, ?_, hres⟩
                  simp only [unlink_descent, e1h, List.nil_append, List.append_nil]
      · by_cases hlt : cmp d data < 0
        · obtain ⟨R, aR, ⟨l1, x, l2, p1, p2, p3⟩, hR, wR⟩ :=
            ihr ar hso.2.2.2 (found_right hc l r h d data hso hlt hx)
          obtain ⟨T, aT, pT, hT, wT⟩ :=
            remove_lift _ ⟨true, h, d, l⟩ R (__HEIGHT r) aR al hR
              (by simp only [__MAX] at *; omega) (by simp only; omega) (by simp only; omega) wR
          refine ⟨T, aT, ⟨payloads l ++ d :: l1, x, l2, ?_, p2, ?_⟩, hT, ?_⟩
          · simp [payloads_node, p1]
          · rw [pT]
            simp [path_slot.node, link_node, payloads_node, p3]
          · refine walks_to_mono T _ ?_ wT
            rintro up res ⟨up1, it, stk, n, f, q1, q2, q3⟩
            refine ⟨up1, it, stk, n, f, ?_, q2, q3⟩
            simp only [remove_descent, if_neg h0, if_pos hlt, q1]
        · obtain ⟨L, aL, ⟨l1, x, l2, p1, p2, p3⟩, hL, wL⟩ :=
            ihl al hso.2.2.1 (found_left hc l r h d data hso (by omega) hx)
          obtain ⟨T, aT, pT, hT, wT⟩ :=
            remove_lift _ ⟨false, h, d, r⟩ L (__HEIGHT l) aL ar hL
              (by simp only [__MAX] at *; omega) (by simp only; omega) (by simp only; omega) wL
          refine ⟨T, aT, ⟨l1, x, l2 ++ d :: payloads r, ?_, p2, ?_⟩, hT, ?_⟩
          · simp [payloads_node, p1]
          · rw [pT]
            simp [path_slot.node, link_node, payloads_node, p3]
          · refine walks_to_mono T _ ?_ wT
            rintro up res ⟨up1, it, stk, n, f, q1, q2, q3⟩
            refine ⟨up1, it, stk, n, f, ?_, q2, q3⟩
            simp only [remove_descent, if_neg h0, if_neg hlt, q1]

end paths

/-! ## The capacity of the path stack -/

section capacity
variable {α : Type}

theorem insert_search_fits (cmp : α → α → Int) (data : α) :
    ∀ (t : avl_node α) (up : List (path_slot α)),
      up.length + search_pushes cmp data t ≤ PATH_SLOTS →
      insert_search cmp data t up = some (insert_descent cmp data t up) := by
  intro t
  induction t with
  | null => intro up _; rfl
  | node l r h d ihl ihr =>
      intro up hb
      by_cases h0 : cmp d data = 0
      · simp only [insert_search, insert_descent, if_pos h0]
      · by_cases hlt : cmp d data < 0
        · simp only [search_pushes, if_neg h0, if_pos hlt] at hb
          have hcap : ¬ PATH_SLOTS ≤ up.length := by omega
          simp only [insert_search, insert_descent, if_neg h0, if_pos hlt, if_neg hcap]
          exact ihr _ (by simp only [List.length_cons]; omega)
        · simp only [search_pushes, if_neg h0, if_neg hlt] at hb
          have hcap : ¬ PATH_SLOTS ≤ up.length := by omega
          simp only [insert_search, insert_descent, if_neg h0, if_neg hlt, if_neg hcap]
          exact ihl _ (by simp only [List.length_cons]; omega)

theorem insert_search_overrun (cmp : α → α → Int) (data : α) :
    ∀ (t : avl_node α) (up : List (path_slot α)), up.length ≤ PATH_SLOTS →
      PATH_SLOTS < up.length + search_pushes cmp data t →
      insert_search cmp data t up = none := by
  intro t
  induction t with
  | null => intro up h1 h2; simp only [search_pushes] at h2; omega
  | node l r h d ihl ihr =>
      intro up h1 h2
      by_cases h0 : cmp d data = 0
      · simp only [search_pushes, if_pos h0] at h2; omega
      · by_cases hcap : PATH_SLOTS ≤ up.length
        · simp only [insert_search, if_neg h0, if_pos hcap]
        · by_cases hlt : cmp d data < 0
          · simp only [search_pushes, if_neg h0, if_pos hlt] at h2
            simp only [insert_search, if_neg h0, if_pos hlt, if_neg hcap]
            exact ihr _ (by simp only [List.length_cons]; omega)
              (by simp only [List.length_cons]; omega)
          · simp only [search_pushes, if_neg h0, if_neg hlt] at h2
            simp only [insert_search, if_neg h0, if_neg hlt, if_neg hcap]
            exact ihl _ (by simp only [List.length_cons]; omega)
              (by simp only [List.length_cons]; omega)

theorem remove_search_fits (cmp : α → α → Int) (data : α) :
    ∀ (t : avl_node α) (up : List (path_slot α)),
      up.length + search_pushes cmp data t ≤ PATH_SLOTS →
      remove_search cmp data t up = some (remove_descent cmp data t up) := by
  intro t
  induction t with
  | null => intro up _; rfl
  | node l r h d ihl ihr =>
      intro up hb
      by_cases h0 : cmp d data = 0
      · simp only [remove_search, remove_descent, if_pos h0]
      · by_cases hlt : cmp d data < 0
        · simp only [search_pushes, if_neg h0, if_pos hlt] at hb
          have hcap : ¬ PATH_SLOTS ≤ up.length := by omega
          simp only [remove_search, remove_descent, if_neg h0, if_pos hlt, if_neg hcap]
          exact ihr _ (by simp only [List.length_cons]; omega)
        · simp only [search_pushes, if_neg h0, if_neg hlt] at hb
          have hcap : ¬ PATH_SLOTS ≤ up.length := by omega
          simp only [remove_search, remove_descent, if_neg h0, if_neg hlt, if_neg hcap]
          exact ihl _ (by simp only [List.length_cons]; omega)

theorem remove_search_overrun (cmp : α → α → Int) (data : α) :
    ∀ (t : avl_node α) (up : List (path_slot α)), up.length ≤ PATH_SLOTS →
      PATH_SLOTS < up.length + search_pushes cmp data t →
      remove_search cmp data t up = none := by
  intro t
  induction t with
  | null => intro up h1 h2; simp only [search_pushes] at h2; omega
  | node l r h d ihl ihr =>
      intro up h1 h2
      by_cases h0 : cmp d data = 0
      · simp only [search_pushes, if_pos h0] at h2; omega
      · by_cases hcap : PATH_SLOTS ≤ up.length
        · simp only [remove_search, if_neg h0, if_pos hcap]
        · by_cases hlt : cmp d data < 0
          · simp only [search_pushes, if_neg h0, if_pos hlt] at h2
            simp only [remove_search, if_neg h0, if_pos hlt, if_neg hcap]
            exact ihr _ (by simp only [List.length_cons]; omega)
              (by simp only [List.length_cons]; omega)
          · simp only [search_pushes, if_neg h0, if_neg hlt] at h2
            simp only [remove_search, if_neg h0, if_neg hlt, if_neg hcap]
            exact ihl _ (by simp only [List.length_cons]; omega)
              (by simp only [List.length_cons]; omega)

theorem remove_descent_length (cmp : α → α → Int) (data : α) :
    ∀ (t : avl_node α) (up up1 : List (path_slot α)) (it : avl_node α),
      remove_descent cmp data t up = some (up1, it) →
      up1.length = up.length + search_pushes cmp data t ∧
        remove_pushes cmp data t = search_pushes cmp data t + unlink_pushes it := by
  intro t
  induction t with
  | null => intro up up1 it h; simp [remove_descent] at h
  | node l r h d ihl ihr =>
      intro up up1 it hs
      by_cases h0 : cmp d data = 0
      · simp only [remove_descent, if_pos h0, Option.some.injEq, Prod.mk.injEq] at hs
        obtain ⟨e1, e2⟩ := hs
        subst e1 e2
        simp only [search_pushes, remove_pushes, if_pos h0]
        omega
      · by_cases hlt : cmp d data < 0
        · simp only [remove_descent, if_neg h0, if_pos hlt] at hs
          have := ihr _ _ _ hs
          simp only [search_pushes, remove_pushes, if_neg h0, if_pos hlt, List.length_cons] at this ⊢
          omega
        · simp only [remove_descent, if_neg h0, if_neg hlt] at hs
          have := ihl _ _ _ hs
          simp only [search_pushes, remove_pushes, if_neg h0, if_neg hlt, List.length_cons] at this ⊢
          omega

theorem search_le_remove_pushes (cmp : α → α → Int) (data : α) :
    ∀ t : avl_node α, search_pushes cmp data t ≤ remove_pushes cmp data t := by
  intro t
  induction t with
  | null => exact Nat.le_refl _
  | node l r h d ihl ihr =>
      by_cases h0 : cmp d data = 0
      · simp only [search_pushes, if_pos h0]; omega
      · by_cases hlt : cmp d data < 0
        · simp only [search_pushes, remove_pushes, if_neg h0, if_pos hlt]; omega
        · simp only [search_pushes, remove_pushes, if_neg h0, if_neg hlt]; omega

theorem heir_pushes_node (a b : avl_node α) (c : Int) (e : α) (r : avl_node α) (h : Int) (d : α) :
    heir_pushes (.node (.node a b c e) r h d) = heir_pushes (.node a b c e) + 1 := rfl

theorem heir_search_fits : ∀ (r : avl_node α) (top : Nat) (up : List (path_slot α)),
    top + heir_pushes r ≤ PATH_SLOTS → heir_search r top up = some (heir_descent r up) := by
  intro r
  induction r with
  | null => intro top up _; rfl
  | node l rr h d ihl _ =>
      intro top up hb
      cases l with
      | null => rfl
      | node a b c e =>
          rw [heir_pushes_node] at hb
          have hcap : ¬ PATH_SLOTS ≤ top := by omega
          have e0 : heir_search (.node (.node a b c e) rr h d) top up =
              if PATH_SLOTS ≤ top then none
              else heir_search (.node a b c e) (top + 1) (⟨false, h, d, rr⟩ :: up) := rfl
          have e1 : heir_descent (.node (.node a b c e) rr h d) up =
              heir_descent (.node a b c e) (⟨false, h, d, rr⟩ :: up) := rfl
          rw [e0, e1, if_neg hcap]
          exact ihl _ _ (by omega)

theorem heir_search_overrun : ∀ (r : avl_node α) (top : Nat) (up : List (path_slot α)),
    top ≤ PATH_SLOTS → PATH_SLOTS < top + heir_pushes r → heir_search r top up = none := by
  intro r
  induction r with
  | null => intro top up h1 h2; simp only [heir_pushes] at h2; omega
  | node l rr h d ihl _ =>
      intro top up h1 h2
      cases l with
      | null => simp only [heir_pushes] at h2; omega
      | node a b c e =>
          rw [heir_pushes_node] at h2
          have e0 : heir_search (.node (.node a b c e) rr h d) top up =
              if PATH_SLOTS ≤ top then none
              else heir_search (.node a b c e) (top + 1) (⟨false, h, d, rr⟩ :: up) := rfl
          rw [e0]
          by_cases hcap : PATH_SLOTS ≤ top
          · rw [if_pos hcap]
          · rw [if_neg hcap]
            exact ihl _ _ (by omega) (by omega)

theorem remove_node_fits (up : List (path_slot α)) (it : avl_node α)
    (hb : up.length + unlink_pushes it ≤ PATH_SLOTS) :
    remove_node up it = unlink_descent up it := by
  cases it with
  | null => rfl
  | node l r h d =>
      cases l with
      | null => rfl
      | node a b c e =>
          cases r with
          | null => rfl
          | node a1 b1 c1 e1 =>
              simp only [unlink_pushes] at hb
              have hcap : ¬ PATH_SLOTS ≤ up.length := by omega
              simp only [remove_node, unlink_descent, if_neg hcap,
                heir_search_fits (.node a1 b1 c1 e1) (up.length + 1) [] (by omega)]
              generalize heir_descent (avl_node.node a1 b1 c1 e1) [] = q
              obtain ⟨hs, n⟩ := q
              cases n <;> rfl

theorem remove_node_overrun (up : List (path_slot α)) (it : avl_node α)
    (h1 : up.length ≤ PATH_SLOTS) (h2 : PATH_SLOTS < up.length + unlink_pushes it) :
    remove_node up it = none := by
  cases it with
  | null => rfl
  | node l r h d =>
      cases l with
      | null => simp only [unlink_pushes] at h2; omega
      | node a b c e =>
          cases r with
          | null => simp only [unlink_pushes] at h2; omega
          | node a1 b1 c1 e1 =>
              simp only [unlink_pushes] at h2
              by_cases hcap : PATH_SLOTS ≤ up.length
              · simp only [remove_node, if_pos hcap]
              · simp only [remove_node, if_neg hcap,
                  heir_search_overrun (.node a1 b1 c1 e1) (up.length + 1) [] (by omega) (by omega)]

theorem heir_pushes_le : ∀ r : avl_node α, avl r → heir_pushes r ≤ (__HEIGHT r).toNat := by
  intro r
  induction r with
  | null => intro _; exact Nat.zero_le _
  | node l rr h d ihl _ =>
      intro ha
      obtain ⟨al, ar, hh, hb1, hb2⟩ := ha
      cases l with
      | null => exact Nat.zero_le _
      | node a b c e =>
          have h1 := ihl al
          have h2 := avl_node_height_ge a b c e al
          have h3 := avl_height_ge rr ar
          rw [heir_pushes_node]
          simp only [height_node, __MAX] at *
          split_ifs at hh <;> omega

theorem search_pushes_le (cmp : α → α → Int) (data : α) :
    ∀ t : avl_node α, avl t → search_pushes cmp data t ≤ (__HEIGHT t + 1).toNat := by
  intro t
  induction t with
  | null => intro _; exact Nat.zero_le _
  | node l r h d ihl ihr =>
      intro ha
      obtain ⟨al, ar, hh, hb1, hb2⟩ := ha
      have h1 := ihl al
      have h2 := ihr ar
      have h3 := avl_height_ge l al
      have h4 := avl_height_ge r ar
      by_cases h0 : cmp d data = 0
      · simp only [search_pushes, if_pos h0]; omega
      · by_cases hlt : cmp d data < 0
        · simp only [search_pushes, if_neg h0, if_pos hlt, height_node, __MAX] at *
          split_ifs at hh <;> omega
        · simp only [search_pushes, if_neg h0, if_neg hlt, height_node, __MAX] at *
          split_ifs at hh <;> omega

theorem remove_pushes_le (cmp : α → α → Int) (data : α) :
    ∀ t : avl_node α, avl t → remove_pushes cmp data t ≤ (__HEIGHT t + 1).toNat := by
  intro t
  induction t with
  | null => intro _; exact Nat.zero_le _
  | node l r h d ihl ihr =>
      intro ha
      have ha0 := ha
      obtain ⟨al, ar, hh, hb1, hb2⟩ := ha
      have h1 := ihl al
      have h2 := ihr ar
      have h3 := avl_height_ge l al
      have h4 := avl_height_ge r ar
      by_cases h0 : cmp d data = 0
      · simp only [remove_pushes, if_pos h0]
        cases l with
        | null => simp only [unlink_pushes]; omega
        | node a b c e =>
            cases r with
            | null => simp only [unlink_pushes]; omega
            | node a1 b1 c1 e1 =>
                have h5 := heir_pushes_le (.node a1 b1 c1 e1) ar
                simp only [unlink_pushes, height_node, __MAX] at *
                split_ifs at hh <;> omega
      · by_cases hlt : cmp d data < 0
        · simp only [remove_pushes, if_neg h0, if_pos hlt, height_node, __MAX] at *
          split_ifs at hh <;> omega
        · simp only [remove_pushes, if_neg h0, if_neg hlt, height_node, __MAX] at *
          split_ifs at hh <;> omega

end capacity

/-! ## The height bound -/

theorem avl_fib {α : Type} (t : avl_node α) (ha : avl t) :
    Nat.fib (Int.toNat (__HEIGHT t + 3)) ≤ count t + 1 := by
  induction t with
  | null => simp [__HEIGHT, count]
  | node l r h d ihl ihr =>
      obtain ⟨al, ar, hh, hb1, hb2⟩ := ha
      have il := ihl al
      have ir := ihr ar
      have gl := avl_height_ge l al
      have gr := avl_height_ge r ar
      simp only [__MAX] at hh
      simp only [height_node, count]
      obtain ⟨a, ea⟩ := Int.eq_ofNat_of_zero_le (show 0 ≤ __HEIGHT l + 1 by omega)
      obtain ⟨b, eb⟩ := Int.eq_ofNat_of_zero_le (show 0 ≤ __HEIGHT r + 1 by omega)
      have e1 : Int.toNat (__HEIGHT l + 3) = a + 2 := by omega
      have e2 : Int.toNat (__HEIGHT r + 3) = b + 2 := by omega
      rw [e1] at il
      rw [e2] at ir
      by_cases hlr : __HEIGHT l > __HEIGHT r
      · have e3 : Int.toNat (h + 3) = a + 3 := by
          rw [if_pos hlr] at hh; omega
        have hab : a = b + 1 := by omega
        rw [e3, show a + 3 = (a + 1) + 2 from rfl, Nat.fib_add_two]
        have h1 : Nat.fib (a + 1) ≤ Nat.fib (b + 2) := by rw [hab]
        have h2 : Nat.fib (a + 1 + 1) = Nat.fib (a + 2) := rfl
        omega
      · have e3 : Int.toNat (h + 3) = b + 3 := by
          rw [if_neg hlr] at hh; omega
        have hab : b ≤ a + 1 := by omega
        rw [e3, show b + 3 = (b + 1) + 2 from rfl, Nat.fib_add_two]
        have h1 : Nat.fib (b + 1) ≤ Nat.fib (a + 2) := Nat.fib_mono (by omega)
        have h2 : Nat.fib (b + 1 + 1) = Nat.fib (b + 2) := rfl
        omega

set_option exponentiation.threshold 4096 in
theorem fib_table : ∀ k < 94, 2 ^ (25 * (k - 3)) ≤ (Nat.fib k + 1) ^ 36 := by
  decide

theorem fib_94 : 2 ^ 64 < Nat.fib 94 := by
  decide

theorem log_bound_of_pow (h n : Nat) (hp : 2 ^ (25 * h) ≤ (n + 2) ^ 36) :
    (h : ℝ) ≤ 1.44 * Real.logb 2 ((n : ℝ) + 2) := by
  have h0 : ((2 ^ (25 * h) : Nat) : ℝ) ≤ (((n + 2) ^ 36 : Nat) : ℝ) := Nat.cast_le.mpr hp
  have h1 : ((2 : ℝ)) ^ (25 * h) ≤ ((n : ℝ) + 2) ^ 36 := by
    rw [Nat.cast_pow, Nat.cast_pow, Nat.cast_add] at h0
    exact h0
  have hn0 : (0 : ℝ) ≤ (n : ℝ) := Nat.cast_nonneg n
  have hpos : (0 : ℝ) < (n : ℝ) + 2 := by linarith
  have h2 : Real.logb 2 ((2 : ℝ) ^ (25 * h)) ≤ Real.logb 2 (((n : ℝ) + 2) ^ 36) :=
    Real.logb_le_logb_of_le (by norm_num) (pow_pos (by norm_num) _) h1
  rw [Real.logb_pow, Real.logb_pow, Real.logb_self_eq_one (by norm_num)] at h2
  push_cast at h2
  linarith

theorem avl_log_bound {α : Type} (t : avl_node α) (ha : avl t) (hn : count t < 2 ^ 64) :
    ((__HEIGHT t : Int) : ℝ) ≤ 1.44 * Real.logb 2 ((count t : ℝ) + 2) := by
  have hf := avl_fib t ha
  have hg := avl_height_ge t ha
  obtain ⟨k, ek⟩ := Int.eq_ofNat_of_zero_le (show 0 ≤ __HEIGHT t + 3 by omega)
  have e1 : Int.toNat (__HEIGHT t + 3) = k := by omega
  rw [e1] at hf
  have hk : k < 94 := by
    by_contra hge
    have h1 : Nat.fib 94 ≤ Nat.fib k := Nat.fib_mono (by omega)
    have h2 := fib_94
    omega
  have htab := fib_table k hk
  have hpow : 2 ^ (25 * (k - 3)) ≤ (count t + 2) ^ 36 :=
    le_trans htab (Nat.pow_le_pow_left (by omega) 36)
  have hlog := log_bound_of_pow (k - 3) (count t) hpow
  have hlogpos : (0 : ℝ) ≤ Real.logb 2 ((count t : ℝ) + 2) :=
    Real.logb_nonneg (by norm_num) (by
      have : (0 : ℝ) ≤ (count t : ℝ) := Nat.cast_nonneg _
      linarith)
  by_cases h3 : 3 ≤ k
  · have e2 : __HEIGHT t = ((k - 3 : Nat) : Int) := by omega
    rw [e2]
    exact_mod_cast hlog
  · have e2 : __HEIGHT t ≤ 0 := by omega
    have : ((__HEIGHT t : Int) : ℝ) ≤ 0 := by exact_mod_cast e2
    linarith

theorem fib_67 : Nat.fib 67 = 44945570212853 := by decide

theorem avl_levels_fit {α : Type} (t : avl_node α) (ha : avl t)
    (hn : count t < nodes_of_65_levels) : (__HEIGHT t + 1).toNat ≤ PATH_SLOTS := by
  have hf := avl_fib t ha
  have hg := avl_height_ge t ha
  have h67 := fib_67
  have hk : Int.toNat (__HEIGHT t + 3) < 67 := by
    by_contra hge
    have h1 : Nat.fib 67 ≤ Nat.fib (Int.toNat (__HEIGHT t + 3)) := Nat.fib_mono (by omega)
    simp only [nodes_of_65_levels] at hn
    omega
  simp only [PATH_SLOTS]
  omega

theorem search_fits_of_count {α : Type} (cmp : α → α → Int) (p : α) (t : avl_node α)
    (ha : avl t) (hn : count t < nodes_of_65_levels) : search_pushes cmp p t ≤ PATH_SLOTS :=
  le_trans (search_pushes_le cmp p t ha) (avl_levels_fit t ha hn)

theorem remove_fits_of_count {α : Type} (cmp : α → α → Int) (p : α) (t : avl_node α)
    (ha : avl t) (hn : count t < nodes_of_65_levels) : remove_pushes cmp p t ≤ PATH_SLOTS :=
  le_trans (remove_pushes_le cmp p t ha) (avl_levels_fit t ha hn)

theorem search_fits_of_height {α : Type} (cmp : α → α → Int) (p : α) (t : avl_node α)
    (ha : avl t) (hh : __HEIGHT t < 64) : search_pushes cmp p t ≤ PATH_SLOTS := by
  have := search_pushes_le cmp p t ha
  simp only [PATH_SLOTS]
  omega

theorem remove_fits_of_height {α : Type} (cmp : α → α → Int) (p : α) (t : avl_node α)
    (ha : avl t) (hh : __HEIGHT t < 64) : remove_pushes cmp p t ≤ PATH_SLOTS := by
  have := remove_pushes_le cmp p t ha
  simp only [PATH_SLOTS]
  omega

/-! ## Traversal, lookup, validator -/

section toplevel
variable {α : Type}

theorem count_eq_length (t : avl_node α) : count t = (payloads t).length := by
  induction t with
  | null => rfl
  | node l r h d ihl ihr => simp [count, payloads, ihl, ihr]; omega

theorem foreach_core_eq (t : avl_node α) : _avl_foreach_core t = payloads t := by
  induction t with
  | null => rfl
  | node l r h d ihl ihr =>
      cases l with
      | null =>
          show [] ++ d :: _avl_foreach_core r = payloads (.node .null r h d)
          rw [ihr]; rfl
      | node a b c e =>
          show _avl_foreach_core (.node a b c e) ++ d :: _avl_foreach_core r = _
          rw [ihl, ihr]; rfl

theorem search_order_iff_sorted {cmp : α → α → Int} (hc : lawful cmp) (t : avl_node α) :
    search_order cmp t ↔ (payloads t).Pairwise (fun a b => cmp a b < 0) := by
  induction t with
  | null => simp [search_order, payloads]
  | node l r h d ihl ihr =>
      simp only [search_order, payloads_node, List.pairwise_append, List.pairwise_cons,
        List.mem_cons, ihl, ihr]
      constructor
      · rintro ⟨h1, h2, h3, h4⟩
        refine ⟨h3, ⟨fun b hb => (hc.antisymm d b).2 (h2 b hb), h4⟩, ?_⟩
        rintro a ha b (hb | hb)
        · exact hb ▸ h1 a ha
        · exact hc.lt_trans a d b (h1 a ha) ((hc.antisymm d b).2 (h2 b hb))
      · rintro ⟨h1, ⟨h2, h3⟩, h4⟩
        exact ⟨fun x hx => h4 x hx d (Or.inl rfl), fun x hx => (hc.antisymm d x).1 (h2 x hx),
          h1, h3⟩

theorem find_loop_spec {cmp : α → α → Int} (hc : lawful cmp) (data : α) :
    ∀ t : avl_node α, search_order cmp t →
      ((∃ x ∈ payloads t, cmp x data = 0) → avl_find_loop cmp data t = 1) ∧
      ((∀ x ∈ payloads t, cmp x data ≠ 0) → avl_find_loop cmp data t = 0) := by
  intro t
  induction t with
  | null =>
      intro _
      exact ⟨fun hx => by simp [payloads] at hx, fun _ => rfl⟩
  | node l r h d ihl ihr =>
      intro hso
      by_cases h0 : cmp d data = 0
      · refine ⟨fun _ => by simp only [avl_find_loop, if_pos h0], fun hne => ?_⟩
        exact absurd h0 (hne d (by simp [payloads]))
      · by_cases hlt : cmp d data < 0
        · simp only [avl_find_loop, if_neg h0, if_pos hlt]
          refine ⟨fun hx => (ihr hso.2.2.2).1 (found_right hc l r h d data hso hlt hx),
            fun hne => (ihr hso.2.2.2).2 fun x hx => hne x (by simp [payloads, hx])⟩
        · simp only [avl_find_loop, if_neg h0, if_neg hlt]
          refine ⟨fun hx => (ihl hso.2.2.1).1 (found_left hc l r h d data hso (by omega) hx),
            fun hne => (ihl hso.2.2.1).2 fun x hx => hne x (by simp [payloads, hx])⟩

theorem insert_descent_dup {cmp : α → α → Int} (hc : lawful cmp) (data : α) :
    ∀ t : avl_node α, search_order cmp t → (∃ x ∈ payloads t, cmp x data = 0) →
      ∀ up, insert_descent cmp data t up = none := by
  intro t
  induction t with
  | null => intro _ hx; simp [payloads] at hx
  | node l r h d ihl ihr =>
      intro hso hx up
      by_cases h0 : cmp d data = 0
      · simp only [insert_descent, if_pos h0]
      · by_cases hlt : cmp d data < 0
        · simp only [insert_descent, if_neg h0, if_pos hlt]
          exact ihr hso.2.2.2 (found_right hc l r h d data hso hlt hx) _
        · simp only [insert_descent, if_neg h0, if_neg hlt]
          exact ihl hso.2.2.1 (found_left hc l r h d data hso (by omega) hx) _

theorem remove_descent_absent (cmp : α → α → Int) (data : α) :
    ∀ t : avl_node α, (∀ x ∈ payloads t, cmp x data ≠ 0) →
      ∀ up, remove_descent cmp data t up = none := by
  intro t
  induction t with
  | null => intro _ _; rfl
  | node l r h d ihl ihr =>
      intro hne up
      have h0 : cmp d data ≠ 0 := hne d (by simp [payloads])
      by_cases hlt : cmp d data < 0
      · simp only [remove_descent, if_neg h0, if_pos hlt]
        exact ihr (fun x hx => hne x (by simp [payloads, hx])) _
      · simp only [remove_descent, if_neg h0, if_neg hlt]
        exact ihl (fun x hx => hne x (by simp [payloads, hx])) _

theorem abs_macro_le (a b : Int) (h : |a - b| ≤ 1) : __ABS a b ≤ 1 := by
  rw [abs_le] at h
  unfold __ABS
  split_ifs <;> omega

theorem assert_r_spec {cmp : α → α → Int} :
    ∀ t : avl_node α, search_order cmp t → balanced t →
      _avl_assert_r cmp t = some (count t % SIZE_T_MOD) := by
  intro t
  induction t with
  | null => intro _ _; rfl
  | node l r h d ihl ihr =>
      intro hso hb
      obtain ⟨hl, hr, sl, sr⟩ := hso
      obtain ⟨hab, bl, br⟩ := hb
      have habs := abs_macro_le _ _ hab
      have il := ihl sl bl
      have ir := ihr sr br
      cases l with
      | null =>
          cases r with
          | null =>
              show (if __ABS (__HEIGHT (avl_node.null : avl_node α))
                  (__HEIGHT (avl_node.null : avl_node α)) ≤ 1
                then some ((1 + 0) % SIZE_T_MOD) else none) = _
              rw [if_pos habs]; rfl
          | node a b c e =>
              have hc1 : cmp e d > 0 := hr e (by simp [payloads])
              show (if cmp e d > 0 then
                  (_avl_assert_r cmp (.node a b c e)).map fun sr => (1 + 0 + sr) % SIZE_T_MOD
                else none) = _
              rw [if_pos hc1, ir]
              simp only [Option.map_some', count, SIZE_T_MOD]
              congr 1
              omega
      | node a0 b0 c0 e0 =>
          have hc0 : cmp e0 d < 0 := hl e0 (by simp [payloads])
          cases r with
          | null =>
              show (match (if cmp e0 d < 0 then _avl_assert_r cmp (.node a0 b0 c0 e0) else none) with
                | none => none
                | some sl =>
                    if __ABS (__HEIGHT (avl_node.node a0 b0 c0 e0))
                        (__HEIGHT (avl_node.null : avl_node α)) ≤ 1
                      then some ((1 + sl) % SIZE_T_MOD) else none) = _
              rw [if_pos hc0, il]
              simp only [if_pos habs, count, SIZE_T_MOD]
              congr 1
              omega
          | node a b c e =>
              have hc1 : cmp e d > 0 := hr e (by simp [payloads])
              show (match (if cmp e0 d < 0 then _avl_assert_r cmp (.node a0 b0 c0 e0) else none) with
                | none => none
                | some sl =>
                    if cmp e d > 0 then
                      (_avl_assert_r cmp (.node a b c e)).map fun sr => (1 + sl + sr) % SIZE_T_MOD
                    else none) = _
              rw [if_pos hc0, il, ir]
              simp only [if_pos hc1, Option.map_some', count, SIZE_T_MOD]
              congr 1
              omega

theorem assert_of_well_formed {cmp : α → α → Int} (t : avl_root α) (h : well_formed cmp t) :
    avl_assert cmp t = true := by
  have := assert_r_spec t.root h.order h.balance
  simp only [avl_assert, this]
  have h1 := h.size_eq
  have h2 := h.size_lt
  simp only [decide_eq_true_eq]
  rw [← h1]
  exact Nat.mod_eq_of_lt h2

end toplevel

/-! ## The operations on a well-formed tree -/

section ops
variable {α : Type}

theorem well_formed_of_avl {cmp : α → α → Int} (hc : lawful cmp) (T : avl_node α) (n : Nat)
    (ha : avl T) (hs : (payloads T).Pairwise (fun a b => cmp a b < 0))
    (hn : n = (payloads T).length) (hlt : n < SIZE_T_MOD) : well_formed cmp ⟨T, n⟩ :=
  ⟨(search_order_iff_sorted hc T).2 hs, ((avl_iff T).1 ha).1, ((avl_iff T).1 ha).2,
    by rw [count_eq_length]; exact hn, hlt⟩

theorem well_formed.avl {cmp : α → α → Int} {t : avl_root α} (h : well_formed cmp t) :
    avl t.root := (avl_iff t.root).2 ⟨h.balance, h.heights⟩

theorem well_formed.sorted {cmp : α → α → Int} (hc : lawful cmp) {t : avl_root α}
    (h : well_formed cmp t) : (payloads t.root).Pairwise (fun a b => cmp a b < 0) :=
  (search_order_iff_sorted hc t.root).1 h.order

theorem sorted_insert {cmp : α → α → Int} (hc : lawful cmp) (l1 l2 : List α) (p : α)
    (hs : (l1 ++ l2).Pairwise (fun a b => cmp a b < 0))
    (h1 : ∀ x ∈ l1, cmp x p < 0) (h2 : ∀ x ∈ l2, cmp x p > 0) :
    (l1 ++ p :: l2).Pairwise (fun a b => cmp a b < 0) := by
  rw [List.pairwise_append] at hs ⊢
  refine ⟨hs.1, List.pairwise_cons.2 ⟨fun b hb => (hc.antisymm p b).2 (h2 b hb), hs.2.1⟩, ?_⟩
  intro a ha b hb
  rcases List.mem_cons.1 hb with hb | hb
  · exact hb ▸ h1 a ha
  · exact hs.2.2 a ha b hb

theorem sorted_remove {cmp : α → α → Int} (l1 l2 : List α) (x : α)
    (hs : (l1 ++ x :: l2).Pairwise (fun a b => cmp a b < 0)) :
    (l1 ++ l2).Pairwise (fun a b => cmp a b < 0) := by
  rw [List.pairwise_append] at hs ⊢
  exact ⟨hs.1, (List.pairwise_cons.1 hs.2.1).2,
    fun a ha b hb => hs.2.2 a ha b (List.mem_cons_of_mem _ hb)⟩

theorem sorted_unique {cmp : α → α → Int} (hc : lawful cmp) (l1 l2 : List α) (x p : α)
    (hs : (l1 ++ x :: l2).Pairwise (fun a b => cmp a b < 0)) (hx : cmp x p = 0) :
    ∀ y ∈ l1 ++ l2, cmp y p ≠ 0 := by
  rw [List.pairwise_append] at hs
  intro y hy h0
  have hpx : cmp p x = 0 := hc.symm_eq x p hx
  rcases List.mem_append.1 hy with hy | hy
  · have h1 : cmp y x < 0 := hs.2.2 y hy x (List.mem_cons_self _ _)
    have h2 := hc.lt_of_lt_of_eq y x p h1 hx
    omega
  · have h1 : cmp x y < 0 := (List.pairwise_cons.1 hs.2.1).1 y hy
    have h2 := hc.lt_of_eq_of_lt p x y hpx h1
    have h3 := hc.symm_eq y p h0
    omega

theorem avl_insert_new {cmp : α → α → Int} (hc : lawful cmp) (t : avl_root α) (p : α)
    (hwf : well_formed cmp t) (hnew : ∀ x ∈ payloads t.root, cmp x p ≠ 0)
    (hroom : t.size + 1 < SIZE_T_MOD) (hfit : search_pushes cmp p t.root ≤ PATH_SLOTS) :
    ∃ T l1 l2, avl_insert cmp true t p = some (0, ⟨T, t.size + 1⟩) ∧ avl T ∧
      payloads t.root = l1 ++ l2 ∧ payloads T = l1 ++ p :: l2 ∧
      (∀ x ∈ l1, cmp x p < 0) ∧ (∀ x ∈ l2, cmp x p > 0) := by
  obtain ⟨root, size⟩ := t
  have ha := hwf.avl
  have hso := hwf.order
  have hsz := hwf.size_eq
  simp only at ha hso hsz hnew hroom hfit ⊢
  have hmod : (size + 1) % SIZE_T_MOD = size + 1 := Nat.mod_eq_of_lt hroom
  cases root with
  | null =>
      have h0 : size = 0 := by simpa [count] using hsz
      subst h0
      refine ⟨.node .null .null 0 p, [], [], ?_, avl_leaf p, rfl, rfl, by simp, by simp⟩
      simp [avl_insert, _make_node, SIZE_T_MOD]
  | node l r h d =>
      obtain ⟨stk, T, done, e1, e2, aT, ⟨l1, l2, p1, p2, p3, p4⟩, -, -⟩ :=
        insert_path cmp hc p (.node l r h d) ha hso hnew []
      refine ⟨T, l1, l2, ?_, aT, p1, p2, p3, p4⟩
      have e3 : insert_walk stk (.node .null .null 0 p) false = some T := by
        rw [e2]; cases done <;> rfl
      have hne : (size + 1) % SIZE_T_MOD ≠ 0 := by rw [hmod]; omega
      have e0 := insert_search_fits cmp p (.node l r h d) [] (by simpa using hfit)
      simp only [avl_insert, if_neg hne, e0, e1, _make_node, if_true, e3, Option.map_some']
      rw [hmod]

theorem avl_insert_dup {cmp : α → α → Int} (hc : lawful cmp) (alloc : Bool) (t : avl_root α)
    (p : α) (hso : search_order cmp t.root) (hdup : ∃ x ∈ payloads t.root, cmp x p = 0)
    (hroom : (t.size + 1) % SIZE_T_MOD ≠ 0) (hfit : search_pushes cmp p t.root ≤ PATH_SLOTS) :
    avl_insert cmp alloc t p = some (EEXIST, t) := by
  obtain ⟨root, size⟩ := t
  simp only at hso hdup hroom hfit ⊢
  cases root with
  | null => simp [payloads] at hdup
  | node l r h d =>
      have := insert_descent_dup hc p (.node l r h d) hso hdup []
      have e0 := insert_search_fits cmp p (.node l r h d) [] (by simpa using hfit)
      simp only [avl_insert, if_neg hroom, e0, this]

theorem avl_insert_full (cmp : α → α → Int) (alloc : Bool) (t : avl_root α) (p : α)
    (hroot : t.root ≠ .null) (hfull : (t.size + 1) % SIZE_T_MOD = 0) :
    avl_insert cmp alloc t p = some (ENOMEM, t) := by
  obtain ⟨root, size⟩ := t
  cases root with
  | null => exact absurd rfl hroot
  | node l r h d => simp only [avl_insert, if_pos hfull]

theorem avl_remove_absent (cmp : α → α → Int) (t : avl_root α) (p : α)
    (hne : ∀ x ∈ payloads t.root, cmp x p ≠ 0)
    (hfit : remove_pushes cmp p t.root ≤ PATH_SLOTS) :
    avl_remove cmp t p = some (ENOENT, t, []) := by
  have e0 := remove_search_fits cmp p t.root [] (by
    have := search_le_remove_pushes cmp p t.root
    simp only [List.length_nil]; omega)
  simp only [avl_remove, e0, remove_descent_absent cmp p t.root hne []]

theorem avl_remove_found {cmp : α → α → Int} (hc : lawful cmp) (t : avl_root α) (p : α)
    (hwf : well_formed cmp t) (hx : ∃ x ∈ payloads t.root, cmp x p = 0)
    (hfit : remove_pushes cmp p t.root ≤ PATH_SLOTS) :
    ∃ T f l1 x l2, avl_remove cmp t p = some (0, ⟨T, t.size - 1⟩, [f]) ∧ avl T ∧
      payloads t.root = l1 ++ x :: l2 ∧ cmp x p = 0 ∧ payloads T = l1 ++ l2 := by
  obtain ⟨T, aT, ⟨l1, x, l2, p1, p2, p3⟩, -, w⟩ :=
    remove_path cmp hc p t.root hwf.avl hwf.order hx
  have hres : removes cmp p t.root [] (some T) := by
    rcases w with w | ⟨-, w⟩
    · exact w []
    · exact w []
  obtain ⟨up1, it, stk, n, f, q1, q2, q3⟩ := hres
  refine ⟨T, f, l1, x, l2, ?_, aT, p1, p2, p3⟩
  have hpos : 0 < t.size := by
    rw [hwf.size_eq, count_eq_length, p1]; simp
  have hlt := hwf.size_lt
  have hmod : (t.size + SIZE_T_MOD - 1) % SIZE_T_MOD = t.size - 1 := by
    have : t.size + SIZE_T_MOD - 1 = (t.size - 1) + SIZE_T_MOD := by omega
    rw [this, Nat.add_mod_right]
    exact Nat.mod_eq_of_lt (by omega)
  obtain ⟨n1, n2⟩ := remove_descent_length cmp p t.root [] up1 it q1
  have e0 := remove_search_fits cmp p t.root [] (by
    have := search_le_remove_pushes cmp p t.root
    simp only [List.length_nil]; omega)
  have e1 := remove_node_fits up1 it (by simp only [List.length_nil] at n1; omega)
  simp only [avl_remove, e0, e1, q1, q2, q3, Option.map_some', hmod]

end ops

/-! ## Calls that overrun the path stack -/

section overrun
variable {α : Type}

theorem remove_descent_none (cmp : α → α → Int) (data : α) :
    ∀ (t : avl_node α) (up : List (path_slot α)), remove_descent cmp data t up = none →
      remove_pushes cmp data t = search_pushes cmp data t := by
  intro t
  induction t with
  | null => intro _ _; rfl
  | node l r h d ihl ihr =>
      intro up hs
      by_cases h0 : cmp d data = 0
      · simp [remove_descent, if_pos h0] at hs
      · by_cases hlt : cmp d data < 0
        · simp only [remove_descent, if_neg h0, if_pos hlt] at hs
          simp only [search_pushes, remove_pushes, if_neg h0, if_pos hlt, ihr _ hs]
        · simp only [remove_descent, if_neg h0, if_neg hlt] at hs
          simp only [search_pushes, remove_pushes, if_neg h0, if_neg hlt, ihl _ hs]

theorem avl_insert_overrun (cmp : α → α → Int) (alloc : Bool) (t : avl_root α) (p : α)
    (hroom : (t.size + 1) % SIZE_T_MOD ≠ 0) (h : PATH_SLOTS < search_pushes cmp p t.root) :
    avl_insert cmp alloc t p = none := by
  obtain ⟨root, size⟩ := t
  simp only at hroom h ⊢
  cases root with
  | null => simp only [search_pushes] at h; omega
  | node l r hh d =>
      have e0 := insert_search_overrun cmp p (.node l r hh d) []
        (by simp only [List.length_nil]; omega) (by simpa using h)
      simp only [avl_insert, if_neg hroom, e0]

theorem avl_remove_overrun (cmp : α → α → Int) (t : avl_root α) (p : α)
    (h : PATH_SLOTS < remove_pushes cmp p t.root) : avl_remove cmp t p = none := by
  by_cases hs : PATH_SLOTS < search_pushes cmp p t.root
  · have e0 := remove_search_overrun cmp p t.root []
      (by simp only [List.length_nil]; omega) (by simpa using hs)
    simp only [avl_remove, e0]
  · have e0 := remove_search_fits cmp p t.root [] (by simp only [List.length_nil]; omega)
    cases hd : remove_descent cmp p t.root [] with
    | none =>
        have := remove_descent_none cmp p t.root [] hd
        omega
    | some q =>
        obtain ⟨up1, it⟩ := q
        obtain ⟨n1, n2⟩ := remove_descent_length cmp p t.root [] up1 it hd
        simp only [List.length_nil] at n1
        have e1 := remove_node_overrun up1 it (by omega) (by omega)
        simp only [avl_remove, e0, hd, e1]

end overrun


/-! ## The example trees -/

theorem example_tree_built : insert_list int_cmp [1, 5, 3, 8, 2] empty_tree = some example_tree := by
  decide

theorem example_tree_wf : well_formed int_cmp example_tree := by
  refine ⟨?_, ?_, ?_, ?_, ?_⟩
  · simp [example_tree, leaf, search_order, payloads, int_cmp]
  · simp [example_tree, leaf, balanced, __HEIGHT]
  · simp [example_tree, leaf, heights_cached, __HEIGHT]
  · rfl
  · simp [example_tree, SIZE_T_MOD]

theorem example_tree_has_5 : ∃ x ∈ payloads example_tree.root, int_cmp x 5 = 0 :=
  ⟨5, by simp [example_tree, leaf, payloads], by simp [int_cmp]⟩

theorem example_tree_lacks_4 : ∀ x ∈ payloads example_tree.root, int_cmp x 4 ≠ 0 := by
  simp [example_tree, leaf, payloads, int_cmp]

/-! ## Inserting the keys of a list -/

section lists
variable {α : Type}

theorem avl_size_of_well_formed {cmp : α → α → Int} (t : avl_root α) (h : well_formed cmp t) :
    avl_size t = some (payloads t.root).length := by
  have h1 := h.size_eq
  rw [count_eq_length] at h1
  obtain ⟨root, size⟩ := t
  simp only at h1
  cases root with
  | null =>
      simp only [payloads, List.length_nil] at h1
      subst h1
      rfl
  | node l r h d => simp only [avl_size, h1]

theorem any_eq_iff (cmp : α → α → Int) (seen : List α) (k : α) :
    seen.any (fun x => decide (cmp x k = 0)) = true ↔ ∃ x ∈ seen, cmp x k = 0 := by
  simp [List.any_eq_true]

theorem distinct_from_length (cmp : α → α → Int) :
    ∀ (ks seen : List α), seen.length ≤ (distinct_from cmp seen ks).length := by
  intro ks
  induction ks with
  | nil => intro seen; exact Nat.le_refl _
  | cons k ks ih =>
      intro seen
      simp only [distinct_from]
      split_ifs
      · exact ih seen
      · have := ih (seen ++ [k])
        simp only [List.length_append, List.length_singleton] at this
        omega

theorem avl_insert_dup_unchanged {cmp : α → α → Int} (hc : lawful cmp) (alloc : Bool)
    (t : avl_root α) (p : α) (hso : search_order cmp t.root)
    (hdup : ∃ x ∈ payloads t.root, cmp x p = 0)
    (hfit : search_pushes cmp p t.root ≤ PATH_SLOTS) :
    ∃ code, avl_insert cmp alloc t p = some (code, t) := by
  by_cases hfull : (t.size + 1) % SIZE_T_MOD = 0
  · have hroot : t.root ≠ .null := by
      intro h0
      rw [h0] at hdup
      simp [payloads] at hdup
    exact ⟨ENOMEM, avl_insert_full cmp alloc t p hroot hfull⟩
  · exact ⟨EEXIST, avl_insert_dup hc alloc t p hso hdup hfull hfit⟩

theorem insert_list_spec {cmp : α → α → Int} (hc : lawful cmp) :
    ∀ (ks : List α) (t : avl_root α) (seen : List α), well_formed cmp t →
      (payloads t.root).Perm seen →
      (distinct_from cmp seen ks).length < nodes_of_65_levels →
      ∃ t1, insert_list cmp ks t = some t1 ∧ well_formed cmp t1 ∧
        (payloads t1.root).Perm (distinct_from cmp seen ks) := by
  intro ks
  induction ks with
  | nil => intro t seen hwf hp _; exact ⟨t, rfl, hwf, hp⟩
  | cons k ks ih =>
      intro t seen hwf hp hlen
      have hcnt : count t.root = seen.length := by rw [count_eq_length, hp.length_eq]
      have hfit : search_pushes cmp k t.root ≤ PATH_SLOTS := by
        refine search_fits_of_count cmp k t.root hwf.avl ?_
        have h1 := distinct_from_length cmp (k :: ks) seen
        omega
      by_cases hdup : ∃ x ∈ payloads t.root, cmp x k = 0
      · obtain ⟨code, e⟩ := avl_insert_dup_unchanged hc true t k hwf.order hdup hfit
        have hany : seen.any (fun x => decide (cmp x k = 0)) = true := by
          rw [any_eq_iff]
          obtain ⟨x, hx, h0⟩ := hdup
          exact ⟨x, hp.mem_iff.1 hx, h0⟩
        simp only [distinct_from, hany, if_true] at hlen ⊢
        obtain ⟨t1, e1, w1, q1⟩ := ih t seen hwf hp hlen
        exact ⟨t1, by simp only [insert_list, e, e1], w1, q1⟩
      · have hnew : ∀ x ∈ payloads t.root, cmp x k ≠ 0 := fun x hx h0 => hdup ⟨x, hx, h0⟩
        have hany : ¬ seen.any (fun x => decide (cmp x k = 0)) = true := by
          rw [any_eq_iff]
          rintro ⟨x, hx, h0⟩
          exact hdup ⟨x, hp.mem_iff.2 hx, h0⟩
        simp only [distinct_from, hany, if_false, Bool.false_eq_true] at hlen ⊢
        have hsz : t.size = seen.length := by
          rw [hwf.size_eq, count_eq_length, hp.length_eq]
        have hroom : t.size + 1 < SIZE_T_MOD := by
          have := distinct_from_length cmp ks (seen ++ [k])
          simp only [List.length_append, List.length_singleton] at this
          simp only [nodes_of_65_levels] at hlen
          simp only [SIZE_T_MOD]
          omega
        obtain ⟨T, l1, l2, e, aT, p1, p2, p3, p4⟩ := avl_insert_new hc t k hwf hnew hroom hfit
        have w : well_formed cmp ⟨T, t.size + 1⟩ := by
          refine well_formed_of_avl hc T _ aT ?_ ?_ hroom
          · rw [p2]
            exact sorted_insert hc l1 l2 k (p1 ▸ hwf.sorted hc) p3 p4
          · rw [hwf.size_eq, count_eq_length, p1, p2]
            simp only [List.length_append, List.length_cons]
            omega
        have hperm : (payloads T).Perm (seen ++ [k]) := by
          rw [p2]
          have h1 : (l1 ++ k :: l2).Perm (k :: (l1 ++ l2)) := List.perm_middle
          have h2 : (k :: (l1 ++ l2)).Perm (k :: seen) := List.Perm.cons k (p1 ▸ hp)
          have h3 : (k :: seen).Perm (seen ++ [k]) := (List.perm_append_singleton k seen).symm
          exact (h1.trans h2).trans h3
        obtain ⟨t1, e1, w1, q1⟩ := ih ⟨T, t.size + 1⟩ (seen ++ [k]) w hperm hlen
        exact ⟨t1, by simp only [insert_list, e, e1], w1, q1⟩

theorem distinct_from_prefix (cmp : α → α → Int) :
    ∀ (ks seen : List α), ∀ x ∈ seen, x ∈ distinct_from cmp seen ks := by
  intro ks
  induction ks with
  | nil => intro seen x hx; exact hx
  | cons k ks ih =>
      intro seen x hx
      simp only [distinct_from]
      split_ifs
      · exact ih seen x hx
      · exact ih _ x (List.mem_append_left _ hx)

theorem distinct_from_subset (cmp : α → α → Int) :
    ∀ (ks seen : List α), ∀ x ∈ distinct_from cmp seen ks, x ∈ seen ∨ x ∈ ks := by
  intro ks
  induction ks with
  | nil => intro seen x hx; exact Or.inl hx
  | cons k ks ih =>
      intro seen x hx
      simp only [distinct_from] at hx
      split_ifs at hx
      · rcases ih seen x hx with h | h
        · exact Or.inl h
        · exact Or.inr (List.mem_cons_of_mem _ h)
      · rcases ih _ x hx with h | h
        · rcases List.mem_append.1 h with h | h
          · exact Or.inl h
          · rw [List.mem_singleton] at h
            exact Or.inr (h ▸ List.mem_cons_self _ _)
        · exact Or.inr (List.mem_cons_of_mem _ h)

theorem distinct_from_covers {cmp : α → α → Int} (hc : lawful cmp) :
    ∀ (ks seen : List α), ∀ k ∈ ks, ∃ x ∈ distinct_from cmp seen ks, cmp x k = 0 := by
  intro ks
  induction ks with
  | nil => intro seen k hk; simp at hk
  | cons k0 ks ih =>
      intro seen k hk
      simp only [distinct_from]
      rcases List.mem_cons.1 hk with hk | hk
      · subst hk
        split_ifs with hany
        · obtain ⟨x, hx, h0⟩ := (any_eq_iff cmp seen k).1 hany
          exact ⟨x, distinct_from_prefix cmp ks seen x hx, h0⟩
        · exact ⟨k, distinct_from_prefix cmp ks _ k (by simp), hc.refl k⟩
      · split_ifs
        · exact ih seen k hk
        · exact ih _ k hk

theorem distinct_from_of_pairwise (cmp : α → α → Int) :
    ∀ (ks seen : List α), (seen ++ ks).Pairwise (fun a b => cmp a b ≠ 0) →
      distinct_from cmp seen ks = seen ++ ks := by
  intro ks
  induction ks with
  | nil => intro seen _; simp [distinct_from]
  | cons k ks ih =>
      intro seen hp
      have hany : ¬ seen.any (fun x => decide (cmp x k = 0)) = true := by
        rw [any_eq_iff]
        rintro ⟨x, hx, h0⟩
        rw [List.pairwise_append] at hp
        exact hp.2.2 x hx k (List.mem_cons_self _ _) h0
      simp only [distinct_from, hany, if_false, Bool.false_eq_true]
      rw [ih (seen ++ [k]) (by simpa using hp)]
      simp

theorem insert_list_append (cmp : α → α → Int) :
    ∀ (a b : List α) (t : avl_root α),
      insert_list cmp (a ++ b) t = (insert_list cmp a t).bind (insert_list cmp b) := by
  intro a
  induction a with
  | nil => intro b t; rfl
  | cons k a ih =>
      intro b t
      simp only [List.cons_append, insert_list]
      cases avl_insert cmp true t k with
      | none => rfl
      | some r => exact ih b r.2

theorem empty_tree_wf (cmp : α → α → Int) : well_formed cmp (empty_tree : avl_root α) :=
  ⟨trivial, trivial, trivial, rfl, by simp [empty_tree, SIZE_T_MOD]⟩

end lists

/-! ## Sequences of calls -/

section seqs
variable {α : Type}

theorem insert_descent_relink (cmp : α → α → Int) (data : α) :
    ∀ (t : avl_node α) (up stk : List (path_slot α)),
      insert_descent cmp data t up = some stk → relink stk .null = relink up t := by
  intro t
  induction t with
  | null =>
      intro up stk h
      simp only [insert_descent, Option.some.injEq] at h
      rw [← h]
  | node l r h d ihl ihr =>
      intro up stk hs
      simp only [insert_descent] at hs
      split_ifs at hs with h0 hlt
      · rw [ihr _ _ hs]; rfl
      · rw [ihl _ _ hs]; rfl

theorem insert_descent_new (cmp : α → α → Int) (data : α) :
    ∀ (t : avl_node α), (∀ x ∈ payloads t, cmp x data ≠ 0) →
      ∀ up, ∃ stk, insert_descent cmp data t up = some stk := by
  intro t
  induction t with
  | null => intro _ up; exact ⟨up, rfl⟩
  | node l r h d ihl ihr =>
      intro hne up
      have h0 : cmp d data ≠ 0 := hne d (by simp [payloads])
      by_cases hlt : cmp d data < 0
      · simp only [insert_descent, if_neg h0, if_pos hlt]
        exact ihr (fun x hx => hne x (by simp [payloads, hx])) _
      · simp only [insert_descent, if_neg h0, if_neg hlt]
        exact ihl (fun x hx => hne x (by simp [payloads, hx])) _

theorem avl_insert_oom (cmp : α → α → Int) (t : avl_root α) (p : α)
    (hsz : t.root = .null → t.size = 0) (hnew : ∀ x ∈ payloads t.root, cmp x p ≠ 0)
    (hfit : search_pushes cmp p t.root ≤ PATH_SLOTS) :
    avl_insert cmp false t p = some (ENOMEM, t) := by
  obtain ⟨root, size⟩ := t
  simp only at hsz hnew hfit ⊢
  cases root with
  | null =>
      have := hsz rfl
      subst this
      rfl
  | node l r h d =>
      by_cases hfull : (size + 1) % SIZE_T_MOD = 0
      · simp only [avl_insert, if_pos hfull]
      · obtain ⟨stk, e⟩ := insert_descent_new cmp p (.node l r h d) hnew []
        have hr := insert_descent_relink cmp p _ _ _ e
        have e0 := insert_search_fits cmp p (.node l r h d) [] (by simpa using hfit)
        simp only [avl_insert, if_neg hfull, e0, e, _make_node, Bool.false_eq_true, if_false, hr,
          relink]

theorem well_formed.size_zero {cmp : α → α → Int} {t : avl_root α} (h : well_formed cmp t)
    (h0 : t.root = .null) : t.size = 0 := by
  rw [h.size_eq, h0]; rfl

theorem well_formed.size_zero_iff {cmp : α → α → Int} {t : avl_root α}
    (h : well_formed cmp t) : t.size = 0 ↔ t.root = .null := by
  refine ⟨fun h0 => ?_, h.size_zero⟩
  have h1 := h.size_eq
  rw [h0] at h1
  cases hr : t.root with
  | null => rfl
  | node l r hh d =>
      rw [hr] at h1
      simp only [count] at h1
      omega

theorem avl_insert_cases {cmp : α → α → Int} (hc : lawful cmp) (alloc : Bool)
    (t : avl_root α) (p : α) (hwf : well_formed cmp t)
    (hfit : search_pushes cmp p t.root ≤ PATH_SLOTS) :
    ∃ code t1, avl_insert cmp alloc t p = some (code, t1) ∧ well_formed cmp t1 ∧
      ((code = 0 ∧ t1.size = t.size + 1) ∨ (code ≠ 0 ∧ t1 = t)) := by
  by_cases hdup : ∃ x ∈ payloads t.root, cmp x p = 0
  · by_cases hfull : (t.size + 1) % SIZE_T_MOD = 0
    · have hroot : t.root ≠ .null := by
        intro h0
        rw [h0] at hdup
        simp [payloads] at hdup
      exact ⟨ENOMEM, t, avl_insert_full cmp alloc t p hroot hfull, hwf,
        Or.inr ⟨by decide, rfl⟩⟩
    · exact ⟨EEXIST, t, avl_insert_dup hc alloc t p hwf.order hdup hfull hfit, hwf,
        Or.inr ⟨by decide, rfl⟩⟩
  · have hnew : ∀ x ∈ payloads t.root, cmp x p ≠ 0 := fun x hx h0 => hdup ⟨x, hx, h0⟩
    cases alloc with
    | false =>
        exact ⟨ENOMEM, t, avl_insert_oom cmp t p hwf.size_zero hnew hfit, hwf,
          Or.inr ⟨by decide, rfl⟩⟩
    | true =>
        by_cases hfull : (t.size + 1) % SIZE_T_MOD = 0
        · have hroot : t.root ≠ .null := by
            intro h0
            rw [hwf.size_zero h0] at hfull
            simp [SIZE_T_MOD] at hfull
          exact ⟨ENOMEM, t, avl_insert_full cmp true t p hroot hfull, hwf,
            Or.inr ⟨by decide, rfl⟩⟩
        · have hlt := hwf.size_lt
          have hroom : t.size + 1 < SIZE_T_MOD := by
            rcases Nat.lt_or_ge (t.size + 1) SIZE_T_MOD with h | h
            · exact h
            · exfalso
              have : t.size + 1 = SIZE_T_MOD := by omega
              rw [this, Nat.mod_self] at hfull
              exact hfull rfl
          obtain ⟨T, l1, l2, e, aT, p1, p2, p3, p4⟩ :=
            avl_insert_new hc t p hwf hnew hroom hfit
          refine ⟨0, _, e, well_formed_of_avl hc T _ aT ?_ ?_ hroom, Or.inl ⟨rfl, rfl⟩⟩
          · rw [p2]
            exact sorted_insert hc l1 l2 p (p1 ▸ hwf.sorted hc) p3 p4
          · rw [hwf.size_eq, count_eq_length, p1, p2]
            simp only [List.length_append, List.length_cons]
            omega

theorem avl_remove_cases {cmp : α → α → Int} (hc : lawful cmp) (t : avl_root α) (p : α)
    (hwf : well_formed cmp t) (hfit : remove_pushes cmp p t.root ≤ PATH_SLOTS) :
    ∃ code t1 freed, avl_remove cmp t p = some (code, t1, freed) ∧ well_formed cmp t1 ∧
      ((code = 0 ∧ t1.size + 1 = t.size) ∨ (code ≠ 0 ∧ t1 = t)) := by
  by_cases hx : ∃ x ∈ payloads t.root, cmp x p = 0
  · obtain ⟨T, f, l1, x, l2, e, aT, p1, p2, p3⟩ := avl_remove_found hc t p hwf hx hfit
    have hlt := hwf.size_lt
    have hpos : 0 < t.size := by
      rw [hwf.size_eq, count_eq_length, p1]; simp
    refine ⟨0, _, [f], e, well_formed_of_avl hc T _ aT ?_ ?_ (by omega),
      Or.inl ⟨rfl, by simp only; omega⟩⟩
    · rw [p3]
      exact sorted_remove l1 l2 x (p1 ▸ hwf.sorted hc)
    · rw [hwf.size_eq, count_eq_length, p1, p3]
      simp
  · have hne : ∀ x ∈ payloads t.root, cmp x p ≠ 0 := fun x hx0 h0 => hx ⟨x, hx0, h0⟩
    exact ⟨ENOENT, t, [], avl_remove_absent cmp t p hne hfit, hwf, Or.inr ⟨by decide, rfl⟩⟩

theorem run_ops_spec {cmp : α → α → Int} (hc : lawful cmp) :
    ∀ (ops : List (tree_op α)) (t : avl_root α) (i r : Nat), well_formed cmp t →
      t.size + r = i → t.size + ops.length ≤ nodes_of_65_levels →
      ∃ t1 i1 r1, run_ops cmp ops (t, i, r) = some (t1, i1, r1) ∧ well_formed cmp t1 ∧
        t1.size + r1 = i1 := by
  intro ops
  induction ops with
  | nil => intro t i r hwf h _; exact ⟨t, i, r, rfl, hwf, h⟩
  | cons op ops ih =>
      intro t i r hwf h hlen
      simp only [List.length_cons] at hlen
      have hcnt : count t.root < nodes_of_65_levels := by
        have := hwf.size_eq
        omega
      cases op with
      | insert alloc p =>
          obtain ⟨code, t1, e, w, hcase⟩ := avl_insert_cases hc alloc t p hwf
            (search_fits_of_count cmp p t.root hwf.avl hcnt)
          have h1 : t1.size + r = (if code = 0 then i + 1 else i) := by
            rcases hcase with ⟨c0, hs⟩ | ⟨c0, hs⟩
            · rw [if_pos c0, hs]; omega
            · rw [if_neg c0, hs]; exact h
          have h3 : t1.size + ops.length ≤ nodes_of_65_levels := by
            rcases hcase with ⟨c0, hs⟩ | ⟨c0, hs⟩
            · rw [hs]; omega
            · rw [hs]; omega
          obtain ⟨t2, i2, r2, e2, w2, h2⟩ := ih t1 _ r w h1 h3
          exact ⟨t2, i2, r2, by simp only [run_ops, e, e2], w2, h2⟩
      | remove p =>
          obtain ⟨code, t1, freed, e, w, hcase⟩ := avl_remove_cases hc t p hwf
            (remove_fits_of_count cmp p t.root hwf.avl hcnt)
          have h1 : t1.size + (if code = 0 then r + 1 else r) = i := by
            rcases hcase with ⟨c0, hs⟩ | ⟨c0, hs⟩
            · rw [if_pos c0]; omega
            · rw [if_neg c0, hs]; exact h
          have h3 : t1.size + ops.length ≤ nodes_of_65_levels := by
            rcases hcase with ⟨c0, hs⟩ | ⟨c0, hs⟩
            · omega
            · rw [hs]; omega
          obtain ⟨t2, i2, r2, e2, w2, h2⟩ := ih t1 i _ w h1 h3
          exact ⟨t2, i2, r2, by simp only [run_ops, e, e2], w2, h2⟩

end seqs

/-! ## Bulk destruction and the validator -/

theorem free_loop_spec {α : Type} :
    ∀ (fuel : Nat) (iter : avl_node α) (size size1 : Nat) (freed : List α),
      rot_weight iter < fuel → count iter ≤ size → size < SIZE_T_MOD →
      size1 + count iter < SIZE_T_MOD →
      free_loop fuel iter size size1 freed =
        some (size - count iter, size1 + count iter, freed ++ payloads iter) := by
  intro fuel
  induction fuel with
  | zero => intro iter size size1 freed h; omega
  | succ fuel ih =>
      intro iter size size1 freed hf hc hs hs1
      cases iter with
      | null => simp [free_loop, count, payloads]
      | node l r h d =>
          cases l with
          | null =>
              simp only [rot_weight, count] at hf hc hs1
              have e1 : (size + SIZE_T_MOD - 1) % SIZE_T_MOD = size - 1 := by
                have : size + SIZE_T_MOD - 1 = (size - 1) + SIZE_T_MOD := by omega
                rw [this, Nat.add_mod_right]
                exact Nat.mod_eq_of_lt (by omega)
              have e2 : (size1 + 1) % SIZE_T_MOD = size1 + 1 := Nat.mod_eq_of_lt (by omega)
              simp only [free_loop, e1, e2]
              rw [ih r (size - 1) (size1 + 1) (freed ++ [d]) (by omega) (by omega) (by omega)
                (by omega)]
              simp only [count, payloads, List.nil_append, List.append_assoc,
                List.singleton_append, Option.some.injEq, Prod.mk.injEq, and_true]
              omega
          | node a b h1 d1 =>
              simp only [rot_weight, count] at hf hc hs1
              simp only [free_loop]
              rw [ih (.node a (.node b r h d) h1 d1) size size1 freed
                (by simp only [rot_weight]; omega) (by simp only [count]; omega) hs
                (by simp only [count]; omega)]
              simp only [count, payloads, List.append_assoc, List.cons_append,
                Option.some.injEq, Prod.mk.injEq, and_true]
              omega

theorem assert_r_sound {α : Type} (cmp : α → α → Int) :
    ∀ (n : avl_node α) (k : Nat), _avl_assert_r cmp n = some k →
      children_ordered cmp n ∧ k = count n % SIZE_T_MOD := by
  intro n
  induction n with
  | null =>
      intro k h
      simp only [_avl_assert_r, Option.some.injEq] at h
      exact ⟨trivial, by rw [← h]; rfl⟩
  | node l r h d ihl ihr =>
      intro k hk
      cases l with
      | null =>
          cases r with
          | null =>
              have hk1 : (if __ABS (__HEIGHT (avl_node.null : avl_node α))
                  (__HEIGHT (avl_node.null : avl_node α)) ≤ 1
                then some ((1 + 0) % SIZE_T_MOD) else none) = some k := hk
              have habs : __ABS (__HEIGHT (avl_node.null : avl_node α))
                  (__HEIGHT (avl_node.null : avl_node α)) ≤ 1 := by
                simp [__ABS, __HEIGHT]
              rw [if_pos habs] at hk1
              simp only [Option.some.injEq] at hk1
              refine ⟨⟨fun x hx => by simp [root_data] at hx,
                fun x hx => by simp [root_data] at hx, trivial, trivial⟩, ?_⟩
              rw [← hk1]; rfl
          | node a b c e =>
              have hk1 : (if cmp e d > 0 then
                  (_avl_assert_r cmp (.node a b c e)).map fun sr => (1 + 0 + sr) % SIZE_T_MOD
                else none) = some k := hk
              by_cases hc : cmp e d > 0
              · rw [if_pos hc] at hk1
                cases hr : _avl_assert_r cmp (.node a b c e) with
                | none => rw [hr] at hk1; simp at hk1
                | some sr =>
                    rw [hr] at hk1
                    simp only [Option.map_some', Option.some.injEq] at hk1
                    obtain ⟨o, q⟩ := ihr sr hr
                    refine ⟨⟨fun x hx => by simp [root_data] at hx, fun x hx => ?_, trivial,
                      o⟩, ?_⟩
                    · simp only [root_data, Option.some.injEq] at hx
                      rw [← hx]; exact hc
                    · rw [← hk1, q]
                      simp only [count, SIZE_T_MOD]
                      omega
              · rw [if_neg hc] at hk1
                simp at hk1
      | node a0 b0 c0 e0 =>
          cases r with
          | null =>
              have hk1 : (match (if cmp e0 d < 0 then _avl_assert_r cmp (.node a0 b0 c0 e0)
                    else none) with
                | none => none
                | some sl =>
                    if __ABS (__HEIGHT (avl_node.node a0 b0 c0 e0))
                        (__HEIGHT (avl_node.null : avl_node α)) ≤ 1
                      then some ((1 + sl) % SIZE_T_MOD) else none) = some k := hk
              by_cases hc : cmp e0 d < 0
              · rw [if_pos hc] at hk1
                cases hl : _avl_assert_r cmp (.node a0 b0 c0 e0) with
                | none => rw [hl] at hk1; simp at hk1
                | some sl =>
                    rw [hl] at hk1
                    simp only at hk1
                    by_cases habs : __ABS (__HEIGHT (avl_node.node a0 b0 c0 e0))
                        (__HEIGHT (avl_node.null : avl_node α)) ≤ 1
                    · rw [if_pos habs] at hk1
                      simp only [Option.some.injEq] at hk1
                      obtain ⟨o, q⟩ := ihl sl hl
                      refine ⟨⟨fun x hx => ?_, fun x hx => by simp [root_data] at hx, o,
                        trivial⟩, ?_⟩
                      · simp only [root_data, Option.some.injEq] at hx
                        rw [← hx]; exact hc
                      · rw [← hk1, q]
                        simp only [count, SIZE_T_MOD]
                        omega
                    · rw [if_neg habs] at hk1
                      simp at hk1
              · rw [if_neg hc] at hk1
                simp at hk1
          | node a b c e =>
              have hk1 : (match (if cmp e0 d < 0 then _avl_assert_r cmp (.node a0 b0 c0 e0)
                    else none) with
                | none => none
                | some sl =>
                    if cmp e d > 0 then
                      (_avl_assert_r cmp (.node a b c e)).map fun sr =>
                        (1 + sl + sr) % SIZE_T_MOD
                    else none) = some k := hk
              by_cases hc : cmp e0 d < 0
              · rw [if_pos hc] at hk1
                cases hl : _avl_assert_r cmp (.node a0 b0 c0 e0) with
                | none => rw [hl] at hk1; simp at hk1
                | some sl =>
                    rw [hl] at hk1
                    simp only at hk1
                    by_cases hc1 : cmp e d > 0
                    · rw [if_pos hc1] at hk1
                      cases hr : _avl_assert_r cmp (.node a b c e) with
                      | none => rw [hr] at hk1; simp at hk1
                      | some sr =>
                          rw [hr] at hk1
                          simp only [Option.map_some', Option.some.injEq] at hk1
                          obtain ⟨o, q⟩ := ihl sl hl
                          obtain ⟨o1, q1⟩ := ihr sr hr
                          refine ⟨⟨fun x hx => ?_, fun x hx => ?_, o, o1⟩, ?_⟩
                          · simp only [root_data, Option.some.injEq] at hx
                            rw [← hx]; exact hc
                          · simp only [root_data, Option.some.injEq] at hx
                            rw [← hx]; exact hc1
                          · rw [← hk1, q, q1]
                            simp only [count, SIZE_T_MOD]
                            omega
                    · rw [if_neg hc1] at hk1
                      simp at hk1
              · rw [if_neg hc] at hk1
                simp at hk1

/-! ## The sparsest balanced trees -/

theorem slim_count_fib : ∀ k, slim_count k + 1 = Nat.fib (k + 2) ∧
    slim_count (k + 1) + 1 = Nat.fib (k + 3) := by
  intro k
  induction k with
  | zero => exact ⟨by decide, by decide⟩
  | succ k ih =>
      refine ⟨ih.2, ?_⟩
      have h1 : slim_count (k + 1 + 1) = slim_count (k + 1) + slim_count k + 1 := rfl
      have h2 : Nat.fib (k + 1 + 3) = Nat.fib (k + 2) + Nat.fib (k + 3) := Nat.fib_add_two
      omega

theorem slim_node_height (k : Nat) (lo : Int) : __HEIGHT (slim_node k lo) = (k : Int) - 1 := by
  match k with
  | 0 => rfl
  | 1 => rfl
  | k + 2 =>
      simp only [slim_node, __HEIGHT]
      push_cast
      omega

theorem slim_node_avl : ∀ (k : Nat) (lo : Int), avl (slim_node k lo) ∧ avl (slim_node (k + 1) lo) := by
  intro k
  induction k with
  | zero => intro lo; exact ⟨trivial, avl_leaf lo⟩
  | succ k ih =>
      intro lo
      refine ⟨(ih lo).2, (ih lo).2, (ih _).1, ?_, ?_, ?_⟩ <;>
        simp only [slim_node_height, __MAX] <;> push_cast <;> omega

theorem slim_node_count : ∀ (k : Nat) (lo : Int), count (slim_node k lo) = slim_count k ∧
    count (slim_node (k + 1) lo) = slim_count (k + 1) := by
  intro k
  induction k with
  | zero => intro lo; exact ⟨rfl, rfl⟩
  | succ k ih =>
      intro lo
      refine ⟨(ih lo).2, ?_⟩
      have h1 := (ih lo).2
      have h2 := (ih (lo + slim_count (k + 1) + 1)).1
      simp only [slim_node, count, slim_count, h1, h2]

theorem slim_node_range : ∀ (k : Nat) (lo : Int),
    (∀ x ∈ payloads (slim_node k lo), lo ≤ x ∧ x < lo + slim_count k) ∧
    (∀ x ∈ payloads (slim_node (k + 1) lo), lo ≤ x ∧ x < lo + slim_count (k + 1)) := by
  intro k
  induction k with
  | zero =>
      intro lo
      refine ⟨fun x hx => by simp [slim_node, payloads] at hx, fun x hx => ?_⟩
      simp only [slim_node, payloads, List.nil_append, List.mem_singleton] at hx
      simp only [slim_count]
      omega
  | succ k ih =>
      intro lo
      refine ⟨(ih lo).2, fun x hx => ?_⟩
      simp only [slim_node, payloads_node, List.mem_append, List.mem_cons] at hx
      have e : slim_count (k + 1 + 1) = slim_count (k + 1) + slim_count k + 1 := rfl
      rw [e]
      push_cast
      rcases hx with hx | hx | hx
      · have := (ih lo).2 x hx
        omega
      · omega
      · have := (ih (lo + slim_count (k + 1) + 1)).1 x hx
        omega

theorem slim_node_order : ∀ (k : Nat) (lo : Int), search_order int_cmp (slim_node k lo) ∧
    search_order int_cmp (slim_node (k + 1) lo) := by
  intro k
  induction k with
  | zero =>
      intro lo
      refine ⟨trivial, ?_⟩
      simp [slim_node, search_order, payloads]
  | succ k ih =>
      intro lo
      refine ⟨(ih lo).2, fun x hx => ?_, fun x hx => ?_, (ih lo).2, (ih _).1⟩
      · have := (slim_node_range k lo).2 x hx
        simp only [int_cmp]
        omega
      · have := (slim_node_range k (lo + slim_count (k + 1) + 1)).1 x hx
        simp only [int_cmp]
        omega

theorem slim_node_search (x : Int) : ∀ (k : Nat) (lo : Int) (up : List (path_slot Int)), x < lo →
    (∃ stk, insert_descent int_cmp x (slim_node k lo) up = some stk ∧
      stk.length = up.length + k) ∧
    (∃ stk, insert_descent int_cmp x (slim_node (k + 1) lo) up = some stk ∧
      stk.length = up.length + (k + 1)) := by
  intro k
  induction k with
  | zero =>
      intro lo up hx
      refine ⟨⟨up, rfl, rfl⟩, ?_⟩
      have h0 : ¬ int_cmp lo x = 0 := by simp only [int_cmp]; omega
      have h1 : ¬ int_cmp lo x < 0 := by simp only [int_cmp]; omega
      refine ⟨_, by simp only [slim_node, insert_descent, if_neg h0, if_neg h1]; rfl, ?_⟩
      simp
  | succ k ih =>
      intro lo up hx
      refine ⟨(ih lo up hx).2, ?_⟩
      have h0 : ¬ int_cmp (lo + slim_count (k + 1)) x = 0 := by simp only [int_cmp]; omega
      have h1 : ¬ int_cmp (lo + slim_count (k + 1)) x < 0 := by simp only [int_cmp]; omega
      obtain ⟨stk, e, hl⟩ := (ih lo (⟨false, (k : Int) + 1, lo + slim_count (k + 1),
        slim_node k (lo + slim_count (k + 1) + 1)⟩ :: up) hx).2
      refine ⟨stk, ?_, ?_⟩
      · rw [← e]
        simp only [slim_node, insert_descent, if_neg h0, if_neg h1]
      · rw [hl]
        simp only [List.length_cons]
        omega

theorem slim_count_step (k : Nat) :
    slim_count (k + 2) = slim_count (k + 1) + slim_count k + 1 := rfl

theorem slim_count_pos (k : Nat) : 0 < slim_count (k + 1) := by
  cases k with
  | zero => decide
  | succ k => rw [slim_count_step]; omega

theorem slim_pushes_below (x : Int) : ∀ (k : Nat) (lo : Int), x < lo →
    search_pushes int_cmp x (slim_node k lo) = k ∧
      search_pushes int_cmp x (slim_node (k + 1) lo) = k + 1 := by
  intro k
  induction k with
  | zero =>
      intro lo hx
      have h0 : ¬ int_cmp lo x = 0 := by simp only [int_cmp]; omega
      have h1 : ¬ int_cmp lo x < 0 := by simp only [int_cmp]; omega
      exact ⟨rfl, by simp only [slim_node, search_pushes, if_neg h0, if_neg h1]⟩
  | succ k ih =>
      intro lo hx
      refine ⟨(ih lo hx).2, ?_⟩
      have h0 : ¬ int_cmp (lo + slim_count (k + 1)) x = 0 := by simp only [int_cmp]; omega
      have h1 : ¬ int_cmp (lo + slim_count (k + 1)) x < 0 := by simp only [int_cmp]; omega
      simp only [slim_node, search_pushes, if_neg h0, if_neg h1, (ih lo hx).2]

theorem slim_pushes_least (k : Nat) : ∀ lo : Int,
    search_pushes int_cmp lo (slim_node (k + 1) lo) = k ∧
      remove_pushes int_cmp lo (slim_node (k + 1) lo) = k := by
  induction k with
  | zero =>
      intro lo
      have h0 : int_cmp lo lo = 0 := by simp [int_cmp]
      exact ⟨by simp only [slim_node, search_pushes, if_pos h0],
        by simp only [slim_node, remove_pushes, if_pos h0, unlink_pushes]⟩
  | succ k ih =>
      intro lo
      have hp := slim_count_pos k
      have h0 : ¬ int_cmp (lo + slim_count (k + 1)) lo = 0 := by simp only [int_cmp]; omega
      have h1 : ¬ int_cmp (lo + slim_count (k + 1)) lo < 0 := by simp only [int_cmp]; omega
      exact ⟨by simp only [slim_node, search_pushes, if_neg h0, if_neg h1, (ih lo).1],
        by simp only [slim_node, remove_pushes, if_neg h0, if_neg h1, (ih lo).2]⟩

theorem slim_wf (k : Nat) (hk : slim_count k < SIZE_T_MOD) :
    well_formed int_cmp ⟨slim_node k 0, slim_count k⟩ := by
  have ha := (avl_iff _).1 (slim_node_avl k 0).1
  exact ⟨(slim_node_order k 0).1, ha.1, ha.2, ((slim_node_count k 0).1).symm, hk⟩

theorem slim_tree_size : slim_tree.size + 1 = Nat.fib 67 := (slim_count_fib 65).1

theorem slim_tree_wf : well_formed int_cmp slim_tree := by
  refine slim_wf 65 ?_
  have h1 := slim_tree_size
  have h2 := fib_67
  have h3 : (44945570212853 : Nat) < SIZE_T_MOD := by decide
  simp only [slim_tree] at h1
  omega

theorem slim_tree_room : (slim_tree.size + 1) % SIZE_T_MOD ≠ 0 := by
  have h1 := slim_tree_size
  have h2 := fib_67
  rw [h1, h2]
  decide

theorem slim_tree_lacks_neg : ∀ x ∈ payloads slim_tree.root, int_cmp x (-1) ≠ 0 := by
  intro x hx
  have := (slim_node_range 65 0).1 x hx
  simp only [int_cmp]
  omega

theorem slim_tree_pushes : search_pushes int_cmp (-1) slim_tree.root = 65 ∧
    remove_pushes int_cmp (-1) slim_tree.root = 65 := by
  have h1 := (slim_pushes_below (-1) 65 0 (by decide)).1
  have h2 := search_le_remove_pushes int_cmp (-1) slim_tree.root
  have h3 := remove_pushes_le int_cmp (-1) slim_tree.root (slim_node_avl 65 0).1
  have h4 : __HEIGHT slim_tree.root = 64 := slim_node_height 65 0
  refine ⟨h1, ?_⟩
  rw [h4] at h3
  have h5 : search_pushes int_cmp (-1) slim_tree.root = 65 := h1
  have h6 : (64 + 1 : Int).toNat = 65 := by decide
  omega

theorem fib_68 : Nat.fib 68 = 72723460248141 := by decide

theorem deep_tree_size : deep_tree.size = 72723460248140 := by
  have h1 : slim_count 66 + 1 = Nat.fib 68 := (slim_count_fib 66).1
  have h2 := fib_68
  simp only [deep_tree]
  omega

theorem deep_tree_wf : well_formed int_cmp deep_tree := by
  refine slim_wf 66 ?_
  have h1 := deep_tree_size
  simp only [deep_tree] at h1
  rw [h1]
  decide

theorem deep_tree_pushes : search_pushes int_cmp 0 deep_tree.root = 65 ∧
    remove_pushes int_cmp 0 deep_tree.root = 65 := slim_pushes_least 65 0

theorem slim_count_65 : slim_count 65 = 44945570212852 := by
  have h1 : slim_count 65 + 1 = Nat.fib 67 := (slim_count_fib 65).1
  have h2 := fib_67
  omega

section plain
variable {α : Type}

theorem max_macro_comm (a b : Int) : __MAX a b = __MAX b a := by
  simp only [__MAX]
  split_ifs <;> omega

theorem plain_insert_ne_null (cmp : α → α → Int) (data : α) (t : avl_node α) :
    plain_insert cmp data t ≠ .null := by
  cases t with
  | null => simp [plain_insert]
  | node l r h d =>
      simp only [plain_insert]
      split_ifs <;> simp

theorem find_zero_descent (cmp : α → α → Int) (data : α) :
    ∀ (t : avl_node α), avl_find_loop cmp data t = 0 →
      ∀ up, ∃ stk, insert_descent cmp data t up = some stk := by
  intro t
  induction t with
  | null => intro _ up; exact ⟨up, rfl⟩
  | node l r h d ihl ihr =>
      intro hf up
      by_cases h0 : cmp d data = 0
      · simp [avl_find_loop, if_pos h0] at hf
      · by_cases hlt : cmp d data < 0
        · simp only [avl_find_loop, if_neg h0, if_pos hlt] at hf
          simp only [insert_descent, if_neg h0, if_pos hlt]
          exact ihr hf _
        · simp only [avl_find_loop, if_neg h0, if_neg hlt] at hf
          simp only [insert_descent, if_neg h0, if_neg hlt]
          exact ihl hf _

theorem plain_insert_count (cmp : α → α → Int) (data : α) :
    ∀ (t : avl_node α), avl_find_loop cmp data t = 0 →
      count (plain_insert cmp data t) = count t + 1 := by
  intro t
  induction t with
  | null => intro _; rfl
  | node l r h d ihl ihr =>
      intro hf
      by_cases h0 : cmp d data = 0
      · simp [avl_find_loop, if_pos h0] at hf
      · by_cases hlt : cmp d data < 0
        · simp only [avl_find_loop, if_neg h0, if_pos hlt] at hf
          simp only [plain_insert, if_neg h0, if_pos hlt, count, ihr hf]
          omega
        · simp only [avl_find_loop, if_neg h0, if_neg hlt] at hf
          simp only [plain_insert, if_neg h0, if_neg hlt, count, ihl hf]
          omega

theorem insert_plain (cmp : α → α → Int) (data : α) :
    ∀ (t : avl_node α), avl t → avl (plain_insert cmp data t) →
      ∀ up stk, insert_descent cmp data t up = some stk →
        ∃ done, insert_walk stk (.node .null .null 0 data) false =
            insert_walk up (plain_insert cmp data t) done ∧
          (done = true → __HEIGHT (plain_insert cmp data t) = __HEIGHT t) ∧
          (done = false → __HEIGHT (plain_insert cmp data t) = __HEIGHT t + 1) := by
  intro t
  induction t with
  | null =>
      intro _ _ up stk hs
      simp only [insert_descent, Option.some.injEq] at hs
      subst hs
      exact ⟨false, rfl, by simp, fun _ => rfl⟩
  | node l r h d ihl ihr =>
      intro ha hp up stk hs
      obtain ⟨al, ar, hh, hb1, hb2⟩ := ha
      by_cases h0 : cmp d data = 0
      · simp [insert_descent, if_pos h0] at hs
      · by_cases hlt : cmp d data < 0
        · simp only [insert_descent, if_neg h0, if_pos hlt] at hs
          simp only [plain_insert, if_neg h0, if_pos hlt] at hp ⊢
          obtain ⟨-, aR, -, hq1, hq2⟩ := hp
          obtain ⟨dn, e, g1, g2⟩ := ihr ar aR _ _ hs
          rw [e]
          cases dn with
          | true =>
              have hR := g1 rfl
              refine ⟨true, ?_, fun _ => ?_, fun hq => by cases hq⟩
              · rw [insert_walk_done, insert_walk_done, hR, ← hh]
                rfl
              · rw [height_node, height_node, hR, ← hh]
          | false =>
              have hR := g2 rfl
              by_cases hz : __HEIGHT (plain_insert cmp data r) - __HEIGHT l = 0
              · have st : insert_step ⟨true, h, d, l⟩ (plain_insert cmp data r) =
                    some (.node l (plain_insert cmp data r)
                      (__MAX (__HEIGHT l) (__HEIGHT (plain_insert cmp data r)) + 1) d, true) := by
                  simp only [insert_step, if_pos hz, link_node, if_true]
                  rw [max_macro_comm]
                refine ⟨true, insert_walk_step _ _ _ _ _ st, fun _ => ?_, fun hq => by cases hq⟩
                simp only [height_node, __MAX] at *
                split_ifs at hh ⊢ <;> omega
              · have h2 : ¬ __HEIGHT (plain_insert cmp data r) - __HEIGHT l ≥ 2 := by omega
                have st : insert_step ⟨true, h, d, l⟩ (plain_insert cmp data r) =
                    some (.node l (plain_insert cmp data r)
                      (__MAX (__HEIGHT l) (__HEIGHT (plain_insert cmp data r)) + 1) d, false) := by
                  simp only [insert_step, if_neg hz, if_neg h2, link_node, if_true]
                  rw [max_macro_comm]
                refine ⟨false, insert_walk_step _ _ _ _ _ st, (fun hq => by cases hq), fun _ => ?_⟩
                simp only [height_node, __MAX] at *
                split_ifs at hh ⊢ <;> omega
        · simp only [insert_descent, if_neg h0, if_neg hlt] at hs
          simp only [plain_insert, if_neg h0, if_neg hlt] at hp ⊢
          obtain ⟨aL, -, -, hq1, hq2⟩ := hp
          obtain ⟨dn, e, g1, g2⟩ := ihl al aL _ _ hs
          rw [e]
          cases dn with
          | true =>
              have hL := g1 rfl
              refine ⟨true, ?_, fun _ => ?_, fun hq => by cases hq⟩
              · rw [insert_walk_done, insert_walk_done, hL, ← hh]
                rfl
              · rw [height_node, height_node, hL, ← hh]
          | false =>
              have hL := g2 rfl
              by_cases hz : __HEIGHT (plain_insert cmp data l) - __HEIGHT r = 0
              · have st : insert_step ⟨false, h, d, r⟩ (plain_insert cmp data l) =
                    some (.node (plain_insert cmp data l) r
                      (__MAX (__HEIGHT (plain_insert cmp data l)) (__HEIGHT r) + 1) d, true) := by
                  simp only [insert_step, if_pos hz, link_node, if_false, Bool.false_eq_true]
                refine ⟨true, insert_walk_step _ _ _ _ _ st, fun _ => ?_, fun hq => by cases hq⟩
                simp only [height_node, __MAX] at *
                split_ifs at hh ⊢ <;> omega
              · have h2 : ¬ __HEIGHT (plain_insert cmp data l) - __HEIGHT r ≥ 2 := by omega
                have st : insert_step ⟨false, h, d, r⟩ (plain_insert cmp data l) =
                    some (.node (plain_insert cmp data l) r
                      (__MAX (__HEIGHT (plain_insert cmp data l)) (__HEIGHT r) + 1) d, false) := by
                  simp only [insert_step, if_neg hz, if_neg h2, link_node, if_false,
                    Bool.false_eq_true]
                refine ⟨false, insert_walk_step _ _ _ _ _ st, (fun hq => by cases hq), fun _ => ?_⟩
                simp only [height_node, __MAX] at *
                split_ifs at hh ⊢ <;> omega

theorem avl_insert_plain (cmp : α → α → Int) (t : avl_root α) (p : α)
    (ha : avl t.root) (hp : avl (plain_insert cmp p t.root))
    (hf : avl_find_loop cmp p t.root = 0) (hfit : search_pushes cmp p t.root ≤ PATH_SLOTS)
    (hsz : t.root = .null → t.size = 0) (hroom : t.size + 1 < SIZE_T_MOD) :
    avl_insert cmp true t p = some (0, ⟨plain_insert cmp p t.root, t.size + 1⟩) := by
  obtain ⟨root, size⟩ := t
  simp only at ha hp hf hfit hsz hroom ⊢
  have hmod : (size + 1) % SIZE_T_MOD = size + 1 := Nat.mod_eq_of_lt hroom
  cases root with
  | null =>
      have h0 := hsz rfl
      subst h0
      simp [avl_insert, _make_node, SIZE_T_MOD, plain_insert]
  | node l r h d =>
      obtain ⟨stk, e1⟩ := find_zero_descent cmp p (.node l r h d) hf []
      obtain ⟨dn, e2, -, -⟩ := insert_plain cmp p (.node l r h d) ha hp [] stk e1
      have e3 : insert_walk stk (.node .null .null 0 p) false =
          some (plain_insert cmp p (.node l r h d)) := by
        rw [e2]; cases dn <;> rfl
      have hne : (size + 1) % SIZE_T_MOD ≠ 0 := by rw [hmod]; omega
      have e0 := insert_search_fits cmp p (.node l r h d) [] (by simpa using hfit)
      simp only [avl_insert, if_neg hne, e0, e1, _make_node, if_true, e3, Option.map_some']
      rw [hmod]

theorem builds_append (cmp : α → α → Int) :
    ∀ (a b : List α) (t : avl_node α), builds cmp a t →
      builds cmp b (plain_insert_list cmp a t) → builds cmp (a ++ b) t := by
  intro a
  induction a with
  | nil => intro b t _ h; exact h
  | cons k a ih =>
      intro b t h1 h2
      obtain ⟨q1, q2, q3, q4, q5⟩ := h1
      exact ⟨q1, q2, q3, q4, ih b _ q5 h2⟩

theorem plain_insert_list_append (cmp : α → α → Int) :
    ∀ (a b : List α) (t : avl_node α),
      plain_insert_list cmp (a ++ b) t = plain_insert_list cmp b (plain_insert_list cmp a t) := by
  intro a
  induction a with
  | nil => intro b t; rfl
  | cons k a ih => intro b t; exact ih b _

theorem builds_count (cmp : α → α → Int) :
    ∀ (ks : List α) (t : avl_node α), builds cmp ks t →
      count (plain_insert_list cmp ks t) = count t + ks.length := by
  intro ks
  induction ks with
  | nil => intro t _; rfl
  | cons k ks ih =>
      intro t h
      obtain ⟨-, -, q3, -, q5⟩ := h
      simp only [plain_insert_list, List.length_cons]
      rw [ih _ q5, plain_insert_count cmp k t q3]
      omega

theorem insert_list_plain (cmp : α → α → Int) :
    ∀ (ks : List α) (t : avl_root α), builds cmp ks t.root →
      (t.root = .null → t.size = 0) → t.size + ks.length < SIZE_T_MOD →
      insert_list cmp ks t =
        some ⟨plain_insert_list cmp ks t.root, t.size + ks.length⟩ := by
  intro ks
  induction ks with
  | nil => intro t _ _ _; rfl
  | cons k ks ih =>
      intro t hb hsz hlen
      obtain ⟨q1, q2, q3, q4, q5⟩ := hb
      simp only [List.length_cons] at hlen
      have e := avl_insert_plain cmp t k q1 q2 q3 q4 hsz (by omega)
      simp only [insert_list, e]
      rw [ih ⟨plain_insert cmp k t.root, t.size + 1⟩ q5
        (fun h => absurd h (plain_insert_ne_null cmp k t.root)) (by simp only; omega)]
      simp only [plain_insert_list, List.length_cons]
      congr 2
      omega

end plain

/-! ## The levels of a balanced tree, inserted in order -/

theorem level_subset {α : Type} : ∀ (t : avl_node α) (j : Nat), ∀ x ∈ level j t, x ∈ payloads t := by
  intro t
  induction t with
  | null => intro j x hx; simp [level] at hx
  | node l r h d ihl ihr =>
      intro j x hx
      cases j with
      | zero =>
          simp only [level, List.mem_singleton] at hx
          simp [payloads, hx]
      | succ j =>
          simp only [level, List.mem_append] at hx
          simp only [payloads_node, List.mem_append, List.mem_cons]
          rcases hx with hx | hx
          · exact Or.inl (ihl j x hx)
          · exact Or.inr (Or.inr (ihr j x hx))

theorem upper_null (j : Nat) (x : Int) : upper j x .null = .null := by
  cases j <;> rfl

theorem upper_zero (lo : Int) (t : avl_node Int) (h : ∀ x ∈ payloads t, lo < x) :
    upper 0 lo t = .null := by
  cases t with
  | null => rfl
  | node l r hh d =>
      have : ¬ d ≤ lo := by
        have := h d (by simp [payloads])
        omega
      simp only [upper, if_neg this]

theorem upper_next (lo hi : Int) : ∀ (t : avl_node Int) (j : Nat),
    (∀ x ∈ payloads t, lo < x ∧ x ≤ hi) → upper j hi t = upper (j + 1) lo t := by
  intro t
  induction t with
  | null => intro j _; rw [upper_null, upper_null]
  | node l r h d ihl ihr =>
      intro j hr
      have hl1 : ∀ x ∈ payloads l, lo < x ∧ x ≤ hi := fun x hx => hr x (by simp [payloads, hx])
      have hr1 : ∀ x ∈ payloads r, lo < x ∧ x ≤ hi := fun x hx => hr x (by simp [payloads, hx])
      cases j with
      | zero =>
          have hd := hr d (by simp [payloads])
          have e1 := upper_zero lo l (fun x hx => (hl1 x hx).1)
          have e2 := upper_zero lo r (fun x hx => (hr1 x hx).1)
          simp only [upper, if_pos hd.2, e1, e2, join, height_null, __MAX]
          rfl
      | succ j =>
          simp only [upper]
          rw [ihl j hl1, ihr j hr1]

theorem upper_all : ∀ (t : avl_node Int) (n : Nat) (x : Int), avl t → __HEIGHT t < n →
    upper n x t = t := by
  intro t
  induction t with
  | null => intro n x _ _; exact upper_null n x
  | node l r h d ihl ihr =>
      intro n x ha hn
      obtain ⟨al, ar, hh, hb1, hb2⟩ := ha
      have gl := avl_height_ge l al
      have gr := avl_height_ge r ar
      simp only [height_node] at hn
      cases n with
      | zero =>
          simp only [__MAX] at hh
          split_ifs at hh <;> omega
      | succ n =>
          have h1 : __HEIGHT l < n := by
            simp only [__MAX] at hh
            push_cast at hn
            split_ifs at hh <;> omega
          have h2 : __HEIGHT r < n := by
            simp only [__MAX] at hh
            push_cast at hn
            split_ifs at hh <;> omega
          simp only [upper, join]
          rw [ihl n x al h1, ihr n x ar h2, ← hh]

theorem between_join (j : Nat) (l r : avl_node Int) (h : Int) (d : Int)
    (hT : avl (.node l r h d)) (L R : avl_node Int) (hL : between j l L) (hR : between j r R) :
    between (j + 1) (.node l r h d) (join L R d) := by
  obtain ⟨al, ar, hh, hb1, hb2⟩ := hT
  obtain ⟨aL, l1, l2, l3⟩ := hL
  obtain ⟨aR, r1, r2, r3⟩ := hR
  have gl := avl_height_ge l al
  have gr := avl_height_ge r ar
  have gL := avl_height_ge L aL
  have gR := avl_height_ge R aR
  refine ⟨⟨aL, aR, rfl, ?_, ?_⟩, ?_, ?_, ?_⟩
  · rcases l3 with l3 | l3 <;> rcases r3 with r3 | r3 <;> omega
  · rcases l3 with l3 | l3 <;> rcases r3 with r3 | r3 <;> omega
  · simp only [join, height_node, __MAX] at *
    split_ifs at hh ⊢ <;> omega
  · simp only [join, height_node, __MAX]
    push_cast
    split_ifs <;> omega
  · simp only [join, height_node, __MAX] at *
    push_cast
    rcases l3 with l3 | l3 <;> rcases r3 with r3 | r3 <;> split_ifs at hh ⊢ <;> omega

theorem level_run_head (j : Nat) (T : avl_node Int) (ks : List Int) (X : avl_node Int)
    (h : level_run j T ks X) : between j T X := by
  cases ks with
  | nil => exact h
  | cons k ks => exact h.1

theorem level_run_last (j : Nat) (T : avl_node Int) : ∀ (ks : List Int) (X : avl_node Int),
    level_run j T ks X → between j T (plain_insert_list int_cmp ks X) := by
  intro ks
  induction ks with
  | nil => intro X h; exact h
  | cons k ks ih => intro X h; exact ih _ h.2.2.2

theorem level_run_append (j : Nat) (T : avl_node Int) : ∀ (a b : List Int) (X : avl_node Int),
    level_run j T a X → level_run j T b (plain_insert_list int_cmp a X) →
      level_run j T (a ++ b) X := by
  intro a
  induction a with
  | nil => intro b X _ h; exact h
  | cons k a ih =>
      intro b X h1 h2
      obtain ⟨q1, q2, q3, q4⟩ := h1
      exact ⟨q1, q2, q3, ih b _ q4 h2⟩

theorem level_run_builds (j : Nat) (hj : j ≤ PATH_SLOTS) (T : avl_node Int) :
    ∀ (ks : List Int) (X : avl_node Int), level_run j T ks X → builds int_cmp ks X := by
  intro ks
  induction ks with
  | nil => intro X _; trivial
  | cons k ks ih =>
      intro X h
      obtain ⟨q1, q2, q3, q4⟩ := h
      exact ⟨q1.1, (level_run_head j T ks _ q4).1, q2, by omega, ih _ q4⟩

theorem level_run_left (j : Nat) (l r : avl_node Int) (h : Int) (d : Int)
    (hT : avl (.node l r h d)) (R : avl_node Int) (hR : between j r R) :
    ∀ (A : List Int) (L : avl_node Int), (∀ k ∈ A, k < d) → level_run j l A L →
      level_run (j + 1) (.node l r h d) A (join L R d) ∧
        plain_insert_list int_cmp A (join L R d) = join (plain_insert_list int_cmp A L) R d := by
  intro A
  induction A with
  | nil => intro L _ hL; exact ⟨between_join j l r h d hT L R hL hR, rfl⟩
  | cons k A ih =>
      intro L hk hL
      obtain ⟨q1, q2, q3, q4⟩ := hL
      have hkd : k < d := hk k (List.mem_cons_self _ _)
      have h0 : ¬ int_cmp d k = 0 := by simp only [int_cmp]; omega
      have h1 : ¬ int_cmp d k < 0 := by simp only [int_cmp]; omega
      have e : plain_insert int_cmp k (join L R d) = join (plain_insert int_cmp k L) R d := by
        simp only [join, plain_insert, if_neg h0, if_neg h1]
      obtain ⟨i1, i2⟩ := ih (plain_insert int_cmp k L)
        (fun x hx => hk x (List.mem_cons_of_mem _ hx)) q4
      refine ⟨⟨between_join j l r h d hT L R q1 hR, ?_, ?_, ?_⟩, ?_⟩
      · simp only [join, avl_find_loop, if_neg h0, if_neg h1, q2]
      · simp only [join, search_pushes, if_neg h0, if_neg h1, q3]
      · rw [e]; exact i1
      · simp only [plain_insert_list]
        rw [e]; exact i2

theorem level_run_right (j : Nat) (l r : avl_node Int) (h : Int) (d : Int)
    (hT : avl (.node l r h d)) (L : avl_node Int) (hL : between j l L) :
    ∀ (B : List Int) (R : avl_node Int), (∀ k ∈ B, d < k) → level_run j r B R →
      level_run (j + 1) (.node l r h d) B (join L R d) ∧
        plain_insert_list int_cmp B (join L R d) = join L (plain_insert_list int_cmp B R) d := by
  intro B
  induction B with
  | nil => intro R _ hR; exact ⟨between_join j l r h d hT L R hL hR, rfl⟩
  | cons k B ih =>
      intro R hk hR
      obtain ⟨q1, q2, q3, q4⟩ := hR
      have hkd : d < k := hk k (List.mem_cons_self _ _)
      have h0 : ¬ int_cmp d k = 0 := by simp only [int_cmp]; omega
      have h1 : int_cmp d k < 0 := by simp only [int_cmp]; omega
      have e : plain_insert int_cmp k (join L R d) = join L (plain_insert int_cmp k R) d := by
        simp only [join, plain_insert, if_neg h0, if_pos h1]
      obtain ⟨i1, i2⟩ := ih (plain_insert int_cmp k R)
        (fun x hx => hk x (List.mem_cons_of_mem _ hx)) q4
      refine ⟨⟨between_join j l r h d hT L R hL q1, ?_, ?_, ?_⟩, ?_⟩
      · simp only [join, avl_find_loop, if_neg h0, if_pos h1, q2]
      · simp only [join, search_pushes, if_neg h0, if_pos h1, q3]
      · rw [e]; exact i1
      · simp only [plain_insert_list]
        rw [e]; exact i2

theorem level_builds (lo hi : Int) : ∀ (T : avl_node Int), avl T → search_order int_cmp T →
    (∀ x ∈ payloads T, lo < x ∧ x ≤ hi) → ∀ (j : Nat),
      level_run j T (level j T) (upper j lo T) ∧
        plain_insert_list int_cmp (level j T) (upper j lo T) = upper j hi T := by
  intro T
  induction T with
  | null =>
      intro _ _ _ j
      have e : level j (avl_node.null : avl_node Int) = [] := by cases j <;> rfl
      rw [e, upper_null, upper_null]
      refine ⟨⟨trivial, ?_, ?_, ?_⟩, rfl⟩
      · exact le_refl _
      · simp only [height_null]; omega
      · exact Or.inl (le_refl _)
  | node l r h d ihl ihr =>
      intro ha hso hr j
      have hge := avl_node_height_ge l r h d ha
      have hl1 : ∀ x ∈ payloads l, lo < x ∧ x ≤ hi := fun x hx => hr x (by simp [payloads, hx])
      have hr1 : ∀ x ∈ payloads r, lo < x ∧ x ≤ hi := fun x hx => hr x (by simp [payloads, hx])
      have hd := hr d (by simp [payloads])
      cases j with
      | zero =>
          have hnd : ¬ d ≤ lo := by omega
          simp only [level, upper, if_neg hnd, if_pos hd.2, level_run, plain_insert_list,
            plain_insert, avl_find_loop, search_pushes, between, height_null, height_node]
          refine ⟨⟨⟨trivial, by omega, by simp, Or.inr (by simp)⟩, trivial, trivial,
            ⟨avl_leaf d, by omega, by simp, Or.inr (by simp)⟩⟩, trivial⟩
      | succ j =>
          have ha0 := ha
          obtain ⟨al, ar, -, -, -⟩ := ha
          obtain ⟨sl, sr, ol, or⟩ := hso
          obtain ⟨a1, a2⟩ := ihl al ol hl1 j
          obtain ⟨b1, b2⟩ := ihr ar or hr1 j
          have hA : ∀ k ∈ level j l, k < d := by
            intro k hk
            have := sl k (level_subset l j k hk)
            simp only [int_cmp] at this
            omega
          have hB : ∀ k ∈ level j r, d < k := by
            intro k hk
            have := sr k (level_subset r j k hk)
            simp only [int_cmp] at this
            omega
          obtain ⟨c1, c2⟩ := level_run_left j l r h d ha0 (upper j lo r)
            (level_run_head j r _ _ b1) (level j l) (upper j lo l) hA a1
          rw [a2] at c2
          obtain ⟨e1, e2⟩ := level_run_right j l r h d ha0 (upper j hi l)
            (a2 ▸ level_run_last j l _ _ a1) (level j r) (upper j lo r) hB b1
          rw [b2] at e2
          have eu : ∀ x, upper (j + 1) x (avl_node.node l r h d) =
              join (upper j x l) (upper j x r) d := fun x => rfl
          have el : level (j + 1) (avl_node.node l r h d) = level j l ++ level j r := rfl
          rw [eu, eu, el, plain_insert_list_append, c2, e2]
          exact ⟨level_run_append _ _ _ _ _ c1 (c2 ▸ e1), rfl⟩

theorem level_order_builds (lo hi : Int) (T : avl_node Int) (ha : avl T)
    (hso : search_order int_cmp T) (hr : ∀ x ∈ payloads T, lo < x ∧ x ≤ hi) :
    ∀ n : Nat, n ≤ PATH_SLOTS + 1 → builds int_cmp (level_order n T) .null ∧
      plain_insert_list int_cmp (level_order n T) .null = upper n lo T := by
  intro n
  induction n with
  | zero =>
      intro _
      exact ⟨trivial, (upper_zero lo T fun x hx => (hr x hx).1).symm⟩
  | succ n ih =>
      intro hn
      obtain ⟨i1, i2⟩ := ih (by omega)
      obtain ⟨l1, l2⟩ := level_builds lo hi T ha hso hr n
      have e : level_order (n + 1) T = level_order n T ++ level n T := rfl
      rw [e, plain_insert_list_append, i2, l2, upper_next lo hi T n hr]
      refine ⟨builds_append int_cmp _ _ _ i1 ?_, rfl⟩
      rw [i2]
      exact level_run_builds n (by omega) T _ _ l1

theorem level_order_plain (lo hi : Int) (T : avl_node Int) (ha : avl T)
    (hso : search_order int_cmp T) (hr : ∀ x ∈ payloads T, lo < x ∧ x ≤ hi)
    (n : Nat) (hn : n ≤ PATH_SLOTS + 1) (hh : __HEIGHT T < n) :
    builds int_cmp (level_order n T) .null ∧
      plain_insert_list int_cmp (level_order n T) .null = T ∧
      (level_order n T).length = count T := by
  obtain ⟨b, e⟩ := level_order_builds lo hi T ha hso hr n hn
  rw [upper_all T n lo ha hh] at e
  refine ⟨b, e, ?_⟩
  have := builds_count int_cmp _ _ b
  rw [e] at this
  simp only [count] at this
  omega

theorem slim_keys_plain : builds int_cmp slim_keys .null ∧
    plain_insert_list int_cmp slim_keys .null = slim_node 65 0 ∧
    slim_keys.length = 44945570212852 := by
  have hcnt : count (slim_node 65 0) = slim_count 65 := (slim_node_count 65 0).1
  have h65 := slim_count_65
  have hr : ∀ x ∈ payloads (slim_node 65 0), (-1 : Int) < x ∧ x ≤ 44945570212852 := by
    intro x hx
    have := (slim_node_range 65 0).1 x hx
    rw [h65] at this
    omega
  obtain ⟨e1, e2, e3⟩ := level_order_plain (-1) 44945570212852 (slim_node 65 0)
    (slim_node_avl 65 0).1 (slim_node_order 65 0).1 hr 65 (by decide)
    (by rw [slim_node_height]; decide)
  exact ⟨e1, e2, by rw [← h65, ← hcnt]; exact e3⟩

theorem slim_keys_build : insert_list int_cmp slim_keys empty_tree = some slim_tree := by
  obtain ⟨b, e, hl⟩ := slim_keys_plain
  have := insert_list_plain int_cmp slim_keys empty_tree b (fun _ => rfl)
    (by rw [hl]; decide)
  have e0 : plain_insert_list int_cmp slim_keys (empty_tree : avl_root Int).root =
      slim_node 65 0 := e
  have e1 : (empty_tree : avl_root Int).size + slim_keys.length = slim_count 65 := by
    rw [hl, slim_count_65]; rfl
  rw [this, e0, e1]
  rfl

theorem rot1_spec {α : Type} {cmp : α → α → Int} (hc : lawful cmp) (root : avl_node α)
    (dir : Bool) (h1 : link root (!dir) ≠ .null) :
    ∃ res, _avl_rot1 root dir = some res ∧ payloads res = payloads root ∧
      root_data res = root_data (link root (!dir)) ∧
      link res (!dir) = link (link root (!dir)) (!dir) ∧
      root_data (link res dir) = root_data root ∧
      link (link res dir) dir = link root dir ∧
      link (link res dir) (!dir) = link (link root (!dir)) dir ∧
      height_here res ∧ height_here (link res dir) ∧
      (search_order cmp root → search_order cmp res) := by
  have key : ∃ res, _avl_rot1 root dir = some res ∧ payloads res = payloads root ∧
      root_data res = root_data (link root (!dir)) ∧
      link res (!dir) = link (link root (!dir)) (!dir) ∧
      root_data (link res dir) = root_data root ∧
      link (link res dir) dir = link root dir ∧
      link (link res dir) (!dir) = link (link root (!dir)) dir ∧
      height_here res ∧ height_here (link res dir) := by
    cases root with
    | null => exact absurd rfl h1
    | node l r h d =>
        cases dir with
        | false =>
            cases r with
            | null => exact absurd rfl h1
            | node sl sr sh sd =>
                refine ⟨_, by simp only [_avl_rot1]; rfl, ?_⟩
                simp [payloads, root_data, link, height_here, __HEIGHT, __MAX, max_def]
                constructor <;> split_ifs <;> omega
        | true =>
            cases l with
            | null => exact absurd rfl h1
            | node sl sr sh sd =>
                refine ⟨_, by simp only [_avl_rot1]; rfl, ?_⟩
                simp [payloads, root_data, link, height_here, __HEIGHT, __MAX, max_def]
                constructor <;> split_ifs <;> omega
  obtain ⟨res, e, p, rest⟩ := key
  obtain ⟨r1, r2, r3, r4, r5, r6, r7⟩ := rest
  refine ⟨res, e, p, r1, r2, r3, r4, r5, r6, r7, fun hso => ?_⟩
  rw [search_order_iff_sorted hc, p]
  exact (search_order_iff_sorted hc root).1 hso

theorem rot2_spec {α : Type} {cmp : α → α → Int} (hc : lawful cmp) (root : avl_node α)
    (dir : Bool) (h1 : link (link root (!dir)) dir ≠ .null) :
    ∃ res, _avl_rot2 root dir = some res ∧ payloads res = payloads root ∧
      root_data res = root_data (link (link root (!dir)) dir) ∧
      root_data (link res dir) = root_data root ∧
      root_data (link res (!dir)) = root_data (link root (!dir)) ∧
      link (link res dir) dir = link root dir ∧
      link (link res dir) (!dir) = link (link (link root (!dir)) dir) dir ∧
      link (link res (!dir)) dir = link (link (link root (!dir)) dir) (!dir) ∧
      link (link res (!dir)) (!dir) = link (link root (!dir)) (!dir) ∧
      height_here res ∧ height_here (link res dir) ∧ height_here (link res (!dir)) ∧
      (search_order cmp root → search_order cmp res) := by
  have key : ∃ res, _avl_rot2 root dir = some res ∧ payloads res = payloads root ∧
      root_data res = root_data (link (link root (!dir)) dir) ∧
      root_data (link res dir) = root_data root ∧
      root_data (link res (!dir)) = root_data (link root (!dir)) ∧
      link (link res dir) dir = link root dir ∧
      link (link res dir) (!dir) = link (link (link root (!dir)) dir) dir ∧
      link (link res (!dir)) dir = link (link (link root (!dir)) dir) (!dir) ∧
      link (link res (!dir)) (!dir) = link (link root (!dir)) (!dir) ∧
      height_here res ∧ height_here (link res dir) ∧ height_here (link res (!dir)) := by
    cases root with
    | null => exact absurd rfl h1
    | node l r h d =>
        cases dir with
        | false =>
            cases r with
            | null => exact absurd rfl h1
            | node sl sr sh sd =>
                cases sl with
                | null => exact absurd rfl h1
                | node g0 g1 gh gd =>
                    refine ⟨_, by simp only [_avl_rot2, _avl_rot1, Option.bind]; rfl, ?_⟩
                    simp [payloads, root_data, link, height_here, __HEIGHT, __MAX, max_def]
                    refine ⟨?_, ?_, ?_⟩ <;> split_ifs <;> omega
        | true =>
            cases l with
            | null => exact absurd rfl h1
            | node sl sr sh sd =>
                cases sr with
                | null => exact absurd rfl h1
                | node g0 g1 gh gd =>
                    refine ⟨_, by simp only [_avl_rot2, _avl_rot1, Option.bind]; rfl, ?_⟩
                    simp [payloads, root_data, link, height_here, __HEIGHT, __MAX, max_def]
                    refine ⟨?_, ?_, ?_⟩ <;> split_ifs <;> omega
  obtain ⟨res, e, p, rest⟩ := key
  refine ⟨res, e, p, ?_⟩
  obtain ⟨r1, r2, r3, r4, r5, r6, r7, r8, r9, r10⟩ := rest
  refine ⟨r1, r2, r3, r4, r5, r6, r7, r8, r9, r10, fun hso => ?_⟩
  rw [search_order_iff_sorted hc, p]
  exact (search_order_iff_sorted hc root).1 hso

/-! ## The operations on trees with at most 64 levels -/

section within
variable {α : Type}

theorem avl_insert_within_capacity (cmp : α → α → Int) (hc : lawful cmp) (t : avl_root α) (p : α)
    (hwf : well_formed cmp t) (hh : __HEIGHT t.root < 64) :
    ∃ code t1, avl_insert cmp true t p = some (code, t1) ∧ well_formed cmp t1 ∧
      avl_assert cmp t1 = true := by
  obtain ⟨code, t1, e, w, -⟩ := avl_insert_cases hc true t p hwf
    (search_fits_of_height cmp p t.root hwf.avl hh)
  exact ⟨code, t1, e, w, assert_of_well_formed t1 w⟩

theorem avl_remove_within_capacity (cmp : α → α → Int) (hc : lawful cmp) (t : avl_root α) (p : α)
    (hwf : well_formed cmp t) (hh : __HEIGHT t.root < 64) :
    ∃ code t1 freed, avl_remove cmp t p = some (code, t1, freed) ∧ well_formed cmp t1 ∧
      avl_assert cmp t1 = true := by
  obtain ⟨code, t1, freed, e, w, -⟩ := avl_remove_cases hc t p hwf
    (remove_fits_of_height cmp p t.root hwf.avl hh)
  exact ⟨code, t1, freed, e, w, assert_of_well_formed t1 w⟩

theorem remove_present_within_capacity (cmp : α → α → Int) (hc : lawful cmp) (t : avl_root α)
    (p : α) (hwf : well_formed cmp t) (hx : ∃ x ∈ payloads t.root, cmp x p = 0)
    (hh : __HEIGHT t.root < 64) :
    ∃ t1 freed l1 x l2, avl_remove cmp t p = some (0, t1, freed) ∧
      avl_foreach t = l1 ++ x :: l2 ∧ cmp x p = 0 ∧ (∀ y ∈ l1 ++ l2, cmp y p ≠ 0) ∧
      avl_foreach t1 = l1 ++ l2 ∧ t1.size + 1 = t.size ∧ (avl_find cmp t1 p).1 = 0 := by
  obtain ⟨T, f, l1, x, l2, e, aT, p1, p2, p3⟩ := avl_remove_found hc t p hwf hx
    (remove_fits_of_height cmp p t.root hwf.avl hh)
  have hs := hwf.sorted hc
  rw [p1] at hs
  have hpos : 0 < t.size := by
    rw [hwf.size_eq, count_eq_length, p1]; simp
  have hso : search_order cmp T :=
    (search_order_iff_sorted hc T).2 (p3 ▸ sorted_remove l1 l2 x hs)
  refine ⟨_, [f], l1, x, l2, e, ?_, p2, sorted_unique hc l1 l2 x p hs p2, ?_, ?_, ?_⟩
  · simp only [avl_foreach, foreach_core_eq, p1]
  · simp only [avl_foreach, foreach_core_eq, p3]
  · simp only; omega
  · exact (find_loop_spec hc p T hso).2 (p3 ▸ sorted_unique hc l1 l2 x p hs p2)

theorem remove_absent_within_capacity (cmp : α → α → Int) (t : avl_root α) (p : α)
    (ha : avl t.root) (hne : ∀ x ∈ payloads t.root, cmp x p ≠ 0) (hh : __HEIGHT t.root < 64) :
    avl_remove cmp t p = some (ENOENT, t, []) :=
  avl_remove_absent cmp t p hne (remove_fits_of_height cmp p t.root ha hh)

theorem insert_new_within_capacity (cmp : α → α → Int) (hc : lawful cmp) (t : avl_root α)
    (p : α) (hwf : well_formed cmp t) (hnew : ∀ x ∈ payloads t.root, cmp x p ≠ 0)
    (hh : __HEIGHT t.root < 64) (hroom : t.size + 1 < SIZE_T_MOD) :
    ∃ t1, avl_insert cmp true t p = some (0, t1) ∧ t1.size = t.size + 1 ∧
      (avl_find cmp t1 p).1 = 1 := by
  obtain ⟨T, l1, l2, e, aT, p1, p2, p3, p4⟩ := avl_insert_new hc t p hwf hnew hroom
    (search_fits_of_height cmp p t.root hwf.avl hh)
  refine ⟨_, e, rfl, ?_⟩
  have hso : search_order cmp T :=
    (search_order_iff_sorted hc T).2
      (p2 ▸ sorted_insert hc l1 l2 p (p1 ▸ hwf.sorted hc) p3 p4)
  exact (find_loop_spec hc p T hso).1 ⟨p, by rw [p2]; simp, hc.refl p⟩

theorem insert_duplicate_within_capacity (cmp : α → α → Int) (hc : lawful cmp) (alloc : Bool)
    (t : avl_root α) (p : α) (hwf : well_formed cmp t)
    (hdup : ∃ x ∈ payloads t.root, cmp x p = 0) (hh : __HEIGHT t.root < 64)
    (hroom : t.size + 1 < SIZE_T_MOD) :
    avl_insert cmp alloc t p = some (EEXIST, t) := by
  have hne : (t.size + 1) % SIZE_T_MOD ≠ 0 := by
    rw [Nat.mod_eq_of_lt hroom]; omega
  exact avl_insert_dup hc alloc t p hwf.order hdup hne
    (search_fits_of_height cmp p t.root hwf.avl hh)

theorem insert_oom_within_capacity (cmp : α → α → Int) (t : avl_root α) (p : α)
    (hwf : well_formed cmp t) (hnew : ∀ x ∈ payloads t.root, cmp x p ≠ 0)
    (hh : __HEIGHT t.root < 64) :
    avl_insert cmp false t p = some (ENOMEM, t) :=
  avl_insert_oom cmp t p hwf.size_zero hnew (search_fits_of_height cmp p t.root hwf.avl hh)

theorem insert_list_within_capacity (cmp : α → α → Int) (hc : lawful cmp) (ks : List α)
    (hlen : (distinct_keys cmp ks).length < nodes_of_65_levels) :
    ∃ t, insert_list cmp ks empty_tree = some t ∧
      (avl_foreach t).Pairwise (fun a b => cmp a b < 0) ∧
      (avl_foreach t).Perm (distinct_keys cmp ks) ∧
      (∀ x ∈ avl_foreach t, x ∈ ks) ∧ (∀ k ∈ ks, ∃ x ∈ avl_foreach t, cmp x k = 0) ∧
      avl_size t = some (distinct_keys cmp ks).length := by
  obtain ⟨t, e, w, q⟩ := insert_list_spec hc ks empty_tree [] (empty_tree_wf cmp)
    (List.Perm.refl _) hlen
  have hf : avl_foreach t = payloads t.root := foreach_core_eq t.root
  refine ⟨t, e, ?_, ?_, ?_, ?_, ?_⟩
  · rw [hf]; exact w.sorted hc
  · rw [hf]; exact q
  · intro x hx
    rw [hf] at hx
    rcases distinct_from_subset cmp ks [] x (q.mem_iff.1 hx) with h | h
    · simp at h
    · exact h
  · intro k hk
    obtain ⟨x, hx, h0⟩ := distinct_from_covers hc ks [] k hk
    exact ⟨x, by rw [hf]; exact q.mem_iff.2 hx, h0⟩
  · rw [avl_size_of_well_formed t w, q.length_eq]; rfl

theorem sequence_within_capacity (cmp : α → α → Int) (hc : lawful cmp)
    (ops : List (tree_op α)) (hlen : ops.length ≤ nodes_of_65_levels) :
    ∃ t i r, run_ops cmp ops (empty_tree, 0, 0) = some (t, i, r) ∧ well_formed cmp t ∧
      (avl_foreach t).Pairwise (fun a b => cmp a b < 0) ∧
      avl_size t = some (count t.root) ∧ r ≤ i ∧ avl_size t = some (i - r) ∧
      (t.size = 0 ↔ t.root = .null) ∧
      Nat.fib (Int.toNat (__HEIGHT t.root + 3)) - 1 ≤ count t.root ∧
      ((__HEIGHT t.root : Int) : ℝ) ≤ 1.44 * Real.logb 2 ((count t.root : ℝ) + 2) := by
  obtain ⟨t, i, r, e, w, h⟩ := run_ops_spec hc ops empty_tree 0 0 (empty_tree_wf cmp) rfl
    (by simp only [empty_tree]; omega)
  have hf : avl_foreach t = payloads t.root := foreach_core_eq t.root
  have hs : avl_size t = some (count t.root) := by
    rw [avl_size_of_well_formed t w, count_eq_length]
  have hc1 := w.size_eq
  have hn : count t.root < 2 ^ 64 := by
    have h2 : t.size < 2 ^ 64 := w.size_lt
    omega
  have hfib := avl_fib t.root w.avl
  refine ⟨t, i, r, e, w, by rw [hf]; exact w.sorted hc, hs, by omega, ?_, w.size_zero_iff,
    by omega, avl_log_bound t.root w.avl hn⟩
  rw [hs]
  congr 1
  omega

end within

/-! ## The claims -/

/-- C1, the code at the failing input: `slim_tree`, the tree that inserting
its 44945570212852 payloads level by level into an empty tree gives, is
well-formed (search order, balance and cached heights at every node, `size`
equal to the number of nodes) and has 65 levels; the search loop of
`avl_insert` for the payload -1 pushes 65 slots, so with allocation
succeeding the call writes outside `up[64]` / `upd[64]` and leaves no tree
the invariants hold on. -/
theorem avl_insert_overruns_on_slim_tree :
    insert_list int_cmp slim_keys empty_tree = some slim_tree ∧
      well_formed int_cmp slim_tree ∧ __HEIGHT slim_tree.root = 64 ∧
      search_pushes int_cmp (-1) slim_tree.root = 65 ∧
      avl_insert int_cmp true slim_tree (-1) = none :=
  ⟨slim_keys_build, slim_tree_wf, slim_node_height 65 0, slim_tree_pushes.1,
    avl_insert_overrun int_cmp true slim_tree (-1) slim_tree_room
      (by rw [slim_tree_pushes.1]; decide)⟩

/-- C2, the code at the failing inputs: on the well-formed tree `slim_tree`
(65 levels) `avl_remove` of the absent payload -1 pushes 65 slots, and on the
well-formed tree `deep_tree` (66 levels) `avl_remove` of the stored payload 0
pushes 65 slots before it reaches the node; both calls write outside
`up[64]` / `upd[64]` and leave no tree the invariants hold on. -/
theorem avl_remove_overruns_on_deep_trees :
    (well_formed int_cmp slim_tree ∧ remove_pushes int_cmp (-1) slim_tree.root = 65 ∧
        avl_remove int_cmp slim_tree (-1) = none) ∧
      (well_formed int_cmp deep_tree ∧ remove_pushes int_cmp 0 deep_tree.root = 65 ∧
        avl_remove int_cmp deep_tree 0 = none) :=
  ⟨⟨slim_tree_wf, slim_tree_pushes.2,
      avl_remove_overrun int_cmp slim_tree (-1) (by rw [slim_tree_pushes.2]; decide)⟩,
    ⟨deep_tree_wf, deep_tree_pushes.2,
      avl_remove_overrun int_cmp deep_tree 0 (by rw [deep_tree_pushes.2]; decide)⟩⟩

/-- C4, the code at the failing input: the list of the 44945570212852
payloads of `slim_tree`, level by level, followed by -1. Inserting the first
44945570212852 keys one by one into an empty tree gives `slim_tree`; the
insertion of -1 then pushes 65 slots and writes outside `up[64]` /
`upd[64]`, so no tree is left to traverse. -/
theorem insert_list_overruns :
    slim_keys.length = 44945570212852 ∧
      insert_list int_cmp slim_keys empty_tree = some slim_tree ∧
      insert_list int_cmp (slim_keys ++ [-1]) empty_tree = none := by
  refine ⟨slim_keys_plain.2.2, slim_keys_build, ?_⟩
  rw [insert_list_append, slim_keys_build]
  show insert_list int_cmp [-1] slim_tree = none
  have e := avl_insert_overrun int_cmp true slim_tree (-1) slim_tree_room
    (by rw [slim_tree_pushes.1]; decide)
  simp only [insert_list, e]

/-- C5, the code at the failing input: `slim_tree` is well-formed, -1
compares equal to none of its payloads and its size is far below the largest
`size_t`, but `avl_insert` of -1 with allocation succeeding does not return
0 with a tree: the call writes outside `up[64]` / `upd[64]`. -/
theorem insert_find_overruns :
    well_formed int_cmp slim_tree ∧ (∀ x ∈ payloads slim_tree.root, int_cmp x (-1) ≠ 0) ∧
      slim_tree.size = 44945570212852 ∧
      avl_insert int_cmp true slim_tree (-1) = none ∧
      ¬ ∃ t1, avl_insert int_cmp true slim_tree (-1) = some (0, t1) := by
  have e := avl_insert_overrun int_cmp true slim_tree (-1) slim_tree_room
    (by rw [slim_tree_pushes.1]; decide)
  refine ⟨slim_tree_wf, slim_tree_lacks_neg, slim_count_65, e, ?_⟩
  rintro ⟨t1, h⟩
  rw [e] at h
  cases h

/-- C7: for every tree satisfying the search-order invariant under a lawful
comparator and every query `q`, `avl_find` returns 1 if and only if some stored
payload compares equal to `q`, returns 0 otherwise, and the tree after the
call is the tree before it. -/
theorem avl_find_decides_membership {α : Type} (cmp : α → α → Int) (hc : lawful cmp)
    (t : avl_root α) (q : α) (hso : search_order cmp t.root) :
    ((avl_find cmp t q).1 = 1 ↔ ∃ x ∈ payloads t.root, cmp x q = 0) ∧
      ((avl_find cmp t q).1 = 0 ↔ ¬ ∃ x ∈ payloads t.root, cmp x q = 0) ∧
      (avl_find cmp t q).2 = t := by
  have hf := find_loop_spec hc q t.root hso
  by_cases hx : ∃ x ∈ payloads t.root, cmp x q = 0
  · have h1 : (avl_find cmp t q).1 = 1 := hf.1 hx
    refine ⟨⟨fun _ => hx, fun _ => h1⟩, ⟨fun h => ?_, fun h => absurd hx h⟩, rfl⟩
    rw [h1] at h
    exact absurd h (by decide)
  · have h0 : (avl_find cmp t q).1 = 0 := hf.2 fun x hx0 h => hx ⟨x, hx0, h⟩
    refine ⟨⟨fun h => ?_, fun h => absurd h hx⟩, ⟨fun _ => hx, fun _ => h0⟩, rfl⟩
    rw [h0] at h
    exact absurd h (by decide)

theorem avl_find_decides_membership_witness :
    search_order int_cmp example_tree.root ∧
      (((avl_find int_cmp example_tree 4).1 = 1 ↔
          ∃ x ∈ payloads example_tree.root, int_cmp x 4 = 0) ∧
        ((avl_find int_cmp example_tree 4).1 = 0 ↔
          ¬ ∃ x ∈ payloads example_tree.root, int_cmp x 4 = 0) ∧
        (avl_find int_cmp example_tree 4).2 = example_tree) :=
  ⟨example_tree_wf.order,
    avl_find_decides_membership int_cmp int_cmp_lawful example_tree 4 example_tree_wf.order⟩

/-- C9, the code at the failing input: `slim_tree` is well-formed and -1
compares equal to none of its payloads; the search loop of `avl_remove` for
-1 pushes 65 slots before it reaches the `NULL` link, so the call writes
outside `up[64]` / `upd[64]` before it can return `ENOENT`. -/
theorem remove_absent_overruns :
    well_formed int_cmp slim_tree ∧ (∀ x ∈ payloads slim_tree.root, int_cmp x (-1) ≠ 0) ∧
      remove_search int_cmp (-1) slim_tree.root [] = none ∧
      avl_remove int_cmp slim_tree (-1) = none ∧
      ¬ ∃ t1 freed, avl_remove int_cmp slim_tree (-1) = some (ENOENT, t1, freed) := by
  have e := avl_remove_overrun int_cmp slim_tree (-1) (by rw [slim_tree_pushes.2]; decide)
  refine ⟨slim_tree_wf, slim_tree_lacks_neg,
    remove_search_overrun int_cmp (-1) slim_tree.root [] (by decide)
      (by rw [slim_tree_pushes.1]; decide), e, ?_⟩
  rintro ⟨t1, freed, h⟩
  rw [e] at h
  cases h

/-- C10, the code at the failing input: removing 2 from the tree with root 2
and children 1 and 3 (built by inserting 2, 1, 3) returns 0, calls the
destructor once, on 3, and leaves a tree that still stores 3 (at its root); the
removed payload 2 is never passed to the destructor. Removing 5, a node with
one child, from the tree built from 1, 5, 3, 8, 2 calls the destructor on 5. -/
theorem avl_remove_frees_successor_payload :
    insert_list int_cmp [2, 1, 3] empty_tree = some small_tree ∧
      small_tree = ⟨.node (leaf 1) (leaf 3) 1 2, 3⟩ ∧
      avl_remove int_cmp small_tree 2 = some (0, ⟨.node (leaf 1) .null 1 3, 2⟩, [3]) ∧
      avl_foreach (⟨.node (leaf 1) .null 1 3, 2⟩ : avl_root Int) = [1, 3] ∧
      (avl_remove int_cmp example_tree 5).map (fun r => r.2.2) = some [5] := by
  decide

/-- C11: for every tree of any shape whose `size` field equals its number of
nodes, the loop of `avl_clear` ends (after at most `rot_weight + 1` tests of
its condition), the destructor is called exactly on the payloads of the
nodes, each node once, in traversal order, and the handle is left with
`size == 0` and no root; a second `avl_clear` passes its assertions, calls the
destructor on nothing and leaves `size == 0`. -/
theorem avl_clear_empties {α : Type} (t : avl_root α) (fuel : Nat)
    (hsize : t.size = count t.root) (hlt : t.size < SIZE_T_MOD)
    (hfuel : rot_weight t.root < fuel) :
    avl_clear fuel t = some (⟨.null, 0⟩, payloads t.root) ∧
      (payloads t.root).length = count t.root ∧
      ∃ t1 freed, avl_clear fuel t = some (t1, freed) ∧ t1.size = 0 ∧ t1.root = .null ∧
        avl_clear fuel t1 = some (⟨.null, 0⟩, []) := by
  have h := free_loop_spec fuel t.root t.size 0 [] hfuel (by omega) hlt (by omega)
  have e : avl_clear fuel t = some (⟨.null, 0⟩, payloads t.root) := by
    simp only [avl_clear, _avl_free_core, h, Nat.zero_add, List.nil_append]
    rw [← hsize]
    simp
  have e2 : avl_clear fuel (⟨.null, 0⟩ : avl_root α) = some (⟨.null, 0⟩, []) := by
    cases fuel with
    | zero => omega
    | succ n => rfl
  exact ⟨e, (count_eq_length t.root).symm, _, _, e, rfl, rfl, e2⟩

theorem avl_clear_empties_witness :
    (example_tree.size = count example_tree.root ∧ example_tree.size < SIZE_T_MOD ∧
        rot_weight example_tree.root < 100) ∧
      (avl_clear 100 example_tree = some (⟨.null, 0⟩, payloads example_tree.root) ∧
        (payloads example_tree.root).length = count example_tree.root ∧
        ∃ t1 freed, avl_clear 100 example_tree = some (t1, freed) ∧ t1.size = 0 ∧
          t1.root = .null ∧ avl_clear 100 t1 = some (⟨.null, 0⟩, [])) :=
  ⟨⟨by decide, by decide, by decide⟩,
    avl_clear_empties example_tree 100 (by decide) (by decide) (by decide)⟩

/-- C14, the code at the failing input: `slim_tree` is well-formed and -1
compares equal to none of its payloads; with the allocation failing,
`avl_insert` of -1 still runs its search loop first, which pushes 65 slots,
so the call writes outside `up[64]` / `upd[64]` before `_make_node` is
called and before it can return `ENOMEM`. -/
theorem insert_out_of_memory_overruns :
    well_formed int_cmp slim_tree ∧ (∀ x ∈ payloads slim_tree.root, int_cmp x (-1) ≠ 0) ∧
      insert_search int_cmp (-1) slim_tree.root [] = none ∧
      avl_insert int_cmp false slim_tree (-1) = none ∧
      ¬ ∃ t1, avl_insert int_cmp false slim_tree (-1) = some (ENOMEM, t1) := by
  have e := avl_insert_overrun int_cmp false slim_tree (-1) slim_tree_room
    (by rw [slim_tree_pushes.1]; decide)
  refine ⟨slim_tree_wf, slim_tree_lacks_neg,
    insert_search_overrun int_cmp (-1) slim_tree.root [] (by decide)
      (by rw [slim_tree_pushes.1]; decide), e, ?_⟩
  rintro ⟨t1, h⟩
  rw [e] at h
  cases h

/-- C15, as amended: for every tree handle, if `avl_assert` completes without
a failed assertion then at every node the payload of the left child, if
present, compares less than the payload of the node and the payload of the
right child, if present, compares greater, and the `size` field equals the
number of nodes reachable from the root (as a `size_t`, so the number itself
when it is below 2^64). -/
theorem avl_assert_checks {α : Type} (cmp : α → α → Int) (t : avl_root α)
    (h : avl_assert cmp t = true) :
    children_ordered cmp t.root ∧ t.size = count t.root % SIZE_T_MOD ∧
      (count t.root < SIZE_T_MOD → t.size = count t.root) := by
  cases hr : _avl_assert_r cmp t.root with
  | none => simp [avl_assert, hr] at h
  | some k =>
      simp only [avl_assert, hr, decide_eq_true_eq] at h
      obtain ⟨o, q⟩ := assert_r_sound cmp t.root k hr
      refine ⟨o, by rw [← h, q], fun hlt => ?_⟩
      rw [← h, q, Nat.mod_eq_of_lt hlt]

theorem avl_assert_checks_witness :
    avl_assert int_cmp example_tree = true ∧
      (children_ordered int_cmp example_tree.root ∧
        example_tree.size = count example_tree.root % SIZE_T_MOD ∧
        (count example_tree.root < SIZE_T_MOD → example_tree.size = count example_tree.root)) :=
  ⟨by decide, avl_assert_checks int_cmp example_tree (by decide)⟩

/-- C15 fails: `avl_assert` passes on a tree that has 10 in the left subtree
of 5, and on a chain of three nodes whose root has children of cached heights
-1 and 1. -/
theorem avl_assert_passes_on_bad_trees :
    avl_assert int_cmp misordered_tree = true ∧ ¬ search_order int_cmp misordered_tree.root ∧
      avl_assert int_cmp chain_tree = true ∧ ¬ balanced chain_tree.root ∧
      heights_cached chain_tree.root := by
  refine ⟨by decide, ?_, by decide, ?_, ?_⟩
  · intro h
    have := h.1 10 (by simp [misordered_tree, leaf, payloads])
    simp [int_cmp] at this
  · intro h
    have := h.1
    simp [chain_tree, leaf, __HEIGHT] at this
  · simp [chain_tree, leaf, heights_cached, __HEIGHT]

/-- C17: for every three keys `a < b < c` under a lawful comparator, inserting
`a`, `b`, `c` in that order into an empty tree gives, after the second
insertion, the chain `a`, `b`; the third insertion returns 0 and its result is
the single rotation `_avl_rot1` of the chain `a`, `b`, `c`: root `b` with
cached height 1, left child the leaf `a`, right child the leaf `c`, both of
height 0; the traversal is `a`, `b`, `c`. -/
theorem rotation_on_ascending_insert {α : Type} (cmp : α → α → Int) (hc : lawful cmp)
    (a b c : α) (hab : cmp a b < 0) (hbc : cmp b c < 0) :
    insert_list cmp [a, b] empty_tree = some ⟨.node .null (leaf b) 1 a, 2⟩ ∧
      avl_insert cmp true ⟨.node .null (leaf b) 1 a, 2⟩ c =
        some (0, ⟨.node (leaf a) (leaf c) 1 b, 3⟩) ∧
      insert_list cmp [a, b, c] empty_tree = some ⟨.node (leaf a) (leaf c) 1 b, 3⟩ ∧
      _avl_rot1 (.node .null (.node .null (leaf c) 1 b) 1 a) false =
        some (.node (leaf a) (leaf c) 1 b) ∧
      __HEIGHT (leaf a) = 0 ∧ __HEIGHT (leaf c) = 0 ∧
      avl_foreach (⟨.node (leaf a) (leaf c) 1 b, 3⟩ : avl_root α) = [a, b, c] := by
  have hac : cmp a c < 0 := hc.lt_trans a b c hab hbc
  have h1 : ¬ cmp a b = 0 := by omega
  have h2 : ¬ cmp a c = 0 := by omega
  have h3 : ¬ cmp b c = 0 := by omega
  have e1 : avl_insert cmp true empty_tree a = some (0, ⟨leaf a, 1⟩) := by
    simp [avl_insert, empty_tree, _make_node, leaf, SIZE_T_MOD]
  have e2 : avl_insert cmp true ⟨leaf a, 1⟩ b = some (0, ⟨.node .null (leaf b) 1 a, 2⟩) := by
    simp [avl_insert, leaf, _make_node, SIZE_T_MOD, insert_search, PATH_SLOTS, h1, hab, insert_walk,
      insert_step, __HEIGHT, __MAX, link_node]
  have e3 : avl_insert cmp true ⟨.node .null (leaf b) 1 a, 2⟩ c =
      some (0, ⟨.node (leaf a) (leaf c) 1 b, 3⟩) := by
    simp [avl_insert, leaf, _make_node, SIZE_T_MOD, insert_search, PATH_SLOTS, h2, h3, hac, hbc,
      insert_walk, insert_step, __HEIGHT, __MAX, link_node, path_slot.node, _avl_rot1, relink]
  refine ⟨?_, e3, ?_, ?_, rfl, rfl, ?_⟩
  · simp only [insert_list, e1, e2]
  · simp only [insert_list, e1, e2, e3]
  · simp [_avl_rot1, leaf, __HEIGHT, __MAX]
  · simp [avl_foreach, _avl_foreach_core, leaf]

theorem rotation_on_ascending_insert_witness :
    (int_cmp 1 2 < 0 ∧ int_cmp 2 3 < 0) ∧
      (insert_list int_cmp [1, 2] empty_tree = some ⟨.node .null (leaf 2) 1 1, 2⟩ ∧
        avl_insert int_cmp true ⟨.node .null (leaf 2) 1 1, 2⟩ 3 =
          some (0, ⟨.node (leaf 1) (leaf 3) 1 2, 3⟩) ∧
        insert_list int_cmp [1, 2, 3] empty_tree = some ⟨.node (leaf 1) (leaf 3) 1 2, 3⟩ ∧
        _avl_rot1 (.node .null (.node .null (leaf 3) 1 2) 1 (1 : Int)) false =
          some (.node (leaf 1) (leaf 3) 1 2) ∧
        __HEIGHT (leaf (1 : Int)) = 0 ∧ __HEIGHT (leaf (3 : Int)) = 0 ∧
        avl_foreach (⟨.node (leaf 1) (leaf 3) 1 2, 3⟩ : avl_root Int) = [1, 2, 3]) :=
  ⟨⟨by decide, by decide⟩,
    rotation_on_ascending_insert int_cmp int_cmp_lawful 1 2 3 (by decide) (by decide)⟩

/-- C18, the code at the failing input: the sparsest balanced tree with 65
levels is well-formed and has 44945570212852 nodes, fewer than 2^64, and the
search loop of `avl_insert` for the key -1 pushes 65 slots on the path stack,
one more than the 64 slots of `up` and `upd`: the loops of `avl_insert` and
of `avl_remove` both end in a write outside the arrays. -/
theorem path_stack_overrun :
    well_formed int_cmp slim_tree ∧ slim_tree.size = 44945570212852 ∧
      slim_tree.size < 2 ^ 64 ∧
      (∃ stk, insert_descent int_cmp (-1) slim_tree.root [] = some stk ∧ stk.length = 65) ∧
      PATH_SLOTS < 65 ∧
      insert_search int_cmp (-1) slim_tree.root [] = none ∧
      remove_search int_cmp (-1) slim_tree.root [] = none := by
  have h1 := slim_tree_size
  have h2 := fib_67
  obtain ⟨stk, e, hl⟩ := (slim_node_search (-1) 65 0 [] (by decide)).1
  refine ⟨slim_tree_wf, by omega, by omega, ⟨stk, e, ?_⟩, by decide,
    insert_search_overrun int_cmp (-1) slim_tree.root [] (by decide)
      (by rw [slim_tree_pushes.1]; decide),
    remove_search_overrun int_cmp (-1) slim_tree.root [] (by decide)
      (by rw [slim_tree_pushes.1]; decide)⟩
  rw [hl]
  rfl

/-- C19: for every node whose child on the side opposite `dir` is present,
`_avl_rot1(node, dir)` returns a subtree with the same payloads in the same
order, whose root is the promoted child and whose child on side `dir` is the
demoted node, both with a cached height equal to 1 + the maximum of the cached
heights of their children; when the grandchild on side `dir` of that child is
present too, `_avl_rot2(node, dir)` returns a subtree with the same payloads in
the same order, whose root is that grandchild and whose children are the
demoted node (side `dir`) and the former child (other side), all three with a
cached height equal to 1 + the maximum of the cached heights of their
children. Under a lawful comparator both keep the search-order invariant. -/
theorem rotations_keep_order_and_heights {α : Type} (cmp : α → α → Int) (hc : lawful cmp)
    (root : avl_node α) (dir : Bool) (h1 : link root (!dir) ≠ .null) :
    (∃ res, _avl_rot1 root dir = some res ∧ payloads res = payloads root ∧
        root_data res = root_data (link root (!dir)) ∧
        root_data (link res dir) = root_data root ∧
        height_here res ∧ height_here (link res dir) ∧
        (search_order cmp root → search_order cmp res)) ∧
      (link (link root (!dir)) dir ≠ .null →
        ∃ res, _avl_rot2 root dir = some res ∧ payloads res = payloads root ∧
          root_data res = root_data (link (link root (!dir)) dir) ∧
          root_data (link res dir) = root_data root ∧
          root_data (link res (!dir)) = root_data (link root (!dir)) ∧
          height_here res ∧ height_here (link res dir) ∧ height_here (link res (!dir)) ∧
          (search_order cmp root → search_order cmp res)) := by
  constructor
  · obtain ⟨res, e, p, r1, -, r3, -, -, r6, r7, r8⟩ := rot1_spec hc root dir h1
    exact ⟨res, e, p, r1, r3, r6, r7, r8⟩
  · intro h2
    obtain ⟨res, e, p, r1, r2, r3, -, -, -, -, r8, r9, r10, r11⟩ := rot2_spec hc root dir h2
    exact ⟨res, e, p, r1, r2, r3, r8, r9, r10, r11⟩

theorem rotations_keep_order_and_heights_witness :
    (link zigzag_node (!false) ≠ .null ∧ link (link zigzag_node (!false)) false ≠ .null) ∧
      (∃ res, _avl_rot1 zigzag_node false = some res ∧ payloads res = payloads zigzag_node ∧
        root_data res = root_data (link zigzag_node (!false)) ∧
        root_data (link res false) = root_data zigzag_node ∧
        height_here res ∧ height_here (link res false) ∧
        (search_order int_cmp zigzag_node → search_order int_cmp res)) ∧
      (∃ res, _avl_rot2 zigzag_node false = some res ∧ payloads res = payloads zigzag_node ∧
        root_data res = root_data (link (link zigzag_node (!false)) false) ∧
        root_data (link res false) = root_data zigzag_node ∧
        root_data (link res (!false)) = root_data (link zigzag_node (!false)) ∧
        height_here res ∧ height_here (link res false) ∧ height_here (link res (!false)) ∧
        (search_order int_cmp zigzag_node → search_order int_cmp res)) :=
  ⟨⟨by decide, by decide⟩,
    (rotations_keep_order_and_heights int_cmp int_cmp_lawful zigzag_node false (by decide)).1,
    (rotations_keep_order_and_heights int_cmp int_cmp_lawful zigzag_node false (by decide)).2
      (by decide)⟩

/-- C20, as amended: `avl_alloc` without a comparator installs `_avl_raw_cmp`,
the 64-bit wrap-around difference, and for all 64-bit payload values:
`cmp(a, b) == 0` iff `a == b`; `cmp(a, b) < 0` iff `cmp(b, a) > 0` whenever
`a` and `b` are not exactly 2^63 apart; and `cmp(a, b) < 0` and
`cmp(b, c) < 0` imply `cmp(a, c) < 0` whenever `a`, `b`, `c` are pairwise less
than 2^63 apart. -/
theorem raw_cmp_laws {φ : Type} (raw_free : φ) (free_f : Option φ) (a b c : Nat)
    (ha : a < 2 ^ 64) (hb : b < 2 ^ 64) :
    (∃ h, avl_alloc raw_free true none free_f = some h ∧ h.cmp = _avl_raw_cmp) ∧
      (_avl_raw_cmp a b = 0 ↔ a = b) ∧
      (((a : Int) - b ≠ 2 ^ 63 ∧ (b : Int) - a ≠ 2 ^ 63) →
        (_avl_raw_cmp a b < 0 ↔ _avl_raw_cmp b a > 0)) ∧
      ((|(a : Int) - b| < 2 ^ 63 ∧ |(b : Int) - c| < 2 ^ 63 ∧ |(a : Int) - c| < 2 ^ 63) →
        _avl_raw_cmp a b < 0 → _avl_raw_cmp b c < 0 → _avl_raw_cmp a c < 0) := by
  refine ⟨⟨_, rfl, rfl⟩, ?_, ?_, ?_⟩
  · simp only [_avl_raw_cmp, wrap_ptrdiff]
    omega
  · simp only [_avl_raw_cmp, wrap_ptrdiff]
    omega
  · simp only [_avl_raw_cmp, wrap_ptrdiff, abs_lt]
    omega

theorem raw_cmp_laws_witness :
    ((1 : Nat) < 2 ^ 64 ∧ (2 : Nat) < 2 ^ 64) ∧
      ((∃ h, avl_alloc () true none (none : Option Unit) = some h ∧ h.cmp = _avl_raw_cmp) ∧
        (_avl_raw_cmp 1 2 = 0 ↔ 1 = 2) ∧
        ((((1 : Nat) : Int) - (2 : Nat) ≠ 2 ^ 63 ∧ ((2 : Nat) : Int) - (1 : Nat) ≠ 2 ^ 63) →
          (_avl_raw_cmp 1 2 < 0 ↔ _avl_raw_cmp 2 1 > 0)) ∧
        ((|((1 : Nat) : Int) - (2 : Nat)| < 2 ^ 63 ∧ |((2 : Nat) : Int) - (3 : Nat)| < 2 ^ 63 ∧
            |((1 : Nat) : Int) - (3 : Nat)| < 2 ^ 63) →
          _avl_raw_cmp 1 2 < 0 → _avl_raw_cmp 2 3 < 0 → _avl_raw_cmp 1 3 < 0)) :=
  ⟨⟨by decide, by decide⟩, raw_cmp_laws () none 1 2 3 (by decide) (by decide)⟩

/-- C20 fails: for the 64-bit values 0 and 2^63 both `cmp(0, 2^63)` and
`cmp(2^63, 0)` are negative, and for 0, 2^63 - 1 and 2^64 - 2 the comparator
says 0 < 2^63 - 1 and 2^63 - 1 < 2^64 - 2 but 0 > 2^64 - 2. -/
theorem raw_cmp_not_an_order :
    _avl_raw_cmp 0 (2 ^ 63) < 0 ∧ ¬ _avl_raw_cmp (2 ^ 63) 0 > 0 ∧
      _avl_raw_cmp 0 (2 ^ 63 - 1) < 0 ∧ _avl_raw_cmp (2 ^ 63 - 1) (2 ^ 64 - 2) < 0 ∧
      ¬ _avl_raw_cmp 0 (2 ^ 64 - 2) < 0 := by
  decide

end JwAvl
